import Mathlib

/-!
# FarMultiMeshFactory

A shallow embedding of `opensubdiv/far/multiMeshFactory.h`: the factory that merges
several `FarMesh` refinement descriptors into one, followed by theorems about it.

Conventions of the embedding.

* A `std::vector` is a `List`.  Sizes, vertex counts and the running offsets the
  factory derives from them are `Nat` (the source holds them in `int`, always
  non-negative); entries of `std::vector<int>` tables are `Int`; entries of
  `std::vector<unsigned int>` and `std::vector<unsigned char>` tables are `Nat`.
  Integers are unbounded: table entries are vertex indices and table positions, far
  from the 32-bit range.
* Weights (`float`) are rationals; the only arithmetic the factory does on them is
  adding the constant `0`.
* A random-access output iterator is an `Iter`: the destination vector together with
  a position in it.  `*dst_iterator++ = v` is `Iter.put`.  A write at a position beyond
  the destination's size, which the source leaves undefined, stores nothing.
* A read the source leaves undefined (past the end of a vector, or an element of an
  empty vector) yields a fixed default; every such place is marked in the definition.
* `assert` is compiled out (`NDEBUG`).
-/

namespace OpenSubdiv

/-! ## Data model -/

/-- Dynamic type of a subdivision-tables object, the `typeid` that the factory compares:
`FarCatmarkSubdivisionTables`, `FarBilinearSubdivisionTables` or `FarLoopSubdivisionTables`. -/
inductive Scheme
  | catmark
  | bilinear
  | loop
  deriving DecidableEq, Repr, Inhabited

/-- Modelled from the spec: the kernel-type tag of a batch (declared in `kernelBatch.h`).
The constructors are the tags `spliceSubdivisionTables` compares against. -/
inductive KernelType
  | CATMARK_FACE_VERTEX
  | CATMARK_EDGE_VERTEX
  | CATMARK_VERT_VERTEX_A1
  | CATMARK_VERT_VERTEX_A2
  | CATMARK_VERT_VERTEX_B
  | LOOP_EDGE_VERTEX
  | LOOP_VERT_VERTEX_A1
  | LOOP_VERT_VERTEX_A2
  | LOOP_VERT_VERTEX_B
  | BILINEAR_FACE_VERTEX
  | BILINEAR_EDGE_VERTEX
  | BILINEAR_VERT_VERTEX
  | HIERARCHICAL_EDIT
  deriving DecidableEq, Repr, Inhabited

/-- Modelled from the spec: `FarKernelBatch` (declared in `kernelBatch.h`), one schedulable
unit: kernel-type tag, table offset, vertex offset, level and an edit-table index. -/
structure FarKernelBatch where
  kernelType : KernelType
  level : Int
  tableIndex : Int
  tableOffset : Int
  vertexOffset : Int
  deriving DecidableEq, Repr, Inhabited

/-- The fields of `FarSubdivisionTables<U>` the factory reads and writes.  `scheme` is the
dynamic type of the object and `maxLevel` is what `GetMaxLevel()` returns. -/
structure FarSubdivisionTables where
  scheme : Scheme
  maxLevel : Int
  F_ITa : List Int
  F_IT : List Nat
  E_IT : List Int
  E_W : List ℚ
  V_ITa : List Int
  V_IT : List Nat
  V_W : List ℚ
  deriving DecidableEq, Repr, Inhabited

/-- Modelled from the spec: the per-scheme table constructor (`new FarCatmarkSubdivisionTables<U>(farMesh, maxlevel)`
and its two siblings, declared outside this file), which produces an empty table of the
given scheme sized for the target level. -/
def FarSubdivisionTables.new (scheme : Scheme) (maxlevel : Int) : FarSubdivisionTables :=
  { scheme := scheme, maxLevel := maxlevel, F_ITa := [], F_IT := [], E_IT := [], E_W := [],
    V_ITa := [], V_IT := [], V_W := [] }

/-- One index/level array pair of `FarPatchTables`.  The full patches are
`_full._R_IT`, `_full._B_IT`, `_full._C_IT`, `_full._G_IT`, `_full._G_B_IT`; for a
transition pattern `t < 5` and a rotation `r < 4` the subtables are
`_transition[t]._R_IT`, `_transition[t]._B_IT[r]` and `_transition[t]._C_IT[r]`. -/
inductive PatchArray
  | full_R_IT
  | full_B_IT
  | full_C_IT
  | full_G_IT
  | full_G_B_IT
  | transition_R_IT (t : Fin 5)
  | transition_B_IT (t : Fin 5) (r : Fin 4)
  | transition_C_IT (t : Fin 5) (r : Fin 4)
  deriving DecidableEq, Repr, Inhabited

/-- Modelled from the spec: `FarPatchCount` (declared in `patchTables.h`), the patch-count
summary: one count per full patch type and, for each of the 5 transition patterns and 4
rotations, the transition-regular, boundary and corner counts. -/
structure FarPatchCount where
  regular : Nat
  boundary : Nat
  corner : Nat
  gregory : Nat
  boundaryGregory : Nat
  transitionRegular : Fin 5 → Nat
  transitionBoundary : Fin 5 → Fin 4 → Nat
  transitionCorner : Fin 5 → Fin 4 → Nat

/-- Modelled from the spec: a default-constructed `FarPatchCount`, all counts zero. -/
def FarPatchCount.zero : FarPatchCount :=
  { regular := 0, boundary := 0, corner := 0, gregory := 0, boundaryGregory := 0,
    transitionRegular := fun _ => 0, transitionBoundary := fun _ _ => 0,
    transitionCorner := fun _ _ => 0 }

instance : Inhabited FarPatchCount := ⟨FarPatchCount.zero⟩

/-- Modelled from the spec: `FarPatchCount::Append`, which sums all patch-count fields. -/
def FarPatchCount.Append (self c : FarPatchCount) : FarPatchCount :=
  { regular := self.regular + c.regular,
    boundary := self.boundary + c.boundary,
    corner := self.corner + c.corner,
    gregory := self.gregory + c.gregory,
    boundaryGregory := self.boundaryGregory + c.boundaryGregory,
    transitionRegular := fun t => self.transitionRegular t + c.transitionRegular t,
    transitionBoundary := fun t r => self.transitionBoundary t r + c.transitionBoundary t r,
    transitionCorner := fun t r => self.transitionCorner t r + c.transitionCorner t r }

/-- The count field of a `FarPatchCount` that sizes the given array pair. -/
def FarPatchCount.of (c : FarPatchCount) : PatchArray → Nat
  | .full_R_IT => c.regular
  | .full_B_IT => c.boundary
  | .full_C_IT => c.corner
  | .full_G_IT => c.gregory
  | .full_G_B_IT => c.boundaryGregory
  | .transition_R_IT t => c.transitionRegular t
  | .transition_B_IT t r => c.transitionBoundary t r
  | .transition_C_IT t r => c.transitionCorner t r

/-- Number of control points of one patch of the given array, the factor in the `resize`
calls of `splicePatchTables`: 16 regular, 12 boundary, 9 corner, 4 gregory. -/
def PatchArray.ringSize : PatchArray → Nat
  | .full_R_IT => 16
  | .full_B_IT => 12
  | .full_C_IT => 9
  | .full_G_IT => 4
  | .full_G_B_IT => 4
  | .transition_R_IT _ => 16
  | .transition_B_IT _ _ => 12
  | .transition_C_IT _ _ => 9

/-- The fields of `FarPatchTables` the factory reads and writes.  `first a` and `second a`
are the control-point index vector and the level-byte vector of the pair `a`. -/
structure FarPatchTables where
  first : PatchArray → List Nat
  second : PatchArray → List Nat
  vertexValenceTable : List Int
  quadOffsetTable : List Nat
  maxValence : Int
  patchCounts : List FarPatchCount

/-- Modelled from the spec: the patch-table constructor `new FarPatchTables(maxvalence)`,
an empty table sized for a target max valence. -/
def FarPatchTables.new (maxvalence : Int) : FarPatchTables :=
  { first := fun _ => [], second := fun _ => [], vertexValenceTable := [],
    quadOffsetTable := [], maxValence := maxvalence, patchCounts := [] }

instance : Inhabited FarPatchTables := ⟨FarPatchTables.new 0⟩

/-- Modelled from the spec: one hierarchical-edit batch of `FarVertexEditTables`
(declared in `vertexEditTables.h`): the vertices it edits and its edit values. -/
structure VertexEditBatch where
  vertIndices : List Nat
  edits : List ℚ
  deriving DecidableEq, Repr, Inhabited

/-- The field of `FarVertexEditTables<U>` the factory reads and writes. -/
structure FarVertexEditTables where
  batches : List VertexEditBatch
  deriving DecidableEq, Repr, Inhabited

/-- Value of `FarVertexEditTables::GetNumBatches()`. -/
def FarVertexEditTables.GetNumBatches (t : FarVertexEditTables) : Nat :=
  t.batches.length

/-- The fields of `FarMesh<U>` the factory reads and writes.  `numVertices` is the size of
`_vertices`, the value of `GetNumVertices()`; the subdivision tables of an input mesh
are present (the source asserts it). -/
structure FarMesh where
  subdivisionTables : FarSubdivisionTables
  patchTables : Option FarPatchTables
  vertexEditTables : Option FarVertexEditTables
  batches : List FarKernelBatch
  faceverts : List (List Int)
  numVertices : Nat

/-- A freshly constructed mesh, `new FarMesh<U>()`: no patch or edit tables, no batches,
no face-corner arrays, no vertices.  Its subdivision tables are assigned by `Create`
right after construction. -/
def FarMesh.new : FarMesh :=
  { subdivisionTables := default, patchTables := none, vertexEditTables := none,
    batches := [], faceverts := [], numVertices := 0 }

instance : Inhabited FarMesh := ⟨FarMesh.new⟩

/-- Value of `FarMesh::GetNumVertices()`. -/
def FarMesh.GetNumVertices (m : FarMesh) : Nat :=
  m.numVertices

/-- The factory object: its two data members `_maxlevel` and `_maxvalence`. -/
structure FarMultiMeshFactory where
  maxlevel : Int
  maxvalence : Int
  deriving DecidableEq, Repr, Inhabited

/-! ## Output iterators and loops -/

/-- A random-access output iterator: the destination vector and the position written next. -/
structure Iter (α : Type) where
  buf : List α
  pos : Nat

/-- The statement `*dst_iterator++ = v`. -/
def Iter.put {α : Type} (it : Iter α) (v : α) : Iter α :=
  { buf := it.buf.set it.pos v, pos := it.pos + 1 }

/-- The loop `for (size_t i = 0; i < meshes.size(); ++i) body(i, meshes[i])` over a state,
started at index `i`. -/
def forEachFrom {μ σ : Type} (body : Nat → μ → σ → σ) : Nat → List μ → σ → σ
  | _, [], s => s
  | i, m :: ms, s => forEachFrom body (i + 1) ms (body i m s)

/-- The loop `for (size_t i = 0; i < meshes.size(); ++i) body(i, meshes[i])` over a state. -/
def forEach {μ σ : Type} (meshes : List μ) (body : Nat → μ → σ → σ) (s : σ) : σ :=
  forEachFrom body 0 meshes s

/-! ## The copy helpers -/

/-- The source's `copyWithOffset`: `std::transform` of `src` into `dst_iterator`, adding
`offset` to each value; returns the advanced iterator. -/
def copyWithOffset {α : Type} [Add α] (dst_iterator : Iter α) (src : List α) (offset : α) : Iter α :=
  src.foldl (fun it x => it.put (x + offset)) dst_iterator

/-- The instance of `copyWithOffset` at a `std::back_inserter`: each transformed value is
appended to the destination vector. -/
def copyWithOffsetBack {α : Type} [Add α] (dst : List α) (src : List α) (offset : α) : List α :=
  src.foldl (fun d x => d ++ [x + offset]) dst

/-- The source's `copyWithOffsetF_ITa`: per (offset, valence) record, the first field gets
`offset` added and the second is copied.  The source reads a missing second field past
the end of `src`; here a trailing lone field is written rebased and the loop ends. -/
def copyWithOffsetF_ITa (dst_iterator : Iter Int) : List Int → Int → Iter Int
  | [], _ => dst_iterator
  | [a], offset => dst_iterator.put (a + offset)
  | a :: b :: rest, offset =>
      copyWithOffsetF_ITa ((dst_iterator.put (a + offset)).put b) rest offset

/-- The source's `copyWithOffsetE_IT`: every entry other than `-1` gets `offset` added. -/
def copyWithOffsetE_IT (dst_iterator : Iter Int) (src : List Int) (offset : Int) : Iter Int :=
  src.foldl (fun it x => it.put (if x = -1 then -1 else x + offset)) dst_iterator

/-- The rebasing of one vertex-referencing field that may hold the `-1` sentinel. -/
def offsetUnlessSentinel (x offset : Int) : Int :=
  if x = -1 then -1 else x + offset

/-- The source's `copyWithOffsetV_ITa`: per 5-field record, field 0 gets `tableOffset`
added, field 1 is copied, fields 2 to 4 get `vertexOffset` added unless they are `-1`.
The source reads missing fields of a trailing incomplete record past the end of `src`;
here the fields present are written rebased and the loop ends. -/
def copyWithOffsetV_ITa (dst_iterator : Iter Int) : List Int → Int → Int → Iter Int
  | a :: b :: c :: d :: e :: rest, tableOffset, vertexOffset =>
      copyWithOffsetV_ITa
        (((((dst_iterator.put (a + tableOffset)).put b).put
          (offsetUnlessSentinel c vertexOffset)).put
          (offsetUnlessSentinel d vertexOffset)).put
          (offsetUnlessSentinel e vertexOffset)) rest tableOffset vertexOffset
  | [a, b, c, d], tableOffset, vertexOffset =>
      (((dst_iterator.put (a + tableOffset)).put b).put
        (offsetUnlessSentinel c vertexOffset)).put (offsetUnlessSentinel d vertexOffset)
  | [a, b, c], tableOffset, vertexOffset =>
      ((dst_iterator.put (a + tableOffset)).put b).put (offsetUnlessSentinel c vertexOffset)
  | [a, b], tableOffset, _ => (dst_iterator.put (a + tableOffset)).put b
  | [a], tableOffset, _ => dst_iterator.put (a + tableOffset)
  | [], _, _ => dst_iterator

/-- Inner loop of `copyWithOffsetVertexValence`, `for (int i = 0; i < 2*dstMaxValence; ++i)`:
the state is the destination iterator and the rest of the source still to read.  A read
at the end of the source yields `0`. -/
def copyWithOffsetVertexValence.slots (valence srcMaxValence dstMaxValence offset : Int)
    (st : Iter Int × List Int) : Iter Int × List Int :=
  (List.range (2 * dstMaxValence).toNat).foldl
    (fun st (i : Nat) =>
      if (i : Int) < 2 * srcMaxValence then
        (st.1.put (if (i : Int) < 2 * valence then st.2.headD 0 + offset else 0), st.2.tail)
      else
        (st.1.put 0, st.2))
    st

/-- Outer loop of `copyWithOffsetVertexValence` with an iteration bound: one record per
iteration, until the source is exhausted. -/
def copyWithOffsetVertexValence.loop (srcMaxValence dstMaxValence offset : Int) :
    Nat → Iter Int → List Int → Iter Int
  | 0, dst, _ => dst
  | _ + 1, dst, [] => dst
  | fuel + 1, dst, valence :: it =>
      let st := copyWithOffsetVertexValence.slots |valence| srcMaxValence dstMaxValence offset
        (dst.put valence, it)
      copyWithOffsetVertexValence.loop srcMaxValence dstMaxValence offset fuel st.1 st.2

/-- The source's `copyWithOffsetVertexValence`.  Every iteration of the outer loop consumes
at least the valence field, so `src.length` iterations exhaust the source. -/
def copyWithOffsetVertexValence (dst_iterator : Iter Int) (src : List Int)
    (srcMaxValence dstMaxValence offset : Int) : Iter Int :=
  copyWithOffsetVertexValence.loop srcMaxValence dstMaxValence offset src.length dst_iterator src

/-- The source's `std::copy` into an output iterator. -/
def stdCopy {α : Type} (src : List α) (dst : Iter α) : Iter α :=
  src.foldl Iter.put dst

namespace FarMultiMeshFactory

/-! ## Create: the validation loop -/

/-- The validation loop of `Create` (`for (size_t i = 0; i < meshes.size(); ++i)` with its
two early `return NULL`): the result is the factory with `_maxlevel` and `_maxvalence` as
the loop left them, and whether the loop ran to its end. -/
def Create.validate (adaptive : Bool) (scheme : Scheme) :
    FarMultiMeshFactory → List FarMesh → FarMultiMeshFactory × Bool
  | self, [] => (self, true)
  | self, mesh :: rest =>
      if xor adaptive mesh.patchTables.isSome then (self, false)
      else if scheme ≠ mesh.subdivisionTables.scheme then (self, false)
      else
        Create.validate adaptive scheme
          { maxlevel := max self.maxlevel (mesh.subdivisionTables.maxLevel - 1),
            maxvalence :=
              match mesh.patchTables with
              | some ptables => max self.maxvalence ptables.maxValence
              | none => self.maxvalence }
          rest

/-! ## spliceSubdivisionTables -/

/-- The seven size totals of `spliceSubdivisionTables`. -/
structure TableTotals where
  total_F_ITa : Nat
  total_F_IT : Nat
  total_E_IT : Nat
  total_E_W : Nat
  total_V_ITa : Nat
  total_V_IT : Nat
  total_V_W : Nat

/-- Body of the loop that counts the total table sizes. -/
def spliceSubdivisionTables.count (_i : Nat) (mesh : FarMesh) (t : TableTotals) : TableTotals :=
  let tables := mesh.subdivisionTables
  { total_F_ITa := t.total_F_ITa + tables.F_ITa.length,
    total_F_IT := t.total_F_IT + tables.F_IT.length,
    total_E_IT := t.total_E_IT + tables.E_IT.length,
    total_E_W := t.total_E_W + tables.E_W.length,
    total_V_ITa := t.total_V_ITa + tables.V_ITa.length,
    total_V_IT := t.total_V_IT + tables.V_IT.length,
    total_V_W := t.total_V_W + tables.V_W.length }

/-- The six running offsets of `spliceSubdivisionTables` and the six vectors they are
pushed to. -/
structure TableOffsets where
  vertexOffset : Nat
  F_IToffset : Nat
  V_IToffset : Nat
  fvOffset : Nat
  evOffset : Nat
  vvOffset : Nat
  vertexOffsets : List Nat
  fvOffsets : List Nat
  evOffsets : List Nat
  vvOffsets : List Nat
  F_IToffsets : List Nat
  V_IToffsets : List Nat

/-- Body of the loop that computes the table offsets: push the running values, then
advance them by this mesh's sizes. -/
def spliceSubdivisionTables.offsets (scheme : Scheme) (_i : Nat) (mesh : FarMesh)
    (o : TableOffsets) : TableOffsets :=
  let tables := mesh.subdivisionTables
  { vertexOffsets := o.vertexOffsets ++ [o.vertexOffset],
    F_IToffsets := o.F_IToffsets ++ [o.F_IToffset],
    V_IToffsets := o.V_IToffsets ++ [o.V_IToffset],
    fvOffsets := o.fvOffsets ++ [o.fvOffset],
    evOffsets := o.evOffsets ++ [o.evOffset],
    vvOffsets := o.vvOffsets ++ [o.vvOffset],
    vertexOffset := o.vertexOffset + mesh.GetNumVertices,
    F_IToffset := o.F_IToffset + tables.F_IT.length,
    fvOffset := o.fvOffset + tables.F_ITa.length / 2,
    V_IToffset := o.V_IToffset + tables.V_IT.length,
    evOffset :=
      if scheme = Scheme.catmark ∨ scheme = Scheme.loop then o.evOffset + tables.E_IT.length / 4
      else o.evOffset + tables.E_IT.length / 2,
    vvOffset :=
      if scheme = Scheme.catmark ∨ scheme = Scheme.loop then o.vvOffset + tables.V_ITa.length / 5
      else o.vvOffset + tables.V_ITa.length }

/-- The offsets before the first mesh: all running values `0`, all vectors empty. -/
def TableOffsets.init : TableOffsets :=
  { vertexOffset := 0, F_IToffset := 0, V_IToffset := 0, fvOffset := 0, evOffset := 0,
    vvOffset := 0, vertexOffsets := [], fvOffsets := [], evOffsets := [], vvOffsets := [],
    F_IToffsets := [], V_IToffsets := [] }

/-- The destination iterators of the loop that concatenates `F_IT` and `V_IT`. -/
structure IndexTableIters where
  F_IT : Iter Nat
  V_IT : Iter Nat

/-- Body of the loop "concat F_IT and V_IT". -/
def spliceSubdivisionTables.concat (o : TableOffsets) (i : Nat) (mesh : FarMesh)
    (it : IndexTableIters) : IndexTableIters :=
  let tables := mesh.subdivisionTables
  let vertexOffset := o.vertexOffsets.getD i 0
  { F_IT := copyWithOffset it.F_IT tables.F_IT vertexOffset,
    V_IT := copyWithOffset it.V_IT tables.V_IT vertexOffset }

/-- The destination iterators of the loop that merges the other five tables. -/
structure RuleTableIters where
  F_ITa : Iter Int
  E_IT : Iter Int
  E_W : Iter ℚ
  V_W : Iter ℚ
  V_ITa : Iter Int

/-- Body of the loop "merge other tables". -/
def spliceSubdivisionTables.merge (scheme : Scheme) (o : TableOffsets) (i : Nat) (mesh : FarMesh)
    (it : RuleTableIters) : RuleTableIters :=
  let tables := mesh.subdivisionTables
  { F_ITa := copyWithOffsetF_ITa it.F_ITa tables.F_ITa (o.F_IToffsets.getD i 0),
    E_IT := copyWithOffsetE_IT it.E_IT tables.E_IT (o.vertexOffsets.getD i 0),
    E_W := copyWithOffset it.E_W tables.E_W 0,
    V_ITa :=
      if scheme = Scheme.catmark ∨ scheme = Scheme.loop then
        copyWithOffsetV_ITa it.V_ITa tables.V_ITa (o.V_IToffsets.getD i 0) (o.vertexOffsets.getD i 0)
      else
        copyWithOffset it.V_ITa tables.V_ITa (o.vertexOffsets.getD i 0),
    V_W := copyWithOffset it.V_W tables.V_W 0 }

/-- The rebasing of one batch of mesh `i` in the loop "merge batch, model by model". -/
def spliceSubdivisionTables.rebase (o : TableOffsets) (i : Nat) (editTableIndexOffset : Nat)
    (batch : FarKernelBatch) : FarKernelBatch :=
  let batch := { batch with vertexOffset := batch.vertexOffset + o.vertexOffsets.getD i 0 }
  if batch.kernelType = KernelType.CATMARK_FACE_VERTEX ∨
      batch.kernelType = KernelType.BILINEAR_FACE_VERTEX then
    { batch with tableOffset := batch.tableOffset + o.fvOffsets.getD i 0 }
  else if batch.kernelType = KernelType.CATMARK_EDGE_VERTEX ∨
      batch.kernelType = KernelType.LOOP_EDGE_VERTEX ∨
      batch.kernelType = KernelType.BILINEAR_EDGE_VERTEX then
    { batch with tableOffset := batch.tableOffset + o.evOffsets.getD i 0 }
  else if batch.kernelType = KernelType.CATMARK_VERT_VERTEX_A1 ∨
      batch.kernelType = KernelType.CATMARK_VERT_VERTEX_A2 ∨
      batch.kernelType = KernelType.CATMARK_VERT_VERTEX_B ∨
      batch.kernelType = KernelType.LOOP_VERT_VERTEX_A1 ∨
      batch.kernelType = KernelType.LOOP_VERT_VERTEX_A2 ∨
      batch.kernelType = KernelType.LOOP_VERT_VERTEX_B ∨
      batch.kernelType = KernelType.BILINEAR_VERT_VERTEX then
    { batch with tableOffset := batch.tableOffset + o.vvOffsets.getD i 0 }
  else if batch.kernelType = KernelType.HIERARCHICAL_EDIT then
    { batch with tableIndex := batch.tableIndex + editTableIndexOffset }
  else batch

/-- State of the loop "merge batch, model by model": the schedule of the mesh under
construction and the running `editTableIndexOffset`. -/
structure BatchMerge where
  batches : List FarKernelBatch
  editTableIndexOffset : Nat

/-- Body of the loop "merge batch, model by model": every batch of mesh `i`, in order, is
rebased and pushed back; then the edit-table index offset advances. -/
def spliceSubdivisionTables.batch (o : TableOffsets) (i : Nat) (mesh : FarMesh)
    (s : BatchMerge) : BatchMerge :=
  { batches :=
      mesh.batches.foldl
        (fun batches b => batches ++ [spliceSubdivisionTables.rebase o i s.editTableIndexOffset b])
        s.batches,
    editTableIndexOffset :=
      s.editTableIndexOffset +
        (match mesh.vertexEditTables with
         | some t => t.GetNumBatches
         | none => 0) }

/-- The source's `spliceSubdivisionTables`: returns the merged tables and the mesh under
construction with the merged schedule pushed to its `_batches`.  The scheme is read from
`meshes[0]`; `Create` calls this with a non-empty list only. -/
def spliceSubdivisionTables (self : FarMultiMeshFactory) (farMesh : FarMesh)
    (meshes : List FarMesh) : FarSubdivisionTables × FarMesh :=
  let t := forEach meshes spliceSubdivisionTables.count
    { total_F_ITa := 0, total_F_IT := 0, total_E_IT := 0, total_E_W := 0, total_V_ITa := 0,
      total_V_IT := 0, total_V_W := 0 }
  let scheme := (meshes.headD default).subdivisionTables.scheme
  let result := FarSubdivisionTables.new scheme self.maxlevel
  let o := forEach meshes (spliceSubdivisionTables.offsets scheme) TableOffsets.init
  let it1 := forEach meshes (spliceSubdivisionTables.concat o)
    { F_IT := { buf := List.replicate t.total_F_IT 0, pos := 0 },
      V_IT := { buf := List.replicate t.total_V_IT 0, pos := 0 } }
  let it2 := forEach meshes (spliceSubdivisionTables.merge scheme o)
    { F_ITa := { buf := List.replicate t.total_F_ITa 0, pos := 0 },
      E_IT := { buf := List.replicate t.total_E_IT 0, pos := 0 },
      E_W := { buf := List.replicate t.total_E_W 0, pos := 0 },
      V_W := { buf := List.replicate t.total_V_W 0, pos := 0 },
      V_ITa := { buf := List.replicate t.total_V_ITa 0, pos := 0 } }
  let b := forEach meshes (spliceSubdivisionTables.batch o)
    { batches := farMesh.batches, editTableIndexOffset := 0 }
  ({ result with
      F_ITa := it2.F_ITa.buf, F_IT := it1.F_IT.buf, E_IT := it2.E_IT.buf, E_W := it2.E_W.buf,
      V_ITa := it2.V_ITa.buf, V_IT := it1.V_IT.buf, V_W := it2.V_W.buf },
   { farMesh with batches := b.batches })

/-! ## spliceQuads -/

/-- State of the inner loop of `spliceQuads`: the level's destination vector and the
running vertex offset. -/
structure QuadMerge where
  faceverts : List Int
  vertexOffset : Nat

/-- Body of the inner loop of `spliceQuads` at level `l`.  The source reads
`meshes[i]->_faceverts[l]` unchecked: on a mesh without a face-corner array at level `l`
the read is out of range and the run has no defined result, which is `none` here and stays
`none` for the rest of the run. -/
def spliceQuads.inner (l : Nat) (_i : Nat) (mesh : FarMesh) (s : Option QuadMerge) :
    Option QuadMerge :=
  s.bind (fun s =>
    (mesh.faceverts[l]?).map (fun src =>
      { faceverts := copyWithOffsetBack s.faceverts src (s.vertexOffset : Int),
        vertexOffset := s.vertexOffset + mesh.GetNumVertices }))

/-- The source's `spliceQuads`: `_faceverts` is cleared and resized to `_maxlevel+1` empty
vectors, and for each level `l` from `0` to `_maxlevel` the inputs' level-`l` arrays are
appended with their vertex offset.  The result is `none` when some input lacks one of those
levels, where the source reads out of range. -/
def spliceQuads (self : FarMultiMeshFactory) (result : FarMesh) (meshes : List FarMesh) :
    Option FarMesh :=
  let n := (self.maxlevel + 1).toNat
  ((List.range n).foldl
      (fun fv l =>
        fv.bind (fun fv =>
          (forEach meshes (spliceQuads.inner l)
            (some { faceverts := fv.getD l [], vertexOffset := 0 })).map
            (fun q => fv.set l q.faceverts)))
      (some (List.replicate n []))).map
    (fun fv => { result with faceverts := fv })

/-! ## splicePatchTables -/

/-- State of the counting loop of `splicePatchTables`. -/
structure PatchTotals where
  total_quadOffset0 : Nat
  total_quadOffset1 : Nat
  vertexOffsets : List Nat
  vertexOffset : Nat
  maxValence : Int
  patchCounts : List FarPatchCount
  totalCount : FarPatchCount

/-- The patch tables of an input mesh, `meshes[i]->GetPatchTables()`; the source asserts
they are present, which `Create` has checked. -/
def ptablesOf (mesh : FarMesh) : FarPatchTables :=
  mesh.patchTables.getD default

/-- Body of the loop "count how many patches exist on each mesh".  The summary read is
`GetPatchCounts()[0]`; on an empty vector, where the source's read is undefined, it is the
zero summary. -/
def splicePatchTables.count (_i : Nat) (mesh : FarMesh) (s : PatchTotals) : PatchTotals :=
  let ptables := ptablesOf mesh
  let patchCount := ptables.patchCounts.headD FarPatchCount.zero
  { vertexOffsets := s.vertexOffsets ++ [s.vertexOffset],
    vertexOffset := s.vertexOffset + mesh.GetNumVertices,
    patchCounts := s.patchCounts ++ [patchCount],
    totalCount := s.totalCount.Append patchCount,
    maxValence := max s.maxValence ptables.maxValence,
    total_quadOffset0 := s.total_quadOffset0 + (ptables.first PatchArray.full_G_IT).length,
    total_quadOffset1 := s.total_quadOffset1 + (ptables.first PatchArray.full_G_B_IT).length }

/-- The destination iterators of the loop "merge tables with vertex index offset": one
index iterator and one level iterator per array pair. -/
structure PatchIters where
  index : PatchArray → Iter Nat
  level : PatchArray → Iter Nat

/-- Body of the loop "merge tables with vertex index offset": every array pair's indices
are copied with the mesh's vertex offset and its level bytes with offset `0`. -/
def splicePatchTables.merge (vertexOffsets : List Nat) (i : Nat) (mesh : FarMesh)
    (it : PatchIters) : PatchIters :=
  let ptables := ptablesOf mesh
  let vertexOffset := vertexOffsets.getD i 0
  { index := fun a => copyWithOffset (it.index a) (ptables.first a) vertexOffset,
    level := fun a => copyWithOffset (it.level a) (ptables.second a) 0 }

/-- State of the loop "merge vertexvalence and quadoffset tables": the quad-offset table
with the positions of its two iterators, and the valence-table iterator. -/
structure GregoryMerge where
  quadOffsetTable : List Nat
  Q0_IT : Nat
  Q1_IT : Nat
  VV_IT : Iter Int

/-- Body of the loop "merge vertexvalence and quadoffset tables".  The valence iterator
advances by a whole slice of `numVertices` records whatever was copied.  `nGregoryQuads`
entries of the mesh's quad-offset table go to `Q0_IT` and the rest to `Q1_IT`; a table
shorter than `nGregoryQuads`, where the source reads past its end, gives what it has. -/
def splicePatchTables.gregory (maxValence : Int) (vertexOffsets : List Nat) (i : Nat)
    (mesh : FarMesh) (s : GregoryMerge) : GregoryMerge :=
  let ptables := ptablesOf mesh
  let vv := copyWithOffsetVertexValence s.VV_IT ptables.vertexValenceTable ptables.maxValence
    maxValence (vertexOffsets.getD i 0 : Nat)
  let nGregoryQuads := (ptables.first PatchArray.full_G_IT).length
  let q0 := stdCopy (ptables.quadOffsetTable.take nGregoryQuads)
    { buf := s.quadOffsetTable, pos := s.Q0_IT }
  let q1 := stdCopy (ptables.quadOffsetTable.drop nGregoryQuads)
    { buf := q0.buf, pos := s.Q1_IT }
  { quadOffsetTable := q1.buf,
    Q0_IT := q0.pos,
    Q1_IT := q1.pos,
    VV_IT :=
      { buf := vv.buf,
        pos := s.VV_IT.pos + ((mesh.GetNumVertices : Int) * (2 * maxValence + 1)).toNat } }

/-- The source's `splicePatchTables`. -/
def splicePatchTables (self : FarMultiMeshFactory) (meshes : List FarMesh) : FarPatchTables :=
  let result := FarPatchTables.new self.maxvalence
  let c := forEach meshes splicePatchTables.count
    { total_quadOffset0 := 0, total_quadOffset1 := 0, vertexOffsets := [], vertexOffset := 0,
      maxValence := 0, patchCounts := result.patchCounts, totalCount := FarPatchCount.zero }
  let first0 : PatchArray → List Nat := fun a => List.replicate (c.totalCount.of a * a.ringSize) 0
  let second0 : PatchArray → List Nat := fun a => List.replicate (c.totalCount.of a) 0
  let gregory : Bool :=
    decide ((first0 PatchArray.full_G_IT).length + (first0 PatchArray.full_G_B_IT).length > 0)
  let vertexValenceTable0 : List Int :=
    if gregory then List.replicate ((2 * c.maxValence + 1) * (c.vertexOffset : Int)).toNat 0
    else result.vertexValenceTable
  let quadOffsetTable0 : List Nat :=
    if gregory then List.replicate (c.total_quadOffset0 + c.total_quadOffset1) 0
    else result.quadOffsetTable
  let it := forEach meshes (splicePatchTables.merge c.vertexOffsets)
    { index := fun a => { buf := first0 a, pos := 0 },
      level := fun a => { buf := second0 a, pos := 0 } }
  let g := forEach meshes (splicePatchTables.gregory c.maxValence c.vertexOffsets)
    { quadOffsetTable := quadOffsetTable0, Q0_IT := 0, Q1_IT := 0 + c.total_quadOffset0,
      VV_IT := { buf := vertexValenceTable0, pos := 0 } }
  { result with
    first := fun a => (it.index a).buf,
    second := fun a => (it.level a).buf,
    vertexValenceTable := g.VV_IT.buf,
    quadOffsetTable := g.quadOffsetTable,
    patchCounts := c.patchCounts }

/-! ## spliceVertexEditTables -/

/-- Body of the loop of `spliceVertexEditTables`: a mesh without edit tables is skipped,
otherwise its batches are inserted at the end. -/
def spliceVertexEditTables.insert (_i : Nat) (mesh : FarMesh)
    (result : FarVertexEditTables) : FarVertexEditTables :=
  match mesh.vertexEditTables with
  | none => result
  | some vertexEditTables => { result with batches := result.batches ++ vertexEditTables.batches }

/-- The source's `spliceVertexEditTables`: `NULL` when the merged batch sequence is empty. -/
def spliceVertexEditTables (_farMesh : FarMesh) (meshes : List FarMesh) :
    Option FarVertexEditTables :=
  let result := forEach meshes spliceVertexEditTables.insert { batches := [] }
  if result.batches.isEmpty then none else some result

/-! ## Create -/

/-- The source's `Create`, together with the factory after the call.  The first component
is `some (some mesh)` when a merged mesh is returned, `some none` when `NULL` is returned,
and `none` when the call has no defined result: in uniform mode `spliceQuads` read a
face-corner level that an input does not have. -/
def Create (self : FarMultiMeshFactory) (meshes : List FarMesh) :
    Option (Option FarMesh) × FarMultiMeshFactory :=
  match meshes with
  | [] => (some none, self)
  | mesh0 :: _ =>
      let adaptive := mesh0.patchTables.isSome
      let scheme := mesh0.subdivisionTables.scheme
      let v := Create.validate adaptive scheme { self with maxlevel := 0, maxvalence := 0 } meshes
      let self := v.1
      if v.2 = false then (some none, self)
      else
        let result := FarMesh.new
        let st := spliceSubdivisionTables self result meshes
        let result := { st.2 with subdivisionTables := st.1 }
        let spliced : Option FarMesh :=
          if adaptive then some { result with patchTables := some (splicePatchTables self meshes) }
          else spliceQuads self result meshes
        match spliced with
        | none => (none, self)
        | some result =>
            let result := { result with vertexEditTables := spliceVertexEditTables result meshes }
            let numVertices := forEach meshes (fun _ mesh n => n + mesh.GetNumVertices) 0
            (some (some { result with numVertices := numVertices }), self)

/-! ## Vocabulary of the statements -/

/-- All meshes of the list share one subdivision scheme and one evaluation mode (patch
tables present or absent). -/
def Homogeneous (meshes : List FarMesh) : Prop :=
  ∀ a ∈ meshes, ∀ b ∈ meshes,
    a.subdivisionTables.scheme = b.subdivisionTables.scheme ∧
      a.patchTables.isSome = b.patchTables.isSome

instance (meshes : List FarMesh) : Decidable (Homogeneous meshes) :=
  inferInstanceAs (Decidable (∀ a ∈ meshes, ∀ b ∈ meshes,
    a.subdivisionTables.scheme = b.subdivisionTables.scheme ∧
      a.patchTables.isSome = b.patchTables.isSome))

/-- Sum of the vertex counts of the meshes before mesh `i`. -/
def vertexOffsetOf (meshes : List FarMesh) (i : Nat) : Nat :=
  ((meshes.take i).map FarMesh.GetNumVertices).sum

/-- Concatenation, in input order, of one list per mesh: `piece i m` for the mesh `m` at
index `i`. -/
def concatMeshes {α : Type} (meshes : List FarMesh) (piece : Nat → FarMesh → List α) : List α :=
  ((meshes.enumFrom 0).map (fun p => piece p.1 p.2)).flatten

/-- Number of edit batches a mesh carries: `GetNumBatches()` of its edit tables, `0` without. -/
def numEditBatches (m : FarMesh) : Nat :=
  match m.vertexEditTables with
  | some t => t.GetNumBatches
  | none => 0

/-- Number of edit batches carried by the meshes before mesh `i`. -/
def editBatchesBefore (meshes : List FarMesh) (i : Nat) : Nat :=
  ((meshes.take i).map numEditBatches).sum

/-- Sum of the schedule lengths of the meshes before mesh `i`. -/
def batchOffsetOf (meshes : List FarMesh) (i : Nat) : Nat :=
  ((meshes.take i).map (fun m => m.batches.length)).sum

/-- The table offsets `spliceSubdivisionTables` computes for a list of meshes. -/
def tableOffsetsOf (meshes : List FarMesh) : TableOffsets :=
  forEach meshes
    (spliceSubdivisionTables.offsets (meshes.headD default).subdivisionTables.scheme)
    TableOffsets.init

/-- The rebased copy of a batch of mesh `i`: the batch as `spliceSubdivisionTables` rebases
it with the offsets of mesh `i`. -/
def rebasedBatch (meshes : List FarMesh) (i : Nat) (b : FarKernelBatch) : FarKernelBatch :=
  spliceSubdivisionTables.rebase (tableOffsetsOf meshes) i (editBatchesBefore meshes i) b

/-- The patch-count summary `splicePatchTables` reads from a mesh, `GetPatchCounts()[0]`. -/
def patchCountOf (m : FarMesh) : FarPatchCount :=
  (ptablesOf m).patchCounts.headD FarPatchCount.zero

/-- A patch table carries exactly one patch-count summary, and the summary is consistent
with the arrays: every array pair holds as many level bytes as the summary counts patches
and `ringSize` control-point indices per patch. -/
def ConsistentPatchTables (p : FarPatchTables) : Prop :=
  ∃ c, p.patchCounts = [c] ∧
    ∀ a : PatchArray, (p.first a).length = c.of a * a.ringSize ∧ (p.second a).length = c.of a

/-- A mesh is adaptive and its patch tables are consistent. -/
def AdaptiveConsistent (m : FarMesh) : Prop :=
  ∃ p, m.patchTables = some p ∧ ConsistentPatchTables p

/-- In uniform mode every input has a face-corner array at each of the `_maxlevel + 1`
levels `spliceQuads` reads; nothing is asked of adaptive inputs, for which `spliceQuads`
is not called. -/
def QuadLevelsPresent (self : FarMultiMeshFactory) (meshes : List FarMesh) : Prop :=
  (meshes.headD default).patchTables.isSome = false →
    ∀ m ∈ meshes, ((Create self meshes).2.maxlevel + 1).toNat ≤ m.faceverts.length

instance (self : FarMultiMeshFactory) (meshes : List FarMesh) :
    Decidable (QuadLevelsPresent self meshes) :=
  inferInstanceAs (Decidable ((meshes.headD default).patchTables.isSome = false →
    ∀ m ∈ meshes, ((Create self meshes).2.maxlevel + 1).toNat ≤ m.faceverts.length))

/-! ## Example inputs -/

/-- A small Catmark table set: one face rule, one edge record with two sentinels, one
vertex record with a sentinel. -/
def exampleTablesA : FarSubdivisionTables :=
  { scheme := Scheme.catmark, maxLevel := 2, F_ITa := [0, 4], F_IT := [0, 1, 2, 3],
    E_IT := [0, 1, -1, -1], E_W := [1 / 2, 1 / 2], V_ITa := [0, 2, 1, -1, 3], V_IT := [1, 3],
    V_W := [1 / 4, 3 / 4] }

/-- A second Catmark table set. -/
def exampleTablesB : FarSubdivisionTables :=
  { scheme := Scheme.catmark, maxLevel := 3, F_ITa := [0, 3, 3, 3], F_IT := [0, 1, 2, 2, 1, 0],
    E_IT := [2, -1, 0, 1], E_W := [1], V_ITa := [0, 1, -1, 2, 0], V_IT := [2], V_W := [1] }

/-- A uniform Catmark mesh of 4 vertices with two batches and two levels of quads. -/
def exampleMeshA : FarMesh :=
  { subdivisionTables := exampleTablesA, patchTables := none, vertexEditTables := none,
    batches :=
      [{ kernelType := KernelType.CATMARK_FACE_VERTEX, level := 1, tableIndex := 0,
         tableOffset := 0, vertexOffset := 0 },
       { kernelType := KernelType.CATMARK_EDGE_VERTEX, level := 1, tableIndex := 0,
         tableOffset := 0, vertexOffset := 1 }],
    faceverts := [[0, 1, 2, 3], [3, 2, 1, 0]], numVertices := 4 }

/-- A uniform Catmark mesh of 3 vertices with one batch and three levels of quads. -/
def exampleMeshB : FarMesh :=
  { subdivisionTables := exampleTablesB, patchTables := none, vertexEditTables := none,
    batches :=
      [{ kernelType := KernelType.CATMARK_VERT_VERTEX_B, level := 2, tableIndex := 0,
         tableOffset := 0, vertexOffset := 2 }],
    faceverts := [[0, 1, 2, 0], [2, 1, 0, 2], [1, 1, 1, 1]], numVertices := 3 }

/-- The uniform mesh `exampleMeshB` with its tables retagged as Loop tables. -/
def exampleMeshLoop : FarMesh :=
  { exampleMeshB with subdivisionTables := { exampleTablesB with scheme := Scheme.loop } }

/-- The uniform mesh `exampleMeshA` with a third level of quads. -/
def exampleMeshC : FarMesh :=
  { exampleMeshA with faceverts := [[0, 1, 2, 3], [3, 2, 1, 0], [0, 0, 1, 1]] }

/-- A summary of one regular and one boundary patch. -/
def exampleCountP : FarPatchCount :=
  { FarPatchCount.zero with regular := 1, boundary := 1 }

/-- Patch tables with one regular patch and one boundary patch. -/
def examplePatchTablesP : FarPatchTables :=
  { first := fun a =>
      match a with
      | .full_R_IT => List.range 16
      | .full_B_IT => List.range 12
      | _ => [],
    second := fun a =>
      match a with
      | .full_R_IT => [1]
      | .full_B_IT => [2]
      | _ => [],
    vertexValenceTable := [], quadOffsetTable := [], maxValence := 4,
    patchCounts := [exampleCountP] }

/-- An adaptive Catmark mesh of 16 vertices. -/
def exampleMeshP : FarMesh :=
  { subdivisionTables := exampleTablesA, patchTables := some examplePatchTablesP,
    vertexEditTables := none, batches := [], faceverts := [], numVertices := 16 }

/-- A summary of two regular patches and one corner patch. -/
def exampleCountQ : FarPatchCount :=
  { FarPatchCount.zero with regular := 2, corner := 1 }

/-- Patch tables with two regular patches and one corner patch. -/
def examplePatchTablesQ : FarPatchTables :=
  { first := fun a =>
      match a with
      | .full_R_IT => List.range 32
      | .full_C_IT => List.range 9
      | _ => [],
    second := fun a =>
      match a with
      | .full_R_IT => [1, 2]
      | .full_C_IT => [3]
      | _ => [],
    vertexValenceTable := [], quadOffsetTable := [], maxValence := 5,
    patchCounts := [exampleCountQ] }

/-- An adaptive Catmark mesh of 32 vertices. -/
def exampleMeshQ : FarMesh :=
  { subdivisionTables := exampleTablesB, patchTables := some examplePatchTablesQ,
    vertexEditTables := none, batches := [], faceverts := [], numVertices := 32 }

/-- An adaptive mesh whose summary counts one regular and one boundary patch while its
arrays hold no patch at all. -/
def exampleMeshStale : FarMesh :=
  { exampleMeshP with
    patchTables := some { examplePatchTablesP with first := fun _ => [], second := fun _ => [] } }

/-- The edit batches a mesh contributes: those of its edit tables, none without. -/
def editBatchesOf (m : FarMesh) : List VertexEditBatch :=
  match m.vertexEditTables with
  | some t => t.batches
  | none => []

/-- The batch is a face-vertex kernel. -/
def isFaceVertexKernel (b : FarKernelBatch) : Prop :=
  b.kernelType = KernelType.CATMARK_FACE_VERTEX ∨ b.kernelType = KernelType.BILINEAR_FACE_VERTEX

/-- The batch is an edge-vertex kernel. -/
def isEdgeVertexKernel (b : FarKernelBatch) : Prop :=
  b.kernelType = KernelType.CATMARK_EDGE_VERTEX ∨ b.kernelType = KernelType.LOOP_EDGE_VERTEX ∨
    b.kernelType = KernelType.BILINEAR_EDGE_VERTEX

/-- The batch is a vertex-vertex kernel. -/
def isVertexVertexKernel (b : FarKernelBatch) : Prop :=
  b.kernelType = KernelType.CATMARK_VERT_VERTEX_A1 ∨
    b.kernelType = KernelType.CATMARK_VERT_VERTEX_A2 ∨
    b.kernelType = KernelType.CATMARK_VERT_VERTEX_B ∨
    b.kernelType = KernelType.LOOP_VERT_VERTEX_A1 ∨
    b.kernelType = KernelType.LOOP_VERT_VERTEX_A2 ∨
    b.kernelType = KernelType.LOOP_VERT_VERTEX_B ∨
    b.kernelType = KernelType.BILINEAR_VERT_VERTEX

/-- The batch is a hierarchical-edit kernel. -/
def isEditKernel (b : FarKernelBatch) : Prop :=
  b.kernelType = KernelType.HIERARCHICAL_EDIT

instance (b : FarKernelBatch) : Decidable (isFaceVertexKernel b) :=
  inferInstanceAs (Decidable (_ ∨ _))

instance (b : FarKernelBatch) : Decidable (isEdgeVertexKernel b) :=
  inferInstanceAs (Decidable (_ ∨ _))

instance (b : FarKernelBatch) : Decidable (isVertexVertexKernel b) :=
  inferInstanceAs (Decidable (_ ∨ _))

instance (b : FarKernelBatch) : Decidable (isEditKernel b) :=
  inferInstanceAs (Decidable (_ = _))

/-- The scheme of a merge: the scheme of its first mesh. -/
def schemeOf (meshes : List FarMesh) : Scheme :=
  (meshes.headD default).subdivisionTables.scheme

/-- Width of an edge rule record: 4 for Catmark and Loop, 2 for bilinear. -/
def edgeRecordWidth (scheme : Scheme) : Nat :=
  if scheme = Scheme.catmark ∨ scheme = Scheme.loop then 4 else 2

/-- Width of a vertex rule record: 5 for Catmark and Loop, 1 for bilinear. -/
def vertexRecordWidth (scheme : Scheme) : Nat :=
  if scheme = Scheme.catmark ∨ scheme = Scheme.loop then 5 else 1

/-- Face-rule-block offset of mesh `i`: the number of (offset, valence) pairs of the meshes
before `i`, each mesh's `F_ITa` size divided by 2. -/
def faceRuleBlockOffset (meshes : List FarMesh) (i : Nat) : Nat :=
  ((meshes.take i).map (fun m => m.subdivisionTables.F_ITa.length / 2)).sum

/-- Edge-rule-block offset of mesh `i`: the number of edge records of the meshes before
`i`, each mesh's `E_IT` size divided by the record width. -/
def edgeRuleBlockOffset (meshes : List FarMesh) (i : Nat) : Nat :=
  ((meshes.take i).map
    (fun m => m.subdivisionTables.E_IT.length / edgeRecordWidth (schemeOf meshes))).sum

/-- Vertex-rule-block offset of mesh `i`: the number of vertex records of the meshes before
`i`, each mesh's `V_ITa` size divided by the record width. -/
def vertexRuleBlockOffset (meshes : List FarMesh) (i : Nat) : Nat :=
  ((meshes.take i).map
    (fun m => m.subdivisionTables.V_ITa.length / vertexRecordWidth (schemeOf meshes))).sum

/-- Write offset of mesh `i` in the merged `F_IT`: the sum of the `F_IT` sizes of the
meshes before `i`. -/
def F_ITwriteOffset (meshes : List FarMesh) (i : Nat) : Nat :=
  ((meshes.take i).map (fun m => m.subdivisionTables.F_IT.length)).sum

/-- Write offset of mesh `i` in the merged `V_IT`: the sum of the `V_IT` sizes of the
meshes before `i`. -/
def V_ITwriteOffset (meshes : List FarMesh) (i : Nat) : Nat :=
  ((meshes.take i).map (fun m => m.subdivisionTables.V_IT.length)).sum

/-- Sum of the `F_ITa` sizes of the meshes before mesh `i`. -/
def F_ITaWriteOffset (meshes : List FarMesh) (i : Nat) : Nat :=
  ((meshes.take i).map (fun m => m.subdivisionTables.F_ITa.length)).sum

/-- Sum of the `V_ITa` sizes of the meshes before mesh `i`. -/
def V_ITaWriteOffset (meshes : List FarMesh) (i : Nat) : Nat :=
  ((meshes.take i).map (fun m => m.subdivisionTables.V_ITa.length)).sum

/-- A flat table of (offset, valence) pairs with `tableOffset` added to the offset field of
every pair, the field at the even positions. -/
def rebaseF_ITa (src : List Int) (tableOffset : Int) : List Int :=
  (src.enumFrom 0).map (fun p => if p.1 % 2 = 0 then p.2 + tableOffset else p.2)

/-- A flat table of 5-field vertex records with `tableOffset` added to field 0, field 1
kept, and `vertexOffset` added to fields 2 to 4 unless they hold `-1`. -/
def rebaseV_ITa (src : List Int) (tableOffset vertexOffset : Int) : List Int :=
  (src.enumFrom 0).map
    (fun p =>
      if p.1 % 5 = 0 then p.2 + tableOffset
      else if p.1 % 5 = 1 then p.2
      else if p.2 = -1 then -1
      else p.2 + vertexOffset)

/-- Edit tables with two edit batches. -/
def exampleEditTables : FarVertexEditTables :=
  { batches := [{ vertIndices := [0, 1], edits := [1, 2] }, { vertIndices := [2], edits := [3] }] }

/-- The uniform mesh `exampleMeshA` with two edit batches and a hierarchical-edit kernel
that selects the second of them. -/
def exampleMeshE : FarMesh :=
  { exampleMeshA with
    vertexEditTables := some exampleEditTables,
    batches :=
      [{ kernelType := KernelType.CATMARK_FACE_VERTEX, level := 1, tableIndex := 0,
         tableOffset := 0, vertexOffset := 0 },
       { kernelType := KernelType.HIERARCHICAL_EDIT, level := 1, tableIndex := 1,
         tableOffset := 0, vertexOffset := 0 }] }

/-- The uniform mesh `exampleMeshB` with one edit batch and one kernel of each family. -/
def exampleMeshF : FarMesh :=
  { exampleMeshB with
    vertexEditTables := some { batches := [{ vertIndices := [1], edits := [4] }] },
    batches :=
      [{ kernelType := KernelType.CATMARK_FACE_VERTEX, level := 1, tableIndex := 0,
         tableOffset := 1, vertexOffset := 0 },
       { kernelType := KernelType.CATMARK_EDGE_VERTEX, level := 1, tableIndex := 0,
         tableOffset := 0, vertexOffset := 1 },
       { kernelType := KernelType.CATMARK_VERT_VERTEX_B, level := 2, tableIndex := 0,
         tableOffset := 0, vertexOffset := 2 },
       { kernelType := KernelType.HIERARCHICAL_EDIT, level := 2, tableIndex := 0,
         tableOffset := 7, vertexOffset := 0 }] }

/-- The uniform mesh `exampleMeshE` with a third level of quads. -/
def exampleMeshD : FarMesh :=
  { exampleMeshE with faceverts := [[0, 1, 2, 3], [3, 2, 1, 0], [0, 0, 1, 1]] }

/-- Number of gregory and boundary-gregory patches the inputs' summaries count together. -/
def gregoryCountOf (meshes : List FarMesh) : Nat :=
  (meshes.map (fun m => (patchCountOf m).gregory + (patchCountOf m).boundaryGregory)).sum

/-- Size of a mesh's gregory control-point index array, the source's `nGregoryQuads`. -/
def nGregoryQuadsOf (m : FarMesh) : Nat :=
  ((ptablesOf m).first PatchArray.full_G_IT).length

/-- Size of a mesh's boundary-gregory control-point index array. -/
def nBoundaryGregoryQuadsOf (m : FarMesh) : Nat :=
  ((ptablesOf m).first PatchArray.full_G_B_IT).length

/-- The gregory-interior entries of a mesh's quad-offset table: its first `nGregoryQuads`
entries. -/
def gregoryQuadOffsetsOf (m : FarMesh) : List Nat :=
  (ptablesOf m).quadOffsetTable.take (nGregoryQuadsOf m)

/-- The boundary-gregory entries of a mesh's quad-offset table: the entries after the first
`nGregoryQuads`. -/
def boundaryGregoryQuadOffsetsOf (m : FarMesh) : List Nat :=
  (ptablesOf m).quadOffsetTable.drop (nGregoryQuadsOf m)

/-- The merged max valence: the running maximum, started at `0`, of the inputs' max
valences, as the counting loop of `splicePatchTables` computes it. -/
def mergedMaxValence (meshes : List FarMesh) : Int :=
  meshes.foldl (fun x m => max x (ptablesOf m).maxValence) 0

/-- A summary of one gregory and one boundary-gregory patch. -/
def exampleCountG : FarPatchCount :=
  { FarPatchCount.zero with gregory := 1, boundaryGregory := 1 }

/-- Patch tables with one gregory and one boundary-gregory patch, max valence 2, and
valence records for two vertices: valence 2 with neighbor slots `1, 1, 0, 0`, and valence 1
with neighbor slots `0, 1` followed by two unused slots. -/
def examplePatchTablesG : FarPatchTables :=
  { first := fun a =>
      match a with
      | .full_G_IT => [0, 1, 0, 1]
      | .full_G_B_IT => [1, 0, 1, 0]
      | _ => [],
    second := fun a =>
      match a with
      | .full_G_IT => [1]
      | .full_G_B_IT => [2]
      | _ => [],
    vertexValenceTable := [2, 1, 1, 0, 0, 1, 0, 1, 0, 0],
    quadOffsetTable := [10, 11, 12, 13, 20, 21, 22, 23], maxValence := 2,
    patchCounts := [exampleCountG] }

/-- An adaptive Catmark mesh of 2 vertices with gregory patches. -/
def exampleMeshG : FarMesh :=
  { subdivisionTables := exampleTablesA, patchTables := some examplePatchTablesG,
    vertexEditTables := none, batches := [], faceverts := [], numVertices := 2 }

/-- A summary of one gregory patch. -/
def exampleCountH : FarPatchCount :=
  { FarPatchCount.zero with gregory := 1 }

/-- Patch tables with one gregory patch, max valence 3, and one valence record. -/
def examplePatchTablesH : FarPatchTables :=
  { first := fun a =>
      match a with
      | .full_G_IT => [0, 0, 0, 0]
      | _ => [],
    second := fun a =>
      match a with
      | .full_G_IT => [1]
      | _ => [],
    vertexValenceTable := [3, 0, 0, 0, 0, 0, 0],
    quadOffsetTable := [30, 31, 32, 33], maxValence := 3,
    patchCounts := [exampleCountH] }

/-- An adaptive Catmark mesh of 1 vertex with one gregory patch. -/
def exampleMeshH : FarMesh :=
  { subdivisionTables := exampleTablesB, patchTables := some examplePatchTablesH,
    vertexEditTables := none, batches := [], faceverts := [], numVertices := 1 }

/-- What one iteration of the loop "merge vertexvalence and quadoffset tables" does to the
quad-offset table and the positions of its two iterators `Q0_IT` and `Q1_IT`. -/
def quadOffsetStep (m : FarMesh) (t : List Nat × Nat × Nat) : List Nat × Nat × Nat :=
  ((stdCopy (boundaryGregoryQuadOffsetsOf m)
      { buf := (stdCopy (gregoryQuadOffsetsOf m) { buf := t.1, pos := t.2.1 }).buf,
        pos := t.2.2 }).buf,
    (stdCopy (gregoryQuadOffsetsOf m) { buf := t.1, pos := t.2.1 }).pos,
    (stdCopy (boundaryGregoryQuadOffsetsOf m)
      { buf := (stdCopy (gregoryQuadOffsetsOf m) { buf := t.1, pos := t.2.1 }).buf,
        pos := t.2.2 }).pos)

/-- A flat vertex-valence table made of the given records: each record is its signed valence
followed by its neighbor slots. -/
def flattenRecords (recs : List (Int × List Int)) : List Int :=
  (recs.map (fun r => r.1 :: r.2)).flatten

/-- Number of neighbor slots of a record that are copied: `min(2*|valence|, 2*srcMaxValence)`. -/
def copiedSlots (valence : Int) (srcMaxValence : Nat) : Nat :=
  min (2 * valence.natAbs) (2 * srcMaxValence)

/-- The destination record of a source record: the signed valence unchanged, then the first
`min(2*|valence|, 2*srcMaxValence)` neighbor slots of the source each increased by the
offset, then zeros up to `2*dstMaxValence` neighbor slots. -/
def emittedRecord (srcMaxValence dstMaxValence : Nat) (offset : Int) (r : Int × List Int) :
    List Int :=
  r.1 :: ((r.2.take (copiedSlots r.1 srcMaxValence)).map (fun x => x + offset) ++
    List.replicate (2 * dstMaxValence - copiedSlots r.1 srcMaxValence) 0)

/-- The iterator `b` is the iterator `a` after some writes: the destination has kept its
size, the position has not moved back, and every slot before the position of `a` holds
what it held. -/
def KeepsBelow {α : Type} (a b : Iter α) : Prop :=
  b.buf.length = a.buf.length ∧ a.pos ≤ b.pos ∧ ∀ k, k < a.pos → b.buf[k]? = a.buf[k]?

/-- What one iteration of the loop "merge vertexvalence and quadoffset tables" does to the
valence-table iterator `VV_IT`. -/
def vertexValenceStep (maxValence : Int) (vertexOffsets : List Nat) (i : Nat) (m : FarMesh)
    (it : Iter Int) : Iter Int :=
  { buf := (copyWithOffsetVertexValence it (ptablesOf m).vertexValenceTable
      (ptablesOf m).maxValence maxValence (vertexOffsets.getD i 0 : Nat)).buf,
    pos := it.pos + ((m.GetNumVertices : Int) * (2 * maxValence + 1)).toNat }

/-- Record `r` of a flat table of records of `w` entries each: the `w` entries from index
`w * r` on. -/
def recordAt {α : Type} (w : Nat) (table : List α) (r : Nat) : List α :=
  (table.drop (w * r)).take w

/-- An output iterator together with the indices written through it so far, in order. -/
structure TracedIter (α : Type) where
  it : Iter α
  written : List Nat

/-- The statement `*dst_iterator++ = v` on a traced iterator: the write goes to the
iterator's position, which is recorded. -/
def TracedIter.put {α : Type} (t : TracedIter α) (v : α) : TracedIter α :=
  { it := t.it.put v, written := t.written ++ [t.it.pos] }

/-- Inner loop of `copyWithOffsetVertexValence` on a traced destination iterator. -/
def copyWithOffsetVertexValence.tracedSlots (valence srcMaxValence dstMaxValence offset : Int)
    (st : TracedIter Int × List Int) : TracedIter Int × List Int :=
  (List.range (2 * dstMaxValence).toNat).foldl
    (fun st (i : Nat) =>
      if (i : Int) < 2 * srcMaxValence then
        (st.1.put (if (i : Int) < 2 * valence then st.2.headD 0 + offset else 0), st.2.tail)
      else
        (st.1.put 0, st.2))
    st

/-- Outer loop of `copyWithOffsetVertexValence` on a traced destination iterator, with an
iteration bound. -/
def copyWithOffsetVertexValence.tracedLoop (srcMaxValence dstMaxValence offset : Int) :
    Nat → TracedIter Int → List Int → TracedIter Int
  | 0, dst, _ => dst
  | _ + 1, dst, [] => dst
  | fuel + 1, dst, valence :: it =>
      let st := copyWithOffsetVertexValence.tracedSlots |valence| srcMaxValence dstMaxValence
        offset (dst.put valence, it)
      copyWithOffsetVertexValence.tracedLoop srcMaxValence dstMaxValence offset fuel st.1 st.2

/-- The source's `copyWithOffsetVertexValence` on a traced destination iterator: the same
statements, every write through `dst_iterator` recorded. -/
def copyWithOffsetVertexValence.traced (dst_iterator : TracedIter Int) (src : List Int)
    (srcMaxValence dstMaxValence offset : Int) : TracedIter Int :=
  copyWithOffsetVertexValence.tracedLoop srcMaxValence dstMaxValence offset src.length
    dst_iterator src

/-- The indices of the merged valence table written for mesh `i`: `splicePatchTables` run up
to iteration `i` of its loop "merge vertexvalence and quadoffset tables", and the trace of
the call of `copyWithOffsetVertexValence` that iteration `i` makes. -/
def splicePatchTables.valenceWrites (self : FarMultiMeshFactory) (meshes : List FarMesh)
    (i : Nat) : List Nat :=
  let result := FarPatchTables.new self.maxvalence
  let c := forEach meshes splicePatchTables.count
    { total_quadOffset0 := 0, total_quadOffset1 := 0, vertexOffsets := [], vertexOffset := 0,
      maxValence := 0, patchCounts := result.patchCounts, totalCount := FarPatchCount.zero }
  let first0 : PatchArray → List Nat := fun a => List.replicate (c.totalCount.of a * a.ringSize) 0
  let gregory : Bool :=
    decide ((first0 PatchArray.full_G_IT).length + (first0 PatchArray.full_G_B_IT).length > 0)
  let vertexValenceTable0 : List Int :=
    if gregory then List.replicate ((2 * c.maxValence + 1) * (c.vertexOffset : Int)).toNat 0
    else result.vertexValenceTable
  let quadOffsetTable0 : List Nat :=
    if gregory then List.replicate (c.total_quadOffset0 + c.total_quadOffset1) 0
    else result.quadOffsetTable
  let g := forEach (meshes.take i) (splicePatchTables.gregory c.maxValence c.vertexOffsets)
    { quadOffsetTable := quadOffsetTable0, Q0_IT := 0, Q1_IT := 0 + c.total_quadOffset0,
      VV_IT := { buf := vertexValenceTable0, pos := 0 } }
  let ptables := ptablesOf (meshes.getD i default)
  (copyWithOffsetVertexValence.traced { it := g.VV_IT, written := [] }
    ptables.vertexValenceTable ptables.maxValence c.maxValence
    (c.vertexOffsets.getD i 0 : Nat)).written

/-- The traced iterator `b` is the traced iterator `a` after some writes: the trace of `b` is
the trace of `a` followed by the positions from that of `a` up to that of `b`. -/
def TracedIter.Extends {α : Type} (a b : TracedIter α) : Prop :=
  a.it.pos ≤ b.it.pos ∧ b.written = a.written ++ List.range' a.it.pos (b.it.pos - a.it.pos)

/-- The maximum of the inputs' max valences (`0` for no input). -/
def inputsMaxValence : List FarMesh → Int
  | [] => 0
  | m :: ms => ms.foldl (fun x m => max x (ptablesOf m).maxValence) (ptablesOf m).maxValence

/-- A mesh's valence table holds at most one record per vertex, each record the signed
valence and `2 * maxValence` neighbor slots. -/
def ValenceRecords (m : FarMesh) : Prop :=
  ∃ recs : List (Int × List Int),
    (ptablesOf m).vertexValenceTable = flattenRecords recs ∧
    (∀ r ∈ recs, (r.2.length : Int) = 2 * (ptablesOf m).maxValence) ∧
    recs.length ≤ m.GetNumVertices

/-! ## Theorems -/

/-- The validation loop runs to its end exactly when every mesh has the expected mode and scheme. -/
theorem Create.validate_eq_true_iff (adaptive : Bool) (scheme : Scheme)
    (self : FarMultiMeshFactory) (meshes : List FarMesh) :
    (Create.validate adaptive scheme self meshes).2 = true ↔
      ∀ m ∈ meshes, m.patchTables.isSome = adaptive ∧ m.subdivisionTables.scheme = scheme := by
  induction meshes generalizing self with
  | nil => simp [Create.validate]
  | cons m ms ih =>
    unfold Create.validate
    by_cases h1 : xor adaptive m.patchTables.isSome = true
    · have : ¬ m.patchTables.isSome = adaptive := by
        intro h; rw [h] at h1; simp at h1
      simp [h1, this]
    · have e1 : m.patchTables.isSome = adaptive := by
        cases h : m.patchTables.isSome <;> cases h' : adaptive <;> simp_all
      by_cases h2 : scheme = m.subdivisionTables.scheme
      · rw [if_neg h1, if_neg (not_not.mpr h2), ih]
        simp [e1, h2]
      · have : ¬ m.subdivisionTables.scheme = scheme := fun h => h2 h.symm
        simp [h1, h2, this]

/-! ### Output iterators -/

theorem stdCopy_cons {α : Type} (v : α) (vs : List α) (it : Iter α) :
    stdCopy (v :: vs) it = stdCopy vs (it.put v) := by
  rfl

theorem stdCopy_append {α : Type} (us vs : List α) (it : Iter α) :
    stdCopy (us ++ vs) it = stdCopy vs (stdCopy us it) := by
  simp [stdCopy, List.foldl_append]

/-- Copying advances the iterator by the number of values copied. -/
theorem stdCopy_pos {α : Type} (vs : List α) (it : Iter α) :
    (stdCopy vs it).pos = it.pos + vs.length := by
  induction vs generalizing it with
  | nil => rfl
  | cons v vs ih =>
    rw [stdCopy_cons, ih]
    simp [Iter.put]
    omega

/-- Copying never changes the size of the destination. -/
theorem stdCopy_length {α : Type} (vs : List α) (it : Iter α) :
    (stdCopy vs it).buf.length = it.buf.length := by
  induction vs generalizing it with
  | nil => rfl
  | cons v vs ih =>
    rw [stdCopy_cons, ih]
    simp [Iter.put]

/-- Copying values that fit replaces exactly the slots from the iterator's position on. -/
theorem stdCopy_buf {α : Type} (vs : List α) (it : Iter α)
    (h : it.pos + vs.length ≤ it.buf.length) :
    (stdCopy vs it).buf = it.buf.take it.pos ++ vs ++ it.buf.drop (it.pos + vs.length) := by
  induction vs generalizing it with
  | nil => simp [stdCopy]
  | cons v vs ih =>
    have hlt : it.pos < it.buf.length := by
      simp only [List.length_cons] at h
      omega
    have h2 : (it.put v).pos + vs.length ≤ (it.put v).buf.length := by
      simp only [Iter.put, List.length_set, List.length_cons] at h ⊢
      omega
    rw [stdCopy_cons, ih _ h2]
    simp only [Iter.put]
    have e1 : List.take (it.pos + 1) (it.buf.set it.pos v) = List.take it.pos it.buf ++ [v] := by
      rw [List.set_eq_take_append_cons_drop, if_pos hlt]
      have hl : (List.take it.pos it.buf).length = it.pos := by
        rw [List.length_take]
        omega
      rw [List.take_append_eq_append_take, hl, List.take_of_length_le (by omega)]
      simp
    have e2 : List.drop (it.pos + 1 + vs.length) (it.buf.set it.pos v) =
        List.drop (it.pos + (v :: vs).length) it.buf := by
      rw [List.drop_set_of_lt _ _ (by omega)]
      congr 1
      simp only [List.length_cons]
      omega
    rw [e1, e2]
    simp

/-- Copying into a zero-filled vector of exactly the right size yields the values copied. -/
theorem stdCopy_replicate {α : Type} (z : α) (n : Nat) (vs : List α) (h : vs.length = n) :
    (stdCopy vs { buf := List.replicate n z, pos := 0 }).buf = vs := by
  rw [stdCopy_buf]
  · simp [h]
  · simp [h]

theorem copyWithOffset_eq_stdCopy {α : Type} [Add α] (it : Iter α) (src : List α) (offset : α) :
    copyWithOffset it src offset = stdCopy (src.map (fun x => x + offset)) it := by
  simp [copyWithOffset, stdCopy, List.foldl_map]

theorem copyWithOffsetE_IT_eq_stdCopy (it : Iter Int) (src : List Int) (offset : Int) :
    copyWithOffsetE_IT it src offset =
      stdCopy (src.map (fun x => offsetUnlessSentinel x offset)) it := by
  simp [copyWithOffsetE_IT, stdCopy, List.foldl_map, offsetUnlessSentinel]

/-! ### Loops over the meshes -/

/-- A component of the loop state that the body updates on its own evolves by its own loop. -/
theorem forEachFrom_proj {μ σ τ : Type} (π : σ → τ) (body : Nat → μ → σ → σ)
    (body2 : Nat → μ → τ → τ) (h : ∀ i m s, π (body i m s) = body2 i m (π s))
    (i : Nat) (ms : List μ) (s : σ) :
    π (forEachFrom body i ms s) = forEachFrom body2 i ms (π s) := by
  induction ms generalizing i s with
  | nil => rfl
  | cons m ms ih => simp only [forEachFrom, ih, h]

/-- Two bodies that agree at every index the loop visits give the same loop. -/
theorem forEachFrom_congr {μ σ : Type} (body body2 : Nat → μ → σ → σ) (i : Nat) (ms : List μ)
    (h : ∀ j, i ≤ j → j < i + ms.length → ∀ m s, body j m s = body2 j m s) (s : σ) :
    forEachFrom body i ms s = forEachFrom body2 i ms s := by
  induction ms generalizing i s with
  | nil => rfl
  | cons m ms ih =>
    simp only [forEachFrom]
    rw [h i (Nat.le_refl _) (by simp)]
    apply ih
    intro j h1 h2
    apply h j (by omega)
    simp only [List.length_cons]
    omega

/-- A loop that only adds a per-mesh number to an accumulator computes the sum. -/
theorem forEachFrom_add {μ : Type} (f : μ → Nat) (i : Nat) (ms : List μ) (n : Nat) :
    forEachFrom (fun _ m k => k + f m) i ms n = n + (ms.map f).sum := by
  induction ms generalizing i n with
  | nil => simp [forEachFrom]
  | cons m ms ih => simp [forEachFrom, ih, Nat.add_assoc]

/-- A loop that copies one list per mesh to an iterator copies their concatenation. -/
theorem forEachFrom_stdCopy {μ α : Type} (piece : Nat → μ → List α) (i : Nat) (ms : List μ)
    (it : Iter α) :
    forEachFrom (fun j m it => stdCopy (piece j m) it) i ms it =
      stdCopy ((ms.enumFrom i).map (fun p => piece p.1 p.2)).flatten it := by
  induction ms generalizing i it with
  | nil => rfl
  | cons m ms ih =>
    simp only [forEachFrom, ih, List.enumFrom_cons, List.map_cons, List.flatten_cons,
      stdCopy_append]

/-- Length of a concatenation of per-mesh lists whose lengths depend on the mesh only. -/
theorem length_flatten_enumFrom {μ α : Type} (piece : Nat → μ → List α) (len : μ → Nat)
    (h : ∀ j m, (piece j m).length = len m) (i : Nat) (ms : List μ) :
    ((ms.enumFrom i).map (fun p => piece p.1 p.2)).flatten.length = (ms.map len).sum := by
  induction ms generalizing i with
  | nil => rfl
  | cons m ms ih =>
    simp only [List.enumFrom_cons, List.map_cons, List.flatten_cons, List.length_append, ih, h,
      List.sum_cons]

/-- Two families of per-mesh lists that agree at every index of the list have the same
concatenation. -/
theorem flatten_enumFrom_congr {μ α : Type} (piece piece2 : Nat → μ → List α) (i : Nat)
    (ms : List μ) (h : ∀ j, i ≤ j → j < i + ms.length → ∀ m, piece j m = piece2 j m) :
    ((ms.enumFrom i).map (fun p => piece p.1 p.2)).flatten =
      ((ms.enumFrom i).map (fun p => piece2 p.1 p.2)).flatten := by
  induction ms generalizing i with
  | nil => rfl
  | cons m ms ih =>
    simp only [List.enumFrom_cons, List.map_cons, List.flatten_cons]
    rw [h i (Nat.le_refl _) (by simp), ih]
    intro j h1 h2
    apply h j (by omega)
    simp only [List.length_cons]
    omega

/-- A loop that pushes a running sum and then advances it by a per-mesh number produces the
sums over the preceding meshes. -/
theorem forEachFrom_push {μ : Type} (f : μ → Nat) (i : Nat) (ms : List μ) (s : Nat × List Nat) :
    forEachFrom (fun _ m (s : Nat × List Nat) => (s.1 + f m, s.2 ++ [s.1])) i ms s =
      (s.1 + (ms.map f).sum,
       s.2 ++ (List.range ms.length).map (fun j => s.1 + ((ms.take j).map f).sum)) := by
  induction ms generalizing i s with
  | nil => simp [forEachFrom]
  | cons m ms ih =>
    simp only [forEachFrom, ih, List.map_cons, List.sum_cons, List.length_cons,
      List.range_succ_eq_map, List.take_zero, List.map_nil, List.sum_nil, List.map_map,
      List.append_assoc, List.singleton_append, Nat.add_zero, Nat.add_assoc]
    rfl

/-- Entry `j` of the vector of pushed running sums, started from zero. -/
theorem getD_pushed {μ : Type} (f : μ → Nat) (ms : List μ) (j : Nat) (hj : j < ms.length) :
    (([] : List Nat) ++ (List.range ms.length).map (fun j => 0 + ((ms.take j).map f).sum)).getD j 0 =
      ((ms.take j).map f).sum := by
  simp [List.getD_eq_getElem?_getD, List.getElem?_map, List.getElem?_range hj]

/-- Filling a zero-filled vector of the right size by a loop of per-mesh copies yields the
concatenation of the per-mesh lists. -/
theorem splice_buf {α : Type} (z : α) (n : Nat) (piece piece2 : Nat → FarMesh → List α)
    (len : FarMesh → Nat) (meshes : List FarMesh)
    (hlen : ∀ j m, (piece j m).length = len m) (hn : n = (meshes.map len).sum)
    (hp : ∀ j, j < meshes.length → ∀ m, piece j m = piece2 j m) :
    (forEachFrom (fun j m it => stdCopy (piece j m) it) 0 meshes
      { buf := List.replicate n z, pos := 0 }).buf = concatMeshes meshes piece2 := by
  rw [forEachFrom_stdCopy, stdCopy_replicate]
  · exact flatten_enumFrom_congr piece piece2 0 meshes
      (fun j _ h2 m => hp j (by omega) m)
  · rw [length_flatten_enumFrom piece len hlen, hn]

/-- Entry `j` of the segment that mesh `i` contributes to a concatenation of per-mesh lists. -/
theorem getElem?_flatten_enumFrom {μ α : Type} (piece : Nat → μ → List α) (len : μ → Nat)
    (hlen : ∀ j m, (piece j m).length = len m) (ms : List μ) (start i j : Nat) (d : μ)
    (hi : i < ms.length) (hj : j < len (ms.getD i d)) :
    (((ms.enumFrom start).map (fun p => piece p.1 p.2)).flatten)[((ms.take i).map len).sum + j]? =
      (piece (start + i) (ms.getD i d))[j]? := by
  induction ms generalizing start i with
  | nil => simp at hi
  | cons m ms ih =>
    cases i with
    | zero =>
      simp only [List.take_zero, List.map_nil, List.sum_nil, Nat.zero_add, List.enumFrom_cons,
        List.map_cons, List.flatten_cons, Nat.add_zero, List.getD_cons_zero]
      simp only [List.getD_cons_zero] at hj
      rw [List.getElem?_append_left (by rw [hlen]; exact hj)]
    | succ i =>
      simp only [List.length_cons, Nat.add_lt_add_iff_right] at hi
      simp only [List.getD_cons_succ] at hj
      simp only [List.take_succ_cons, List.map_cons, List.sum_cons, List.enumFrom_cons,
        List.flatten_cons, List.getD_cons_succ]
      rw [List.getElem?_append_right (by rw [hlen]; omega)]
      have e : len m + ((ms.take i).map len).sum + j - (piece start m).length =
          ((ms.take i).map len).sum + j := by
        rw [hlen]
        omega
      rw [e, ih (start + 1) i hi hj]
      congr 2
      omega

/-! ### spliceSubdivisionTables -/

/-- The counting loop computes the seven sums of table sizes. -/
theorem forEachFrom_count (i : Nat) (ms : List FarMesh) (t : TableTotals) :
    forEachFrom spliceSubdivisionTables.count i ms t =
      { total_F_ITa := t.total_F_ITa + (ms.map (fun m => m.subdivisionTables.F_ITa.length)).sum,
        total_F_IT := t.total_F_IT + (ms.map (fun m => m.subdivisionTables.F_IT.length)).sum,
        total_E_IT := t.total_E_IT + (ms.map (fun m => m.subdivisionTables.E_IT.length)).sum,
        total_E_W := t.total_E_W + (ms.map (fun m => m.subdivisionTables.E_W.length)).sum,
        total_V_ITa := t.total_V_ITa + (ms.map (fun m => m.subdivisionTables.V_ITa.length)).sum,
        total_V_IT := t.total_V_IT + (ms.map (fun m => m.subdivisionTables.V_IT.length)).sum,
        total_V_W := t.total_V_W + (ms.map (fun m => m.subdivisionTables.V_W.length)).sum } := by
  induction ms generalizing i t with
  | nil => simp [forEachFrom]
  | cons m ms ih =>
    simp [forEachFrom, ih, spliceSubdivisionTables.count, Nat.add_assoc]

/-- Entry `j` of `vertexOffsets` is the sum of the vertex counts of the meshes before `j`. -/
theorem offsets_vertexOffsets (scheme : Scheme) (meshes : List FarMesh) (j : Nat)
    (hj : j < meshes.length) :
    (forEach meshes (spliceSubdivisionTables.offsets scheme) TableOffsets.init).vertexOffsets.getD j 0 =
      vertexOffsetOf meshes j := by
  have h := forEachFrom_proj (fun o : TableOffsets => (o.vertexOffset, o.vertexOffsets))
    (spliceSubdivisionTables.offsets scheme)
    (fun _ m s => (s.1 + m.GetNumVertices, s.2 ++ [s.1])) (fun _ _ _ => rfl) 0 meshes
    TableOffsets.init
  rw [forEachFrom_push] at h
  have h2 := congrArg Prod.snd h
  simp only at h2
  rw [forEach, h2]
  exact getD_pushed _ meshes j hj

/-- The merged `F_IT` is the concatenation of the inputs' `F_IT`, each rebased by its vertex offset. -/
theorem spliceSubdivisionTables_F_IT (self : FarMultiMeshFactory) (farMesh : FarMesh)
    (meshes : List FarMesh) :
    (spliceSubdivisionTables self farMesh meshes).1.F_IT =
      concatMeshes meshes
        (fun i m => m.subdivisionTables.F_IT.map (fun x => x + vertexOffsetOf meshes i)) := by
  simp only [spliceSubdivisionTables, forEach]
  rw [forEachFrom_proj IndexTableIters.F_IT _
    (fun i m it => stdCopy (m.subdivisionTables.F_IT.map (fun x => x +
      (forEach meshes (spliceSubdivisionTables.offsets
        (meshes.headD default).subdivisionTables.scheme) TableOffsets.init).vertexOffsets.getD i 0)) it)
    (fun i m s => by simp only [spliceSubdivisionTables.concat, copyWithOffset_eq_stdCopy, forEach])]
  apply splice_buf (0 : Nat) _ _ _ (fun m => m.subdivisionTables.F_IT.length)
  · intro j m
    simp
  · rw [forEachFrom_count]
    simp
  · intro j hj m
    rw [offsets_vertexOffsets _ _ _ hj]

/-- The merged `V_IT` is the concatenation of the inputs' `V_IT`, each rebased by its vertex offset. -/
theorem spliceSubdivisionTables_V_IT (self : FarMultiMeshFactory) (farMesh : FarMesh)
    (meshes : List FarMesh) :
    (spliceSubdivisionTables self farMesh meshes).1.V_IT =
      concatMeshes meshes
        (fun i m => m.subdivisionTables.V_IT.map (fun x => x + vertexOffsetOf meshes i)) := by
  simp only [spliceSubdivisionTables, forEach]
  rw [forEachFrom_proj IndexTableIters.V_IT _
    (fun i m it => stdCopy (m.subdivisionTables.V_IT.map (fun x => x +
      (forEach meshes (spliceSubdivisionTables.offsets
        (meshes.headD default).subdivisionTables.scheme) TableOffsets.init).vertexOffsets.getD i 0)) it)
    (fun i m s => by simp only [spliceSubdivisionTables.concat, copyWithOffset_eq_stdCopy, forEach])]
  apply splice_buf (0 : Nat) _ _ _ (fun m => m.subdivisionTables.V_IT.length)
  · intro j m
    simp
  · rw [forEachFrom_count]
    simp
  · intro j hj m
    rw [offsets_vertexOffsets _ _ _ hj]

/-- The merged `E_IT` is the concatenation of the inputs' `E_IT`, each entry other than the
sentinel rebased by the mesh's vertex offset. -/
theorem spliceSubdivisionTables_E_IT (self : FarMultiMeshFactory) (farMesh : FarMesh)
    (meshes : List FarMesh) :
    (spliceSubdivisionTables self farMesh meshes).1.E_IT =
      concatMeshes meshes
        (fun i m => m.subdivisionTables.E_IT.map
          (fun x => if x = -1 then -1 else x + (vertexOffsetOf meshes i : Int))) := by
  simp only [spliceSubdivisionTables, forEach]
  rw [forEachFrom_proj RuleTableIters.E_IT _
    (fun i m it => stdCopy (m.subdivisionTables.E_IT.map (fun x => offsetUnlessSentinel x
      ((forEach meshes (spliceSubdivisionTables.offsets
        (meshes.headD default).subdivisionTables.scheme) TableOffsets.init).vertexOffsets.getD i 0 : Nat))) it)
    (fun i m s => by
      simp only [spliceSubdivisionTables.merge, copyWithOffsetE_IT_eq_stdCopy, forEach])]
  apply splice_buf (0 : Int) _ _ _ (fun m => m.subdivisionTables.E_IT.length)
  · intro j m
    simp
  · rw [forEachFrom_count]
    simp
  · intro j hj m
    rw [offsets_vertexOffsets _ _ _ hj]
    rfl

/-- Length of a concatenation of per-mesh lists whose lengths depend on the mesh only. -/
theorem length_concatMeshes {α : Type} (meshes : List FarMesh) (piece : Nat → FarMesh → List α)
    (len : FarMesh → Nat) (h : ∀ j m, (piece j m).length = len m) :
    (concatMeshes meshes piece).length = (meshes.map len).sum :=
  length_flatten_enumFrom piece len h 0 meshes

/-! ### Copies with all offsets zero -/

theorem copyWithOffset_zero_nat (it : Iter Nat) (src : List Nat) :
    copyWithOffset it src 0 = stdCopy src it := by
  simp [copyWithOffset_eq_stdCopy]

theorem copyWithOffset_zero_int (it : Iter Int) (src : List Int) :
    copyWithOffset it src 0 = stdCopy src it := by
  simp [copyWithOffset_eq_stdCopy]

theorem copyWithOffset_zero_rat (it : Iter ℚ) (src : List ℚ) :
    copyWithOffset it src 0 = stdCopy src it := by
  simp [copyWithOffset_eq_stdCopy]

theorem offsetUnlessSentinel_zero (x : Int) : offsetUnlessSentinel x 0 = x := by
  unfold offsetUnlessSentinel
  split_ifs with h
  · exact h.symm
  · simp

theorem copyWithOffsetE_IT_zero (it : Iter Int) (src : List Int) :
    copyWithOffsetE_IT it src 0 = stdCopy src it := by
  rw [copyWithOffsetE_IT_eq_stdCopy]
  simp [offsetUnlessSentinel_zero]

theorem copyWithOffsetF_ITa_of_zero (it : Iter Int) (src : List Int) (offset : Int)
    (h : offset = 0) : copyWithOffsetF_ITa it src offset = stdCopy src it := by
  induction it, src, offset using copyWithOffsetF_ITa.induct with
  | case1 it x => rfl
  | case2 it a offset => simp [copyWithOffsetF_ITa, stdCopy, h]
  | case3 it a b rest offset ih =>
    rw [copyWithOffsetF_ITa, ih h]
    simp [stdCopy, h]

theorem copyWithOffsetF_ITa_zero (it : Iter Int) (src : List Int) :
    copyWithOffsetF_ITa it src 0 = stdCopy src it :=
  copyWithOffsetF_ITa_of_zero it src 0 rfl

theorem copyWithOffsetV_ITa_of_zero (it : Iter Int) (src : List Int) (tableOffset vertexOffset : Int)
    (h1 : tableOffset = 0) (h2 : vertexOffset = 0) :
    copyWithOffsetV_ITa it src tableOffset vertexOffset = stdCopy src it := by
  induction it, src, tableOffset, vertexOffset using copyWithOffsetV_ITa.induct with
  | case1 it a b c d e rest t v ih =>
    rw [copyWithOffsetV_ITa, ih h1 h2]
    simp [stdCopy, h1, h2, offsetUnlessSentinel_zero]
  | case2 it a b c d t v => simp [copyWithOffsetV_ITa, stdCopy, h1, h2, offsetUnlessSentinel_zero]
  | case3 it a b c t v => simp [copyWithOffsetV_ITa, stdCopy, h1, h2, offsetUnlessSentinel_zero]
  | case4 it a b t v => simp [copyWithOffsetV_ITa, stdCopy, h1]
  | case5 it a t v => simp [copyWithOffsetV_ITa, stdCopy, h1]
  | case6 it t v => simp [copyWithOffsetV_ITa, stdCopy]

theorem copyWithOffsetV_ITa_zero (it : Iter Int) (src : List Int) :
    copyWithOffsetV_ITa it src 0 0 = stdCopy src it :=
  copyWithOffsetV_ITa_of_zero it src 0 0 rfl rfl

/-- With every offset zero the rebasing of a batch changes nothing. -/
theorem rebase_zero (o : TableOffsets) (i : Nat) (b : FarKernelBatch)
    (h1 : o.vertexOffsets.getD i 0 = 0) (h2 : o.fvOffsets.getD i 0 = 0)
    (h3 : o.evOffsets.getD i 0 = 0) (h4 : o.vvOffsets.getD i 0 = 0) :
    spliceSubdivisionTables.rebase o i 0 b = b := by
  unfold spliceSubdivisionTables.rebase
  simp only [h1, h2, h3, h4]
  split_ifs <;> simp

/-- Pushing back the image of every element is appending the mapped list. -/
theorem foldl_push_eq_append_map {α β : Type} (f : α → β) (xs : List α) (acc : List β) :
    xs.foldl (fun bs b => bs ++ [f b]) acc = acc ++ xs.map f := by
  induction xs generalizing acc with
  | nil => simp
  | cons x xs ih => simp [ih]

/-- Splicing a single mesh copies its seven tables and appends its schedule unchanged. -/
theorem spliceSubdivisionTables_single (self : FarMultiMeshFactory) (farMesh m : FarMesh) :
    (spliceSubdivisionTables self farMesh [m]).1.F_ITa = m.subdivisionTables.F_ITa ∧
    (spliceSubdivisionTables self farMesh [m]).1.F_IT = m.subdivisionTables.F_IT ∧
    (spliceSubdivisionTables self farMesh [m]).1.E_IT = m.subdivisionTables.E_IT ∧
    (spliceSubdivisionTables self farMesh [m]).1.E_W = m.subdivisionTables.E_W ∧
    (spliceSubdivisionTables self farMesh [m]).1.V_ITa = m.subdivisionTables.V_ITa ∧
    (spliceSubdivisionTables self farMesh [m]).1.V_IT = m.subdivisionTables.V_IT ∧
    (spliceSubdivisionTables self farMesh [m]).1.V_W = m.subdivisionTables.V_W ∧
    (spliceSubdivisionTables self farMesh [m]).2.batches = farMesh.batches ++ m.batches := by
  simp only [spliceSubdivisionTables, forEach, forEachFrom, spliceSubdivisionTables.count,
    spliceSubdivisionTables.offsets, TableOffsets.init, spliceSubdivisionTables.concat,
    spliceSubdivisionTables.merge, spliceSubdivisionTables.batch, List.nil_append,
    List.getD_cons_zero, Nat.zero_add, Nat.cast_zero, copyWithOffset_zero_nat,
    copyWithOffset_zero_int, copyWithOffset_zero_rat, copyWithOffsetE_IT_zero,
    copyWithOffsetF_ITa_zero, copyWithOffsetV_ITa_zero, ite_self, foldl_push_eq_append_map]
  refine ⟨stdCopy_replicate _ _ _ rfl, stdCopy_replicate _ _ _ rfl, stdCopy_replicate _ _ _ rfl,
    stdCopy_replicate _ _ _ rfl, stdCopy_replicate _ _ _ rfl, stdCopy_replicate _ _ _ rfl,
    stdCopy_replicate _ _ _ rfl, ?_⟩
  congr 1
  conv_rhs => rw [← List.map_id m.batches]
  apply List.map_congr_left
  intro b _
  exact rebase_zero _ 0 b rfl rfl rfl rfl

/-! ### The merged schedule -/

/-- Rebasing a batch keeps its kernel type and its level. -/
theorem rebase_kernelType_level (o : TableOffsets) (i e : Nat) (b : FarKernelBatch) :
    (spliceSubdivisionTables.rebase o i e b).kernelType = b.kernelType ∧
      (spliceSubdivisionTables.rebase o i e b).level = b.level := by
  unfold spliceSubdivisionTables.rebase
  dsimp only
  split_ifs <;> simp

/-- The batch loop appends, mesh by mesh, the rebased schedule of each mesh, where `E j` is
the edit-table index offset in force at mesh `j`. -/
theorem forEachFrom_batch (o : TableOffsets) (E : Nat → Nat) (i : Nat) (ms : List FarMesh)
    (s : BatchMerge) (h0 : E i = s.editTableIndexOffset)
    (hE : ∀ j, j < ms.length → E (i + j + 1) = E (i + j) + numEditBatches (ms.getD j default)) :
    (forEachFrom (spliceSubdivisionTables.batch o) i ms s).batches =
      s.batches ++
        ((ms.enumFrom i).map
          (fun p => p.2.batches.map (spliceSubdivisionTables.rebase o p.1 (E p.1)))).flatten := by
  induction ms generalizing i s with
  | nil => simp [forEachFrom]
  | cons m ms ih =>
    simp only [forEachFrom]
    rw [ih (i + 1)]
    · simp only [spliceSubdivisionTables.batch, foldl_push_eq_append_map, List.enumFrom_cons,
        List.map_cons, List.flatten_cons, List.append_assoc, h0]
    · have := hE 0 (by simp)
      simp only [Nat.add_zero, List.getD_cons_zero] at this
      rw [this, h0]
      rfl
    · intro j hj
      have := hE (j + 1) (by simpa using hj)
      simp only [List.getD_cons_succ] at this
      rw [show i + 1 + j + 1 = i + (j + 1) + 1 by omega, this]
      congr 2
      omega

/-- The running sums of a per-mesh number advance by the number of the mesh passed. -/
theorem sum_take_succ_getD {μ : Type} (f : μ → Nat) (ms : List μ) (d : μ) (j : Nat)
    (hj : j < ms.length) :
    ((ms.take (j + 1)).map f).sum = ((ms.take j).map f).sum + f (ms.getD j d) := by
  induction ms generalizing j with
  | nil => simp at hj
  | cons m ms ih =>
    cases j with
    | zero => simp
    | succ j =>
      simp only [List.length_cons, Nat.add_lt_add_iff_right] at hj
      simp only [List.take_succ_cons, List.map_cons, List.sum_cons, List.getD_cons_succ, ih j hj,
        Nat.add_assoc]

/-- The merged schedule is the concatenation of the inputs' rebased schedules. -/
theorem spliceSubdivisionTables_batches (self : FarMultiMeshFactory) (meshes : List FarMesh) :
    (spliceSubdivisionTables self FarMesh.new meshes).2.batches =
      concatMeshes meshes (fun i m => m.batches.map (rebasedBatch meshes i)) := by
  simp only [spliceSubdivisionTables]
  rw [forEach, forEachFrom_batch _ (editBatchesBefore meshes) 0 meshes]
  · rfl
  · simp [editBatchesBefore]
  · intro j hj
    simp only [Nat.zero_add]
    exact sum_take_succ_getD numEditBatches meshes default j hj

/-! ### spliceQuads -/

theorem copyWithOffsetBack_eq {α : Type} [Add α] (dst src : List α) (offset : α) :
    copyWithOffsetBack dst src offset = dst ++ src.map (fun x => x + offset) := by
  simp [copyWithOffsetBack, foldl_push_eq_append_map]

/-- One iteration of the inner loop of `spliceQuads` on a mesh that has level `l`. -/
theorem inner_some (l i : Nat) (m : FarMesh) (s : QuadMerge) (h : l < m.faceverts.length) :
    spliceQuads.inner l i m (some s) =
      some
        { faceverts := s.faceverts ++ (m.faceverts.getD l []).map (fun x => x + (s.vertexOffset : Int)),
          vertexOffset := s.vertexOffset + m.GetNumVertices } := by
  have hm : m.faceverts[l]? = some (m.faceverts.getD l []) := by
    rw [List.getD_eq_getElem?_getD, List.getElem?_eq_getElem h]
    rfl
  simp only [spliceQuads.inner, Option.some_bind, hm, Option.map_some', copyWithOffsetBack_eq]

/-- The inner loop of `spliceQuads` over meshes that all have level `l` appends, mesh by
mesh, the level's array of each mesh rebased by `E j`, the vertex offset in force at mesh
`j`. -/
theorem forEachFrom_inner (l : Nat) (E : Nat → Nat) (i : Nat) (ms : List FarMesh)
    (s : QuadMerge) (h0 : E i = s.vertexOffset)
    (hE : ∀ j, j < ms.length → E (i + j + 1) = E (i + j) + (ms.getD j default).GetNumVertices)
    (hl : ∀ m ∈ ms, l < m.faceverts.length) :
    (forEachFrom (spliceQuads.inner l) i ms (some s)).map QuadMerge.faceverts =
      some (s.faceverts ++
        ((ms.enumFrom i).map
          (fun p => (p.2.faceverts.getD l []).map (fun x => x + (E p.1 : Int)))).flatten) := by
  induction ms generalizing i s with
  | nil => simp [forEachFrom]
  | cons m ms ih =>
    simp only [forEachFrom]
    rw [inner_some l i m s (hl m (List.mem_cons_self _ _)), ih (i + 1)]
    · simp only [List.enumFrom_cons, List.map_cons, List.flatten_cons, List.append_assoc, h0]
    · have := hE 0 (by simp)
      simp only [Nat.add_zero, List.getD_cons_zero] at this
      rw [this, h0]
    · intro j hj
      have := hE (j + 1) (by simpa using hj)
      simp only [List.getD_cons_succ] at this
      rw [show i + 1 + j + 1 = i + (j + 1) + 1 by omega, this]
      congr 2
      omega
    · exact fun x hx => hl x (List.mem_cons_of_mem _ hx)

/-- The inner loop of `spliceQuads`, started on an empty vector over meshes that all have
level `l`, builds the concatenation of the inputs' level-`l` arrays, each rebased by the
mesh's vertex offset. -/
theorem forEach_inner (l : Nat) (meshes : List FarMesh)
    (hl : ∀ m ∈ meshes, l < m.faceverts.length) :
    (forEach meshes (spliceQuads.inner l) (some { faceverts := [], vertexOffset := 0 })).map
        QuadMerge.faceverts =
      some (concatMeshes meshes
        (fun i m => (m.faceverts.getD l []).map (fun x => x + (vertexOffsetOf meshes i : Int)))) := by
  rw [forEach, forEachFrom_inner l (vertexOffsetOf meshes) 0 meshes _ _ _ hl]
  · rfl
  · simp [vertexOffsetOf]
  · intro j hj
    simp only [Nat.zero_add]
    exact sum_take_succ_getD FarMesh.GetNumVertices meshes default j hj

/-- A loop that sets slot `l` of a vector of empty slots from the slot's old content, for
`l` below `k`, leaves the computed values in the first `k` slots when every step has a
result. -/
theorem foldl_set_range {β γ : Type} (G : Nat → List β → Option γ) (f : γ → List β)
    (g : Nat → List β) (n k : Nat) (hk : k ≤ n)
    (hG : ∀ l, l < k → (G l []).map f = some (g l)) :
    (List.range k).foldl
        (fun fv l => fv.bind (fun fv => (G l (fv.getD l [])).map (fun q => fv.set l (f q))))
        (some (List.replicate n [])) =
      some ((List.range k).map g ++ List.replicate (n - k) []) := by
  induction k with
  | zero => simp
  | succ k ih =>
    rw [List.range_succ, List.foldl_append, ih (by omega) (fun l hl => hG l (by omega))]
    obtain ⟨d, hd⟩ : ∃ d, n - k = d + 1 := ⟨n - k - 1, by omega⟩
    have e : n - (k + 1) = d := by omega
    have hlen : ((List.range k).map g).length = k := by simp
    have hget : ((List.range k).map g ++ List.replicate (n - k) ([] : List β)).getD k [] = [] := by
      rw [List.getD_eq_getElem?_getD, List.getElem?_append_right (by omega), hlen, hd]
      simp
    simp only [List.foldl_cons, List.foldl_nil, Option.some_bind, hget]
    have hG2 := hG k (by omega)
    cases hq : G k [] with
    | none => simp [hq] at hG2
    | some q =>
      simp only [hq, Option.map_some', Option.some.injEq] at hG2 ⊢
      rw [hG2, hd, e, List.replicate_succ, List.set_append_right _ _ (by omega), hlen]
      simp

/-- The mesh `spliceQuads` returns when every input has the `_maxlevel + 1` levels it reads:
level `l` of its face-corner arrays is the concatenation of the inputs' level-`l` arrays,
each rebased by the mesh's vertex offset. -/
theorem spliceQuads_eq (self : FarMultiMeshFactory) (result : FarMesh) (meshes : List FarMesh)
    (hlev : ∀ m ∈ meshes, (self.maxlevel + 1).toNat ≤ m.faceverts.length) :
    spliceQuads self result meshes =
      some
        { result with
          faceverts :=
            (List.range (self.maxlevel + 1).toNat).map
              (fun l => concatMeshes meshes
                (fun i m => (m.faceverts.getD l []).map
                  (fun x => x + (vertexOffsetOf meshes i : Int)))) } := by
  simp only [spliceQuads]
  rw [foldl_set_range
    (fun l fv => forEach meshes (spliceQuads.inner l) (some { faceverts := fv, vertexOffset := 0 }))
    QuadMerge.faceverts
    (fun l => concatMeshes meshes
      (fun i m => (m.faceverts.getD l []).map (fun x => x + (vertexOffsetOf meshes i : Int))))
    _ _ (Nat.le_refl _)
    (fun l hl => forEach_inner l meshes (fun m hm => Nat.lt_of_lt_of_le hl (hlev m hm)))]
  simp

/-! ### Create -/

/-- The factory after the call is the factory the validation loop left. -/
theorem Create_snd (self : FarMultiMeshFactory) (mesh0 : FarMesh) (rest : List FarMesh) :
    (Create self (mesh0 :: rest)).2 =
      (Create.validate mesh0.patchTables.isSome mesh0.subdivisionTables.scheme
        { self with maxlevel := 0, maxvalence := 0 } (mesh0 :: rest)).1 := by
  simp only [Create]
  split_ifs <;> first | rfl | (split <;> rfl)

/-- The value `Create` returns once validation has succeeded and, in uniform mode, every
input has the face-corner levels `spliceQuads` reads: each part of the merged mesh is what
the corresponding splice function produced. -/
theorem Create_of_validate (self : FarMultiMeshFactory) (mesh0 : FarMesh) (rest : List FarMesh)
    (h : (Create.validate mesh0.patchTables.isSome mesh0.subdivisionTables.scheme
      { self with maxlevel := 0, maxvalence := 0 } (mesh0 :: rest)).2 = true)
    (hlev : mesh0.patchTables.isSome = false →
      ∀ m ∈ mesh0 :: rest,
        ((Create self (mesh0 :: rest)).2.maxlevel + 1).toNat ≤ m.faceverts.length) :
    ∃ r, (Create self (mesh0 :: rest)).1 = some (some r) ∧
      r.numVertices = forEach (mesh0 :: rest) (fun _ mesh n => n + mesh.GetNumVertices) 0 ∧
      r.subdivisionTables =
        (spliceSubdivisionTables (Create self (mesh0 :: rest)).2 FarMesh.new (mesh0 :: rest)).1 ∧
      r.batches =
        (spliceSubdivisionTables (Create self (mesh0 :: rest)).2 FarMesh.new
          (mesh0 :: rest)).2.batches ∧
      r.faceverts =
        (if mesh0.patchTables.isSome then []
         else
          (List.range ((Create self (mesh0 :: rest)).2.maxlevel + 1).toNat).map
            (fun l => concatMeshes (mesh0 :: rest)
              (fun i m => (m.faceverts.getD l []).map
                (fun x => x + (vertexOffsetOf (mesh0 :: rest) i : Int))))) ∧
      r.patchTables =
        (if mesh0.patchTables.isSome then
          some (splicePatchTables (Create self (mesh0 :: rest)).2 (mesh0 :: rest))
         else none) := by
  rw [Create_snd] at hlev ⊢
  simp only [Create, h]
  by_cases ha : mesh0.patchTables.isSome = true
  · simp [ha, spliceSubdivisionTables, FarMesh.new]
  · have hf : mesh0.patchTables.isSome = false := by simpa using ha
    rw [if_neg ha, spliceQuads_eq _ _ _ (hlev hf)]
    simp [hf, spliceSubdivisionTables, FarMesh.new]

/-- On a non-empty homogeneous list whose uniform inputs have the face-corner levels
`spliceQuads` reads, `Create` returns a mesh, and each part of the merged mesh is what the
corresponding splice function produced. -/
theorem Create_homogeneous (self : FarMultiMeshFactory) (meshes : List FarMesh)
    (hne : meshes ≠ []) (hom : Homogeneous meshes) (hlev : QuadLevelsPresent self meshes) :
    ∃ r, (Create self meshes).1 = some (some r) ∧
      r.numVertices = forEach meshes (fun _ mesh n => n + mesh.GetNumVertices) 0 ∧
      r.subdivisionTables =
        (spliceSubdivisionTables (Create self meshes).2 FarMesh.new meshes).1 ∧
      r.batches = (spliceSubdivisionTables (Create self meshes).2 FarMesh.new meshes).2.batches ∧
      r.faceverts =
        (if (meshes.headD default).patchTables.isSome then []
         else
          (List.range ((Create self meshes).2.maxlevel + 1).toNat).map
            (fun l => concatMeshes meshes
              (fun i m => (m.faceverts.getD l []).map
                (fun x => x + (vertexOffsetOf meshes i : Int))))) ∧
      r.patchTables =
        (if (meshes.headD default).patchTables.isSome then
          some (splicePatchTables (Create self meshes).2 meshes)
         else none) := by
  cases meshes with
  | nil => exact absurd rfl hne
  | cons mesh0 rest =>
    have hv : (Create.validate mesh0.patchTables.isSome mesh0.subdivisionTables.scheme
        { self with maxlevel := 0, maxvalence := 0 } (mesh0 :: rest)).2 = true := by
      rw [Create.validate_eq_true_iff]
      intro m hm
      have := hom m hm mesh0 (List.mem_cons_self _ _)
      exact ⟨this.2, this.1⟩
    exact Create_of_validate self mesh0 rest hv hlev

/-- An adaptive list asks nothing of the face-corner levels. -/
theorem QuadLevelsPresent_of_adaptive (self : FarMultiMeshFactory) (meshes : List FarMesh)
    (hne : meshes ≠ []) (hadaptive : ∀ m ∈ meshes, m.patchTables.isSome = true) :
    QuadLevelsPresent self meshes := by
  intro h
  cases meshes with
  | nil => exact absurd rfl hne
  | cons m ms =>
    have := hadaptive m (List.mem_cons_self _ _)
    simp only [List.headD_cons] at h
    rw [this] at h
    exact absurd h (by simp)

/-! ### splicePatchTables -/

theorem FarPatchCount.of_Append (c d : FarPatchCount) (a : PatchArray) :
    (c.Append d).of a = c.of a + d.of a := by
  cases a <;> rfl

/-- The counting loop sums, for every array pair, the counts of the summaries read. -/
theorem forEachFrom_patch_count (a : PatchArray) (i : Nat) (ms : List FarMesh) (s : PatchTotals) :
    (forEachFrom splicePatchTables.count i ms s).totalCount.of a =
      s.totalCount.of a + (ms.map (fun m => (patchCountOf m).of a)).sum := by
  rw [forEachFrom_proj (fun s : PatchTotals => s.totalCount.of a) splicePatchTables.count
    (fun _ m n => n + (patchCountOf m).of a)
    (fun _ m s => by simp only [splicePatchTables.count, FarPatchCount.of_Append, patchCountOf])]
  exact forEachFrom_add _ i ms _

/-- Entry `j` of the `vertexOffsets` of the counting loop is the sum of the vertex counts of
the meshes before `j`. -/
theorem patch_count_vertexOffsets (meshes : List FarMesh) (pc : List FarPatchCount) (j : Nat)
    (hj : j < meshes.length) :
    (forEach meshes splicePatchTables.count
      { total_quadOffset0 := 0, total_quadOffset1 := 0, vertexOffsets := [], vertexOffset := 0,
        maxValence := 0, patchCounts := pc, totalCount := FarPatchCount.zero }).vertexOffsets.getD j 0 =
      vertexOffsetOf meshes j := by
  have h := forEachFrom_proj (fun o : PatchTotals => (o.vertexOffset, o.vertexOffsets))
    splicePatchTables.count
    (fun _ m s => (s.1 + m.GetNumVertices, s.2 ++ [s.1])) (fun _ _ _ => rfl) 0 meshes
    { total_quadOffset0 := 0, total_quadOffset1 := 0, vertexOffsets := [], vertexOffset := 0,
      maxValence := 0, patchCounts := pc, totalCount := FarPatchCount.zero }
  rw [forEachFrom_push] at h
  have h2 := congrArg Prod.snd h
  simp only at h2
  rw [forEach, h2]
  exact getD_pushed _ meshes j hj

/-- The counting loop pushes the summary read from every mesh. -/
theorem forEachFrom_patch_counts (i : Nat) (ms : List FarMesh) (s : PatchTotals) :
    (forEachFrom splicePatchTables.count i ms s).patchCounts =
      s.patchCounts ++ ms.map patchCountOf := by
  induction ms generalizing i s with
  | nil => simp [forEachFrom]
  | cons m ms ih => simp [forEachFrom, ih, splicePatchTables.count, patchCountOf]

/-- A loop of per-mesh copies never changes the size of the destination. -/
theorem forEachFrom_stdCopy_length {μ α : Type} (piece : Nat → μ → List α) (i : Nat)
    (ms : List μ) (it : Iter α) :
    (forEachFrom (fun j m it => stdCopy (piece j m) it) i ms it).buf.length = it.buf.length := by
  rw [forEachFrom_stdCopy, stdCopy_length]

theorem FarPatchCount.zero_of (a : PatchArray) : FarPatchCount.zero.of a = 0 := by
  cases a <;> rfl

/-- The index iterator of one array pair evolves by its own loop of copies. -/
theorem merge_index (vo : List Nat) (a : PatchArray) (i : Nat) (ms : List FarMesh)
    (it : PatchIters) :
    (forEachFrom (splicePatchTables.merge vo) i ms it).index a =
      forEachFrom
        (fun j m it => stdCopy (((ptablesOf m).first a).map (fun x => x + vo.getD j 0)) it)
        i ms (it.index a) :=
  forEachFrom_proj (fun it : PatchIters => it.index a) _ _
    (fun i m s => by simp only [splicePatchTables.merge, copyWithOffset_eq_stdCopy]) i ms it

/-- The level iterator of one array pair evolves by its own loop of copies. -/
theorem merge_level (vo : List Nat) (a : PatchArray) (i : Nat) (ms : List FarMesh)
    (it : PatchIters) :
    (forEachFrom (splicePatchTables.merge vo) i ms it).level a =
      forEachFrom (fun _ m it => stdCopy ((ptablesOf m).second a) it) i ms (it.level a) :=
  forEachFrom_proj (fun it : PatchIters => it.level a) _ _
    (fun i m s => by simp [splicePatchTables.merge, copyWithOffset_eq_stdCopy]) i ms it

/-- The merged index array of a pair holds `ringSize` slots per patch counted. -/
theorem splicePatchTables_first_length (self : FarMultiMeshFactory) (meshes : List FarMesh)
    (a : PatchArray) :
    ((splicePatchTables self meshes).first a).length =
      (meshes.map (fun m => (patchCountOf m).of a)).sum * a.ringSize := by
  simp only [splicePatchTables, forEach]
  rw [merge_index, forEachFrom_stdCopy_length]
  simp [forEachFrom_patch_count, FarPatchCount.zero_of]

/-- The merged level array of a pair holds one slot per patch counted. -/
theorem splicePatchTables_second_length (self : FarMultiMeshFactory) (meshes : List FarMesh)
    (a : PatchArray) :
    ((splicePatchTables self meshes).second a).length =
      (meshes.map (fun m => (patchCountOf m).of a)).sum := by
  simp only [splicePatchTables, forEach]
  rw [merge_level, forEachFrom_stdCopy_length]
  simp [forEachFrom_patch_count, FarPatchCount.zero_of]

/-- When the inputs' index arrays of a pair fill the allocated vector exactly, the merged
array is their concatenation, each rebased by its mesh's vertex offset. -/
theorem splicePatchTables_first (self : FarMultiMeshFactory) (meshes : List FarMesh)
    (a : PatchArray)
    (h : (meshes.map (fun m => (patchCountOf m).of a)).sum * a.ringSize =
      (meshes.map (fun m => ((ptablesOf m).first a).length)).sum) :
    (splicePatchTables self meshes).first a =
      concatMeshes meshes
        (fun i m => ((ptablesOf m).first a).map (fun x => x + vertexOffsetOf meshes i)) := by
  simp only [splicePatchTables, forEach]
  rw [merge_index]
  apply splice_buf (0 : Nat) _ _ _ (fun m => ((ptablesOf m).first a).length)
  · intro j m
    simp
  · simp only [forEachFrom_patch_count, FarPatchCount.zero_of, Nat.zero_add]
    exact h
  · intro j hj m
    have := patch_count_vertexOffsets meshes (FarPatchTables.new self.maxvalence).patchCounts j hj
    rw [forEach] at this
    rw [this]

/-- When the inputs' level arrays of a pair fill the allocated vector exactly, the merged
array is their concatenation. -/
theorem splicePatchTables_second (self : FarMultiMeshFactory) (meshes : List FarMesh)
    (a : PatchArray)
    (h : (meshes.map (fun m => (patchCountOf m).of a)).sum =
      (meshes.map (fun m => ((ptablesOf m).second a).length)).sum) :
    (splicePatchTables self meshes).second a =
      concatMeshes meshes (fun _ m => (ptablesOf m).second a) := by
  simp only [splicePatchTables, forEach]
  rw [merge_level]
  apply splice_buf (0 : Nat) _ _ _ (fun m => ((ptablesOf m).second a).length)
  · intro j m
    rfl
  · simp only [forEachFrom_patch_count, FarPatchCount.zero_of, Nat.zero_add]
    exact h
  · intro j hj m
    rfl

/-- Under `AdaptiveConsistent` the tables and the summary read from a mesh are the ones it
carries, and the summary matches the sizes of the arrays. -/
theorem AdaptiveConsistent.lengths {m : FarMesh} (h : AdaptiveConsistent m) (a : PatchArray) :
    ((ptablesOf m).first a).length = (patchCountOf m).of a * a.ringSize ∧
      ((ptablesOf m).second a).length = (patchCountOf m).of a := by
  obtain ⟨p, hp, c, hc, hlen⟩ := h
  have e1 : ptablesOf m = p := by simp [ptablesOf, hp]
  have e2 : patchCountOf m = c := by simp [patchCountOf, e1, hc]
  rw [e1, e2]
  exact hlen a

/-- Summing a per-mesh number that is a fixed multiple of another. -/
theorem sum_map_mul_of_forall (ms : List FarMesh) (f g : FarMesh → Nat) (k : Nat)
    (h : ∀ m ∈ ms, f m = g m * k) : (ms.map g).sum * k = (ms.map f).sum := by
  induction ms with
  | nil => simp
  | cons m ms ih =>
    simp only [List.map_cons, List.sum_cons, Nat.add_mul]
    rw [ih (fun x hx => h x (List.mem_cons_of_mem _ hx)), h m (List.mem_cons_self _ _)]

/-- C1: `Create` applied to the empty list returns `NULL`; nothing is built and the
factory is left as it was. -/
theorem Create_nil (self : FarMultiMeshFactory) : Create self [] = (some none, self) := by
  rfl

/-- C2: for a non-empty list in which some mesh differs from the first mesh in its scheme
or in whether it carries patch tables, `Create` returns `NULL`. -/
theorem Create_mismatch (self : FarMultiMeshFactory) (mesh0 : FarMesh) (rest : List FarMesh)
    (h : ∃ m ∈ mesh0 :: rest,
      m.subdivisionTables.scheme ≠ mesh0.subdivisionTables.scheme ∨
        m.patchTables.isSome ≠ mesh0.patchTables.isSome) :
    (Create self (mesh0 :: rest)).1 = some none := by
  have hv : (Create.validate mesh0.patchTables.isSome mesh0.subdivisionTables.scheme
      { self with maxlevel := 0, maxvalence := 0 } (mesh0 :: rest)).2 = false := by
    rw [← Bool.not_eq_true, Create.validate_eq_true_iff]
    intro hall
    obtain ⟨m, hm, hne⟩ := h
    have := hall m hm
    rcases hne with hne | hne
    · exact hne this.2
    · exact hne this.1
  simp only [Create, hv, if_true]

/-- Witness of C2: a Catmark mesh followed by a Loop mesh is rejected. -/
theorem Create_mismatch_witness :
    (∃ m ∈ exampleMeshA :: [exampleMeshLoop],
      m.subdivisionTables.scheme ≠ exampleMeshA.subdivisionTables.scheme ∨
        m.patchTables.isSome ≠ exampleMeshA.patchTables.isSome) ∧
    (Create default (exampleMeshA :: [exampleMeshLoop])).1 = some none :=
  ⟨⟨exampleMeshLoop, by simp, Or.inl (by decide)⟩,
   Create_mismatch default exampleMeshA [exampleMeshLoop]
     ⟨exampleMeshLoop, by simp, Or.inl (by decide)⟩⟩

/-- C5: for a non-empty homogeneous list, the merged `F_IT` and `V_IT`, which the call of
`spliceSubdivisionTables` in `Create` builds, are the concatenations, in input order, of
the inputs' tables with every value of mesh `i` increased by the sum of the vertex counts
of the meshes before `i`, and their lengths are the sums of the input lengths.  These are
the tables of the mesh `Create` returns whenever, in uniform mode, every input has the
face-corner levels `spliceQuads` reads. -/
theorem Create_F_IT_V_IT (self : FarMultiMeshFactory) (meshes : List FarMesh)
    (hne : meshes ≠ []) (hom : Homogeneous meshes) :
    ∃ t, (spliceSubdivisionTables (Create self meshes).2 FarMesh.new meshes).1 = t ∧
      (QuadLevelsPresent self meshes →
        ∃ r, (Create self meshes).1 = some (some r) ∧ r.subdivisionTables = t) ∧
      t.F_IT =
        concatMeshes meshes
          (fun i m => m.subdivisionTables.F_IT.map (fun x => x + vertexOffsetOf meshes i)) ∧
      t.V_IT =
        concatMeshes meshes
          (fun i m => m.subdivisionTables.V_IT.map (fun x => x + vertexOffsetOf meshes i)) ∧
      t.F_IT.length = (meshes.map (fun m => m.subdivisionTables.F_IT.length)).sum ∧
      t.V_IT.length = (meshes.map (fun m => m.subdivisionTables.V_IT.length)).sum := by
  refine ⟨_, rfl, fun hlev => ?_, ?_, ?_, ?_, ?_⟩
  · obtain ⟨r, hr, -, ht, -⟩ := Create_homogeneous self meshes hne hom hlev
    exact ⟨r, hr, ht⟩
  · rw [spliceSubdivisionTables_F_IT]
  · rw [spliceSubdivisionTables_V_IT]
  · rw [spliceSubdivisionTables_F_IT]
    exact length_concatMeshes meshes _ _ (fun j m => by simp)
  · rw [spliceSubdivisionTables_V_IT]
    exact length_concatMeshes meshes _ _ (fun j m => by simp)

/-- Witness of C5: the merged `F_IT` and `V_IT` of two uniform example meshes that have the
three levels of quads read; `Create` returns a mesh with these tables. -/
theorem Create_F_IT_V_IT_witness :
    [exampleMeshC, exampleMeshB] ≠ [] ∧ Homogeneous [exampleMeshC, exampleMeshB] ∧
    QuadLevelsPresent default [exampleMeshC, exampleMeshB] ∧
    ∃ r, (Create default [exampleMeshC, exampleMeshB]).1 = some (some r) ∧
      r.subdivisionTables.F_IT = [0, 1, 2, 3, 4, 5, 6, 6, 5, 4] ∧
      r.subdivisionTables.V_IT = [1, 3, 6] := by
  have hlev : QuadLevelsPresent default [exampleMeshC, exampleMeshB] := by decide
  refine ⟨by simp, by decide, hlev, ?_⟩
  obtain ⟨t, -, hlink, h1, h2, -, -⟩ :=
    Create_F_IT_V_IT default [exampleMeshC, exampleMeshB] (by simp) (by decide)
  obtain ⟨r, hr, hrt⟩ := hlink hlev
  exact ⟨r, hr, by rw [hrt, h1]; decide, by rw [hrt, h2]; decide⟩

/-- C6: for a non-empty homogeneous list, the merged `E_IT`, which the call of
`spliceSubdivisionTables` in `Create` builds, is the concatenation, in input order, of the
inputs' `E_IT` where every entry `-1` stays `-1` and every other entry of mesh `i` is
increased by the sum of the vertex counts of the meshes before `i`.  It is the table of
the mesh `Create` returns whenever, in uniform mode, every input has the face-corner levels
`spliceQuads` reads. -/
theorem Create_E_IT (self : FarMultiMeshFactory) (meshes : List FarMesh)
    (hne : meshes ≠ []) (hom : Homogeneous meshes) :
    ∃ t, (spliceSubdivisionTables (Create self meshes).2 FarMesh.new meshes).1 = t ∧
      (QuadLevelsPresent self meshes →
        ∃ r, (Create self meshes).1 = some (some r) ∧ r.subdivisionTables = t) ∧
      t.E_IT =
        concatMeshes meshes
          (fun i m => m.subdivisionTables.E_IT.map
            (fun x => if x = -1 then -1 else x + (vertexOffsetOf meshes i : Int))) := by
  refine ⟨_, rfl, fun hlev => ?_, ?_⟩
  · obtain ⟨r, hr, -, ht, -⟩ := Create_homogeneous self meshes hne hom hlev
    exact ⟨r, hr, ht⟩
  · rw [spliceSubdivisionTables_E_IT]

/-- Witness of C6: the merged `E_IT` of two uniform example meshes that have the three
levels of quads read keeps its three sentinels; `Create` returns a mesh with this table. -/
theorem Create_E_IT_witness :
    [exampleMeshC, exampleMeshB] ≠ [] ∧ Homogeneous [exampleMeshC, exampleMeshB] ∧
    QuadLevelsPresent default [exampleMeshC, exampleMeshB] ∧
    ∃ r, (Create default [exampleMeshC, exampleMeshB]).1 = some (some r) ∧
      r.subdivisionTables.E_IT = [0, 1, -1, -1, 6, -1, 4, 5] := by
  have hlev : QuadLevelsPresent default [exampleMeshC, exampleMeshB] := by decide
  refine ⟨by simp, by decide, hlev, ?_⟩
  obtain ⟨t, -, hlink, h1⟩ :=
    Create_E_IT default [exampleMeshC, exampleMeshB] (by simp) (by decide)
  obtain ⟨r, hr, hrt⟩ := hlink hlev
  exact ⟨r, hr, by rw [hrt, h1]; decide⟩

/-- C4: merging a list of exactly one mesh reproduces that mesh's seven subdivision arrays
and its kernel-batch schedule value for value: the tables and the schedule that the call
of `spliceSubdivisionTables` in `Create` builds equal the input's.  They are the tables and
the schedule of the mesh `Create` returns whenever, in uniform mode, the mesh has the
face-corner levels `spliceQuads` reads. -/
theorem Create_single (self : FarMultiMeshFactory) (m : FarMesh) :
    ∃ t b, (spliceSubdivisionTables (Create self [m]).2 FarMesh.new [m]).1 = t ∧
      (spliceSubdivisionTables (Create self [m]).2 FarMesh.new [m]).2.batches = b ∧
      (QuadLevelsPresent self [m] →
        ∃ r, (Create self [m]).1 = some (some r) ∧ r.subdivisionTables = t ∧ r.batches = b) ∧
      t.F_ITa = m.subdivisionTables.F_ITa ∧
      t.F_IT = m.subdivisionTables.F_IT ∧
      t.E_IT = m.subdivisionTables.E_IT ∧
      t.E_W = m.subdivisionTables.E_W ∧
      t.V_ITa = m.subdivisionTables.V_ITa ∧
      t.V_IT = m.subdivisionTables.V_IT ∧
      t.V_W = m.subdivisionTables.V_W ∧
      b = m.batches := by
  have hom : Homogeneous [m] := by
    intro a ha b hb
    simp only [List.mem_singleton] at ha hb
    subst ha
    subst hb
    exact ⟨rfl, rfl⟩
  obtain ⟨h1, h2, h3, h4, h5, h6, h7, h8⟩ :=
    spliceSubdivisionTables_single (Create self [m]).2 FarMesh.new m
  refine ⟨_, _, rfl, rfl, fun hlev => ?_, h1, h2, h3, h4, h5, h6, h7, ?_⟩
  · obtain ⟨r, hr, -, ht, hb, -⟩ := Create_homogeneous self [m] (by simp) hom hlev
    exact ⟨r, hr, ht, hb⟩
  · rw [h8]
    rfl

/-- Witness of C4: a uniform example mesh with the three levels of quads read is returned
by `Create` with its own tables and schedule. -/
theorem Create_single_witness :
    QuadLevelsPresent default [exampleMeshC] ∧
    ∃ r, (Create default [exampleMeshC]).1 = some (some r) ∧
      r.subdivisionTables.F_ITa = [0, 4] ∧
      r.subdivisionTables.E_IT = [0, 1, -1, -1] ∧
      r.subdivisionTables.V_ITa = [0, 2, 1, -1, 3] ∧
      r.batches = exampleMeshC.batches := by
  have hlev : QuadLevelsPresent default [exampleMeshC] := by decide
  refine ⟨hlev, ?_⟩
  obtain ⟨t, b, -, -, hlink, h1, -, h3, -, h5, -, -, h8⟩ := Create_single default exampleMeshC
  obtain ⟨r, hr, hrt, hrb⟩ := hlink hlev
  exact ⟨r, hr, by rw [hrt, h1]; rfl, by rw [hrt, h3]; rfl, by rw [hrt, h5]; rfl,
    by rw [hrb, h8]⟩

/-- C7: for a non-empty homogeneous list, the merged schedule, which the call of
`spliceSubdivisionTables` in `Create` builds, has as many batches as the inputs' schedules
together, and it is mesh-major in the original per-mesh order: the batch at position (sum
of the schedule lengths of the meshes before `i`) + `j` is the rebased copy of batch `j` of
mesh `i`, with the same kernel type and level.  It is the schedule of the mesh `Create`
returns whenever, in uniform mode, every input has the face-corner levels `spliceQuads`
reads. -/
theorem Create_batches (self : FarMultiMeshFactory) (meshes : List FarMesh)
    (hne : meshes ≠ []) (hom : Homogeneous meshes) :
    ∃ b, (spliceSubdivisionTables (Create self meshes).2 FarMesh.new meshes).2.batches = b ∧
      (QuadLevelsPresent self meshes →
        ∃ r, (Create self meshes).1 = some (some r) ∧ r.batches = b) ∧
      b.length = (meshes.map (fun m => m.batches.length)).sum ∧
      b = concatMeshes meshes (fun i m => m.batches.map (rebasedBatch meshes i)) ∧
      ∀ i j, i < meshes.length → j < (meshes.getD i default).batches.length →
        b[batchOffsetOf meshes i + j]? =
            some (rebasedBatch meshes i ((meshes.getD i default).batches.getD j default)) ∧
          (rebasedBatch meshes i ((meshes.getD i default).batches.getD j default)).kernelType =
            ((meshes.getD i default).batches.getD j default).kernelType ∧
          (rebasedBatch meshes i ((meshes.getD i default).batches.getD j default)).level =
            ((meshes.getD i default).batches.getD j default).level := by
  have hb := spliceSubdivisionTables_batches (Create self meshes).2 meshes
  refine ⟨_, rfl, fun hlev => ?_, ?_, hb, ?_⟩
  · obtain ⟨r, hr, -, -, hrb, -⟩ := Create_homogeneous self meshes hne hom hlev
    exact ⟨r, hr, hrb⟩
  · rw [hb]
    exact length_concatMeshes meshes _ _ (fun j m => by simp)
  · intro i j hi hj
    refine ⟨?_, (rebase_kernelType_level _ _ _ _).1, (rebase_kernelType_level _ _ _ _).2⟩
    rw [hb, concatMeshes, batchOffsetOf,
      getElem?_flatten_enumFrom (fun i m => m.batches.map (rebasedBatch meshes i))
        (fun m => m.batches.length) (fun j m => by simp) meshes 0 i j default hi hj]
    have e : (meshes.getD i default).batches[j]? =
        some ((meshes.getD i default).batches.getD j default) := by
      rw [List.getD_eq_getElem?_getD (meshes.getD i default).batches, List.getElem?_eq_getElem hj]
      rfl
    simp only [Nat.zero_add, List.getElem?_map, e, Option.map_some']

/-- Witness of C7: in the merge of two uniform example meshes that have the three levels of
quads read, the single batch of the second mesh comes third, rebased, in the schedule of
the mesh `Create` returns. -/
theorem Create_batches_witness :
    [exampleMeshC, exampleMeshB] ≠ [] ∧ Homogeneous [exampleMeshC, exampleMeshB] ∧
    QuadLevelsPresent default [exampleMeshC, exampleMeshB] ∧
    ∃ r, (Create default [exampleMeshC, exampleMeshB]).1 = some (some r) ∧
      r.batches.length = 3 ∧
      r.batches[2]? =
        some { kernelType := KernelType.CATMARK_VERT_VERTEX_B, level := 2, tableIndex := 0,
               tableOffset := 1, vertexOffset := 6 } := by
  have hlev : QuadLevelsPresent default [exampleMeshC, exampleMeshB] := by decide
  refine ⟨by simp, by decide, hlev, ?_⟩
  obtain ⟨b, -, hlink, hlen, -, hpos⟩ :=
    Create_batches default [exampleMeshC, exampleMeshB] (by simp) (by decide)
  obtain ⟨r, hr, hrb⟩ := hlink hlev
  refine ⟨r, hr, by rw [hrb, hlen]; decide, ?_⟩
  have h := (hpos 1 0 (by decide) (by decide)).1
  rw [show batchOffsetOf [exampleMeshC, exampleMeshB] 1 + 0 = 2 by decide] at h
  rw [hrb, h]
  decide

/-- C8: in uniform mode, for every level `l` from `0` to the factory's `_maxlevel`, the
merged face-corner array at level `l` is the concatenation, in input order, of the
inputs' level-`l` arrays with every index of mesh `i` increased by the sum of the full
vertex counts of the meshes before `i`, provided every input has an array at each of
those levels. -/
theorem Create_faceverts (self : FarMultiMeshFactory) (meshes : List FarMesh)
    (hne : meshes ≠ []) (hom : Homogeneous meshes)
    (huniform : ∀ m ∈ meshes, m.patchTables = none)
    (hlevels : ∀ m ∈ meshes, ∀ l : Nat, (l : Int) ≤ (Create self meshes).2.maxlevel →
      l < m.faceverts.length) :
    ∃ r, (Create self meshes).1 = some (some r) ∧
      ∀ l : Nat, (l : Int) ≤ (Create self meshes).2.maxlevel →
        r.faceverts[l]? =
          some (concatMeshes meshes
            (fun i m => (m.faceverts.getD l []).map
              (fun x => x + (vertexOffsetOf meshes i : Int)))) := by
  have hq : QuadLevelsPresent self meshes := by
    intro _ m hm
    by_cases hn : ((Create self meshes).2.maxlevel + 1).toNat = 0
    · omega
    · have := hlevels m hm (((Create self meshes).2.maxlevel + 1).toNat - 1) (by omega)
      omega
  obtain ⟨r, hr, -, -, -, hf, -⟩ := Create_homogeneous self meshes hne hom hq
  refine ⟨r, hr, ?_⟩
  intro l hl
  have h0 : (meshes.headD default).patchTables = none := by
    cases meshes with
    | nil => exact absurd rfl hne
    | cons m ms => exact huniform m (List.mem_cons_self _ _)
  have hlt : l < ((Create self meshes).2.maxlevel + 1).toNat := by omega
  rw [hf, h0]
  simp only [Option.isSome_none, Bool.false_eq_true, if_false, List.getElem?_map,
    List.getElem?_range hlt, Option.map_some']

/-- Witness of C8: the three levels of the merge of two uniform example meshes; the offset
of the second mesh is 4 at every level. -/
theorem Create_faceverts_witness :
    [exampleMeshC, exampleMeshB] ≠ [] ∧ Homogeneous [exampleMeshC, exampleMeshB] ∧
    (∀ m ∈ [exampleMeshC, exampleMeshB], m.patchTables = none) ∧
    (∀ m ∈ [exampleMeshC, exampleMeshB], ∀ l : Nat,
      (l : Int) ≤ (Create default [exampleMeshC, exampleMeshB]).2.maxlevel →
        l < m.faceverts.length) ∧
    (Create default [exampleMeshC, exampleMeshB]).2.maxlevel = 2 ∧
    ∃ r, (Create default [exampleMeshC, exampleMeshB]).1 = some (some r) ∧
      r.faceverts[0]? = some [0, 1, 2, 3, 4, 5, 6, 4] ∧
      r.faceverts[1]? = some [3, 2, 1, 0, 6, 5, 4, 6] ∧
      r.faceverts[2]? = some [0, 0, 1, 1, 5, 5, 5, 5] := by
  have hmax : (Create default [exampleMeshC, exampleMeshB]).2.maxlevel = 2 := by decide
  have hlev : ∀ m ∈ [exampleMeshC, exampleMeshB], ∀ l : Nat,
      (l : Int) ≤ (Create default [exampleMeshC, exampleMeshB]).2.maxlevel →
        l < m.faceverts.length := by
    intro m hm l hl
    rw [hmax] at hl
    have h3 : l < 3 := by omega
    simp only [List.mem_cons, List.mem_singleton, List.not_mem_nil, or_false] at hm
    rcases hm with rfl | rfl
    · exact h3
    · exact h3
  have huni : ∀ m ∈ [exampleMeshC, exampleMeshB], m.patchTables = none := by
    intro m hm
    simp only [List.mem_cons, List.mem_singleton, List.not_mem_nil, or_false] at hm
    rcases hm with rfl | rfl <;> rfl
  refine ⟨by simp, by decide, huni, hlev, hmax, ?_⟩
  obtain ⟨r, hr, h⟩ :=
    Create_faceverts default [exampleMeshC, exampleMeshB] (by simp) (by decide) huni hlev
  refine ⟨r, hr, ?_, ?_, ?_⟩
  · rw [h 0 (by rw [hmax]; decide)]
    decide
  · rw [h 1 (by rw [hmax]; decide)]
    decide
  · rw [h 2 (by rw [hmax]; decide)]
    decide

/-- C9: for two adaptive meshes `A` and `B`, each with exactly one patch-count summary
consistent with its arrays, the merged patch tables hold `rA+rB` regular, `bA+bB` boundary
and `cA+cB` corner patches (one level byte per patch, and the sums of the summaries the
merged tables keep), and the merged regular, boundary and corner control-point arrays
have sizes `(rA+rB)*16`, `(bA+bB)*12` and `(cA+cB)*9`.  When the two meshes share a scheme
these are the patch tables of the mesh `Create` returns. -/
theorem splicePatchTables_pair_counts (self : FarMultiMeshFactory) (A B : FarMesh)
    (hA : AdaptiveConsistent A) (hB : AdaptiveConsistent B) :
    (((splicePatchTables self [A, B]).second PatchArray.full_R_IT).length =
        (patchCountOf A).regular + (patchCountOf B).regular ∧
      ((splicePatchTables self [A, B]).second PatchArray.full_B_IT).length =
        (patchCountOf A).boundary + (patchCountOf B).boundary ∧
      ((splicePatchTables self [A, B]).second PatchArray.full_C_IT).length =
        (patchCountOf A).corner + (patchCountOf B).corner) ∧
    (((splicePatchTables self [A, B]).patchCounts.map FarPatchCount.regular).sum =
        (patchCountOf A).regular + (patchCountOf B).regular ∧
      ((splicePatchTables self [A, B]).patchCounts.map FarPatchCount.boundary).sum =
        (patchCountOf A).boundary + (patchCountOf B).boundary ∧
      ((splicePatchTables self [A, B]).patchCounts.map FarPatchCount.corner).sum =
        (patchCountOf A).corner + (patchCountOf B).corner) ∧
    (((splicePatchTables self [A, B]).first PatchArray.full_R_IT).length =
        ((patchCountOf A).regular + (patchCountOf B).regular) * 16 ∧
      ((splicePatchTables self [A, B]).first PatchArray.full_B_IT).length =
        ((patchCountOf A).boundary + (patchCountOf B).boundary) * 12 ∧
      ((splicePatchTables self [A, B]).first PatchArray.full_C_IT).length =
        ((patchCountOf A).corner + (patchCountOf B).corner) * 9) ∧
    (A.subdivisionTables.scheme = B.subdivisionTables.scheme →
      ∃ r, (Create self [A, B]).1 = some (some r) ∧
        r.patchTables = some (splicePatchTables (Create self [A, B]).2 [A, B])) := by
  refine ⟨⟨?_, ?_, ?_⟩, ⟨?_, ?_, ?_⟩, ⟨?_, ?_, ?_⟩, ?_⟩
  · rw [splicePatchTables_second_length]
    simp [FarPatchCount.of]
  · rw [splicePatchTables_second_length]
    simp [FarPatchCount.of]
  · rw [splicePatchTables_second_length]
    simp [FarPatchCount.of]
  · simp [splicePatchTables, forEach, forEachFrom_patch_counts, FarPatchTables.new]
  · simp [splicePatchTables, forEach, forEachFrom_patch_counts, FarPatchTables.new]
  · simp [splicePatchTables, forEach, forEachFrom_patch_counts, FarPatchTables.new]
  · rw [splicePatchTables_first_length]
    simp [FarPatchCount.of, PatchArray.ringSize]
  · rw [splicePatchTables_first_length]
    simp [FarPatchCount.of, PatchArray.ringSize]
  · rw [splicePatchTables_first_length]
    simp [FarPatchCount.of, PatchArray.ringSize]
  · intro hs
    obtain ⟨pA, hpA, -⟩ := hA
    obtain ⟨pB, hpB, -⟩ := hB
    have hom : Homogeneous [A, B] := by
      intro a ha b hb
      simp only [List.mem_cons, List.mem_singleton, List.not_mem_nil, or_false] at ha hb
      rcases ha with rfl | rfl <;> rcases hb with rfl | rfl <;> simp [hs, hpA, hpB]
    have hadaptive : ∀ m ∈ [A, B], m.patchTables.isSome = true := by
      intro m hm
      simp only [List.mem_cons, List.mem_singleton, List.not_mem_nil, or_false] at hm
      rcases hm with rfl | rfl <;> simp [hpA, hpB]
    obtain ⟨r, hr, -, -, -, -, hp⟩ := Create_homogeneous self [A, B] (by simp) hom
      (QuadLevelsPresent_of_adaptive self [A, B] (by simp) hadaptive)
    refine ⟨r, hr, ?_⟩
    rw [hp]
    simp [hpA]

/-- Witness of C9: one regular and one boundary patch merged with two regular patches and
one corner patch. -/
theorem splicePatchTables_pair_counts_witness :
    AdaptiveConsistent exampleMeshP ∧ AdaptiveConsistent exampleMeshQ ∧
    ((splicePatchTables default [exampleMeshP, exampleMeshQ]).second PatchArray.full_R_IT).length = 3 ∧
    ((splicePatchTables default [exampleMeshP, exampleMeshQ]).first PatchArray.full_R_IT).length = 48 ∧
    ((splicePatchTables default [exampleMeshP, exampleMeshQ]).first PatchArray.full_B_IT).length = 12 ∧
    ((splicePatchTables default [exampleMeshP, exampleMeshQ]).first PatchArray.full_C_IT).length = 9 := by
  have hP : AdaptiveConsistent exampleMeshP :=
    ⟨examplePatchTablesP, rfl, exampleCountP, rfl, fun a => by cases a <;> exact ⟨rfl, rfl⟩⟩
  have hQ : AdaptiveConsistent exampleMeshQ :=
    ⟨examplePatchTablesQ, rfl, exampleCountQ, rfl, fun a => by cases a <;> exact ⟨rfl, rfl⟩⟩
  obtain ⟨⟨h1, -, -⟩, -, ⟨h2, h3, h4⟩, -⟩ :=
    splicePatchTables_pair_counts default exampleMeshP exampleMeshQ hP hQ
  exact ⟨hP, hQ, h1, h2, h3, h4⟩

/-- C10, as amended: in adaptive mode, when every input carries exactly one patch-count
summary consistent with its arrays, then for every array pair (the five full patch
families, each pattern's transition-regular table and each pattern and rotation of the
transition boundary and corner subtables) the merged control-point index array is the
concatenation, in input order, of the inputs' arrays with every index of mesh `i` increased
by the sum of the vertex counts of the meshes before `i`, and the merged level-byte array
is the plain concatenation of the inputs' level bytes. -/
theorem Create_patch_arrays (self : FarMultiMeshFactory) (meshes : List FarMesh)
    (hne : meshes ≠ []) (hom : Homogeneous meshes)
    (hcons : ∀ m ∈ meshes, AdaptiveConsistent m) :
    ∃ r pt, (Create self meshes).1 = some (some r) ∧ r.patchTables = some pt ∧
      ∀ a : PatchArray,
        pt.first a =
            concatMeshes meshes
              (fun i m => ((ptablesOf m).first a).map (fun x => x + vertexOffsetOf meshes i)) ∧
          pt.second a = concatMeshes meshes (fun _ m => (ptablesOf m).second a) := by
  have hadaptive : ∀ m ∈ meshes, m.patchTables.isSome = true := by
    intro m hm
    obtain ⟨p, hp, -⟩ := hcons m hm
    simp [hp]
  obtain ⟨r, hr, -, -, -, -, hp⟩ := Create_homogeneous self meshes hne hom
    (QuadLevelsPresent_of_adaptive self meshes hne hadaptive)
  have h0 : (meshes.headD default).patchTables.isSome = true := by
    cases meshes with
    | nil => exact absurd rfl hne
    | cons m ms =>
      obtain ⟨p, hp, -⟩ := hcons m (List.mem_cons_self _ _)
      simp [hp]
  rw [h0, if_pos rfl] at hp
  refine ⟨r, _, hr, hp, ?_⟩
  intro a
  constructor
  · apply splicePatchTables_first
    exact sum_map_mul_of_forall meshes _ _ _ (fun m hm => ((hcons m hm).lengths a).1)
  · apply splicePatchTables_second
    have := sum_map_mul_of_forall meshes (fun m => ((ptablesOf m).second a).length)
      (fun m => (patchCountOf m).of a) 1 (fun m hm => by simp [((hcons m hm).lengths a).2])
    simpa using this

/-- Witness of C10 as amended: the merged regular index and level arrays of the two
adaptive example meshes. -/
theorem Create_patch_arrays_witness :
    [exampleMeshP, exampleMeshQ] ≠ [] ∧ Homogeneous [exampleMeshP, exampleMeshQ] ∧
    AdaptiveConsistent exampleMeshP ∧ AdaptiveConsistent exampleMeshQ ∧
    ∃ r pt, (Create default [exampleMeshP, exampleMeshQ]).1 = some (some r) ∧
      r.patchTables = some pt ∧
      pt.first PatchArray.full_R_IT = List.range 16 ++ (List.range 32).map (fun x => x + 16) ∧
      pt.second PatchArray.full_R_IT = [1, 1, 2] := by
  have hP : AdaptiveConsistent exampleMeshP :=
    ⟨examplePatchTablesP, rfl, exampleCountP, rfl, fun a => by cases a <;> exact ⟨rfl, rfl⟩⟩
  have hQ : AdaptiveConsistent exampleMeshQ :=
    ⟨examplePatchTablesQ, rfl, exampleCountQ, rfl, fun a => by cases a <;> exact ⟨rfl, rfl⟩⟩
  have hall : ∀ m ∈ [exampleMeshP, exampleMeshQ], AdaptiveConsistent m := by
    intro m hm
    simp only [List.mem_cons, List.mem_singleton, List.not_mem_nil, or_false] at hm
    rcases hm with rfl | rfl
    · exact hP
    · exact hQ
  refine ⟨by simp, by decide, hP, hQ, ?_⟩
  obtain ⟨r, pt, hr, hpt, h⟩ :=
    Create_patch_arrays default [exampleMeshP, exampleMeshQ] (by simp) (by decide) hall
  refine ⟨r, pt, hr, hpt, ?_, ?_⟩
  · rw [(h PatchArray.full_R_IT).1]
    decide
  · rw [(h PatchArray.full_R_IT).2]
    decide

/-- Counterexample to C10 as stated: a single adaptive mesh whose summary counts one regular
patch while its arrays are empty.  The merged regular index array is the 16 zeros the
allocation left, and the merged level array is one zero byte; the concatenations of the
inputs' arrays are empty. -/
theorem Create_patch_arrays_counterexample :
    Homogeneous [exampleMeshStale] ∧ exampleMeshStale.patchTables.isSome = true ∧
    ∃ r pt, (Create default [exampleMeshStale]).1 = some (some r) ∧ r.patchTables = some pt ∧
      pt.first PatchArray.full_R_IT = List.replicate 16 0 ∧
      pt.second PatchArray.full_R_IT = [0] ∧
      pt.first PatchArray.full_R_IT ≠
        concatMeshes [exampleMeshStale]
          (fun i m => ((ptablesOf m).first PatchArray.full_R_IT).map
            (fun x => x + vertexOffsetOf [exampleMeshStale] i)) ∧
      pt.second PatchArray.full_R_IT ≠
        concatMeshes [exampleMeshStale] (fun _ m => (ptablesOf m).second PatchArray.full_R_IT) := by
  refine ⟨by decide, rfl, ?_⟩
  obtain ⟨r, hr, -, -, -, -, hp⟩ :=
    Create_homogeneous default [exampleMeshStale] (by simp) (by decide)
      (QuadLevelsPresent_of_adaptive default [exampleMeshStale] (by simp) (by decide))
  refine ⟨r, _, hr, hp, ?_, ?_, ?_, ?_⟩ <;> decide

/-! ### spliceVertexEditTables -/

/-- The loop of `spliceVertexEditTables` appends the edit batches of every mesh in order. -/
theorem forEachFrom_insert (i : Nat) (ms : List FarMesh) (r : FarVertexEditTables) :
    (forEachFrom spliceVertexEditTables.insert i ms r).batches =
      r.batches ++ ((ms.enumFrom i).map (fun p => editBatchesOf p.2)).flatten := by
  induction ms generalizing i r with
  | nil => simp [forEachFrom]
  | cons m ms ih =>
    simp only [forEachFrom, ih, List.enumFrom_cons, List.map_cons, List.flatten_cons]
    cases h : m.vertexEditTables <;>
      simp [spliceVertexEditTables.insert, editBatchesOf, h]

/-- C13: `spliceVertexEditTables` returns `NULL` exactly when the concatenation of the
inputs' edit-batch sequences is empty, in particular when no input carries edit tables;
otherwise it returns a table whose batches are that concatenation, in mesh order, every
batch unchanged and inputs without edit tables skipped. -/
theorem spliceVertexEditTables_eq (farMesh : FarMesh) (meshes : List FarMesh) :
    (spliceVertexEditTables farMesh meshes =
      if concatMeshes meshes (fun _ m => editBatchesOf m) = [] then none
      else some { batches := concatMeshes meshes (fun _ m => editBatchesOf m) }) ∧
    (spliceVertexEditTables farMesh meshes = none ↔
      concatMeshes meshes (fun _ m => editBatchesOf m) = []) ∧
    ((∀ m ∈ meshes, m.vertexEditTables = none) → spliceVertexEditTables farMesh meshes = none) := by
  have hb : (forEach meshes spliceVertexEditTables.insert { batches := [] }).batches =
      concatMeshes meshes (fun _ m => editBatchesOf m) := by
    rw [forEach, forEachFrom_insert]
    rfl
  have h1 : spliceVertexEditTables farMesh meshes =
      if concatMeshes meshes (fun _ m => editBatchesOf m) = [] then none
      else some { batches := concatMeshes meshes (fun _ m => editBatchesOf m) } := by
    unfold spliceVertexEditTables
    simp only [List.isEmpty_iff, hb]
    split_ifs
    · rfl
    · congr 1
      cases h : forEach meshes spliceVertexEditTables.insert { batches := [] }
      simp only [h] at hb
      simp [hb]
  refine ⟨h1, ?_, ?_⟩
  · rw [h1]
    split_ifs with h <;> simp [h]
  · intro hnone
    rw [h1, if_pos]
    unfold concatMeshes
    rw [List.flatten_eq_nil_iff]
    intro l hl
    simp only [List.mem_map, Prod.exists] at hl
    obtain ⟨j, m, hm, rfl⟩ := hl
    have := hnone m (List.snd_mem_of_mem_enumFrom hm)
    simp [editBatchesOf, this]

/-- Witness of C13: a mesh without edit tables is skipped and the batches of the two
others are concatenated in mesh order. -/
theorem spliceVertexEditTables_eq_witness :
    spliceVertexEditTables FarMesh.new [exampleMeshA, exampleMeshE, exampleMeshF] =
      some { batches :=
        [{ vertIndices := [0, 1], edits := [1, 2] }, { vertIndices := [2], edits := [3] },
         { vertIndices := [1], edits := [4] }] } ∧
    ((∀ m ∈ [exampleMeshA, exampleMeshB], m.vertexEditTables = none) ∧
      spliceVertexEditTables FarMesh.new [exampleMeshA, exampleMeshB] = none) := by
  have hnone : ∀ m ∈ [exampleMeshA, exampleMeshB], m.vertexEditTables = none := by
    intro m hm
    simp only [List.mem_cons, List.mem_singleton, List.not_mem_nil, or_false] at hm
    rcases hm with rfl | rfl <;> rfl
  refine ⟨?_, hnone,
    (spliceVertexEditTables_eq FarMesh.new [exampleMeshA, exampleMeshB]).2.2 hnone⟩
  rw [(spliceVertexEditTables_eq FarMesh.new [exampleMeshA, exampleMeshE, exampleMeshF]).1]
  rfl

/-! ### The block offsets and the rebased batches -/

/-- Entry `j` of one of the six offset vectors: the sum, over the meshes before `j`, of the
number the matching running offset advances by. -/
theorem offsets_getD (scheme : Scheme) (meshes : List FarMesh) (run : TableOffsets → Nat)
    (vec : TableOffsets → List Nat) (f : FarMesh → Nat)
    (h : ∀ i m o, (run (spliceSubdivisionTables.offsets scheme i m o),
      vec (spliceSubdivisionTables.offsets scheme i m o)) = (run o + f m, vec o ++ [run o]))
    (h0 : run TableOffsets.init = 0) (h1 : vec TableOffsets.init = []) (j : Nat)
    (hj : j < meshes.length) :
    (vec (forEach meshes (spliceSubdivisionTables.offsets scheme) TableOffsets.init)).getD j 0 =
      ((meshes.take j).map f).sum := by
  have h2 := forEachFrom_proj (fun o : TableOffsets => (run o, vec o))
    (spliceSubdivisionTables.offsets scheme)
    (fun _ m s => (s.1 + f m, s.2 ++ [s.1])) h 0 meshes TableOffsets.init
  rw [forEachFrom_push] at h2
  have h3 := congrArg Prod.snd h2
  simp only [h0, h1] at h3
  rw [forEach, h3]
  exact getD_pushed _ meshes j hj

theorem tableOffsetsOf_vertexOffsets (meshes : List FarMesh) (j : Nat) (hj : j < meshes.length) :
    (tableOffsetsOf meshes).vertexOffsets.getD j 0 = vertexOffsetOf meshes j :=
  offsets_vertexOffsets _ meshes j hj

theorem tableOffsetsOf_F_IToffsets (meshes : List FarMesh) (j : Nat) (hj : j < meshes.length) :
    (tableOffsetsOf meshes).F_IToffsets.getD j 0 = F_ITwriteOffset meshes j :=
  offsets_getD _ meshes TableOffsets.F_IToffset TableOffsets.F_IToffsets _
    (fun _ _ _ => rfl) rfl rfl j hj

theorem tableOffsetsOf_V_IToffsets (meshes : List FarMesh) (j : Nat) (hj : j < meshes.length) :
    (tableOffsetsOf meshes).V_IToffsets.getD j 0 = V_ITwriteOffset meshes j :=
  offsets_getD _ meshes TableOffsets.V_IToffset TableOffsets.V_IToffsets _
    (fun _ _ _ => rfl) rfl rfl j hj

theorem tableOffsetsOf_fvOffsets (meshes : List FarMesh) (j : Nat) (hj : j < meshes.length) :
    (tableOffsetsOf meshes).fvOffsets.getD j 0 = faceRuleBlockOffset meshes j :=
  offsets_getD _ meshes TableOffsets.fvOffset TableOffsets.fvOffsets _
    (fun _ _ _ => rfl) rfl rfl j hj

theorem tableOffsetsOf_evOffsets (meshes : List FarMesh) (j : Nat) (hj : j < meshes.length) :
    (tableOffsetsOf meshes).evOffsets.getD j 0 = edgeRuleBlockOffset meshes j :=
  offsets_getD _ meshes TableOffsets.evOffset TableOffsets.evOffsets
    (fun m => m.subdivisionTables.E_IT.length / edgeRecordWidth (schemeOf meshes))
    (fun _ m o => by
      simp only [spliceSubdivisionTables.offsets, edgeRecordWidth, schemeOf]
      split_ifs <;> rfl) rfl rfl j hj

theorem tableOffsetsOf_vvOffsets (meshes : List FarMesh) (j : Nat) (hj : j < meshes.length) :
    (tableOffsetsOf meshes).vvOffsets.getD j 0 = vertexRuleBlockOffset meshes j :=
  offsets_getD _ meshes TableOffsets.vvOffset TableOffsets.vvOffsets
    (fun m => m.subdivisionTables.V_ITa.length / vertexRecordWidth (schemeOf meshes))
    (fun _ m o => by
      simp only [spliceSubdivisionTables.offsets, vertexRecordWidth, schemeOf]
      split_ifs <;> simp) rfl rfl j hj

/-- Entry of the merged schedule at the position of batch `j` of mesh `i`. -/
theorem getElem?_merged_batches (meshes : List FarMesh) (i j : Nat) (hi : i < meshes.length)
    (hj : j < (meshes.getD i default).batches.length) :
    (concatMeshes meshes (fun i m => m.batches.map (rebasedBatch meshes i)))[
        batchOffsetOf meshes i + j]? =
      some (rebasedBatch meshes i ((meshes.getD i default).batches.getD j default)) := by
  rw [concatMeshes, batchOffsetOf,
    getElem?_flatten_enumFrom (fun i m => m.batches.map (rebasedBatch meshes i))
      (fun m => m.batches.length) (fun j m => by simp) meshes 0 i j default hi hj]
  have e : (meshes.getD i default).batches[j]? =
      some ((meshes.getD i default).batches.getD j default) := by
    rw [List.getD_eq_getElem?_getD (meshes.getD i default).batches, List.getElem?_eq_getElem hj]
    rfl
  simp only [Nat.zero_add, List.getElem?_map, e, Option.map_some']

/-- The fields of the rebased copy of a batch of mesh `i`. -/
theorem rebasedBatch_fields (meshes : List FarMesh) (i : Nat) (hi : i < meshes.length)
    (b : FarKernelBatch) :
    (rebasedBatch meshes i b).kernelType = b.kernelType ∧
    (rebasedBatch meshes i b).level = b.level ∧
    (rebasedBatch meshes i b).vertexOffset = b.vertexOffset + (vertexOffsetOf meshes i : Int) ∧
    (isFaceVertexKernel b →
      (rebasedBatch meshes i b).tableOffset =
        b.tableOffset + (faceRuleBlockOffset meshes i : Int)) ∧
    (isEdgeVertexKernel b →
      (rebasedBatch meshes i b).tableOffset =
        b.tableOffset + (edgeRuleBlockOffset meshes i : Int)) ∧
    (isVertexVertexKernel b →
      (rebasedBatch meshes i b).tableOffset =
        b.tableOffset + (vertexRuleBlockOffset meshes i : Int)) ∧
    (isEditKernel b →
      (rebasedBatch meshes i b).tableIndex = b.tableIndex + (editBatchesBefore meshes i : Int) ∧
        (rebasedBatch meshes i b).tableOffset = b.tableOffset) ∧
    (¬ isEditKernel b → (rebasedBatch meshes i b).tableIndex = b.tableIndex) := by
  obtain ⟨kt, lv, ti, tof, vo⟩ := b
  simp only [rebasedBatch, spliceSubdivisionTables.rebase, tableOffsetsOf_vertexOffsets meshes i hi,
    tableOffsetsOf_fvOffsets meshes i hi, tableOffsetsOf_evOffsets meshes i hi,
    tableOffsetsOf_vvOffsets meshes i hi]
  cases kt <;>
    simp [isFaceVertexKernel, isEdgeVertexKernel, isVertexVertexKernel, isEditKernel]

/-- C16: in the merged schedule, which the call of `spliceSubdivisionTables` in `Create`
builds, the copy of batch `j` of mesh `i` has its vertex offset increased by mesh `i`'s
vertex offset; its table offset is increased by the face-rule-block offset for a
face-vertex kernel, by the edge-rule-block offset for an edge-vertex kernel and by the
vertex-rule-block offset for a vertex-vertex kernel; for a hierarchical-edit kernel the
edit-table index is increased by the number of edit batches of the meshes before `i` and
the table offset is unchanged; the edit-table index of every other kernel is unchanged.
It is the schedule of the mesh `Create` returns whenever, in uniform mode, every input has
the face-corner levels `spliceQuads` reads. -/
theorem Create_batch_fields (self : FarMultiMeshFactory) (meshes : List FarMesh)
    (hne : meshes ≠ []) (hom : Homogeneous meshes) :
    ∃ b, (spliceSubdivisionTables (Create self meshes).2 FarMesh.new meshes).2.batches = b ∧
      (QuadLevelsPresent self meshes →
        ∃ r, (Create self meshes).1 = some (some r) ∧ r.batches = b) ∧
      ∀ i j, i < meshes.length → j < (meshes.getD i default).batches.length →
        ∃ c, b[batchOffsetOf meshes i + j]? = some c ∧
          c.vertexOffset =
            ((meshes.getD i default).batches.getD j default).vertexOffset +
              (vertexOffsetOf meshes i : Int) ∧
          (isFaceVertexKernel ((meshes.getD i default).batches.getD j default) →
            c.tableOffset =
              ((meshes.getD i default).batches.getD j default).tableOffset +
                (faceRuleBlockOffset meshes i : Int)) ∧
          (isEdgeVertexKernel ((meshes.getD i default).batches.getD j default) →
            c.tableOffset =
              ((meshes.getD i default).batches.getD j default).tableOffset +
                (edgeRuleBlockOffset meshes i : Int)) ∧
          (isVertexVertexKernel ((meshes.getD i default).batches.getD j default) →
            c.tableOffset =
              ((meshes.getD i default).batches.getD j default).tableOffset +
                (vertexRuleBlockOffset meshes i : Int)) ∧
          (isEditKernel ((meshes.getD i default).batches.getD j default) →
            c.tableIndex =
                ((meshes.getD i default).batches.getD j default).tableIndex +
                  (editBatchesBefore meshes i : Int) ∧
              c.tableOffset = ((meshes.getD i default).batches.getD j default).tableOffset) ∧
          (¬ isEditKernel ((meshes.getD i default).batches.getD j default) →
            c.tableIndex = ((meshes.getD i default).batches.getD j default).tableIndex) := by
  have hb := spliceSubdivisionTables_batches (Create self meshes).2 meshes
  refine ⟨_, rfl, fun hlev => ?_, ?_⟩
  · obtain ⟨r, hr, -, -, hrb, -⟩ := Create_homogeneous self meshes hne hom hlev
    exact ⟨r, hr, hrb⟩
  · intro i j hi hj
    refine ⟨_, by rw [hb]; exact getElem?_merged_batches meshes i j hi hj, ?_⟩
    exact (rebasedBatch_fields meshes i hi _).2.2

/-- Witness of C16: the face-vertex and the hierarchical-edit batch of the second example
mesh in the schedule of the mesh `Create` returns; the first mesh has 4 vertices, 1 face
pair and 2 edit batches, and both meshes have the three levels of quads read. -/
theorem Create_batch_fields_witness :
    [exampleMeshD, exampleMeshF] ≠ [] ∧ Homogeneous [exampleMeshD, exampleMeshF] ∧
    QuadLevelsPresent default [exampleMeshD, exampleMeshF] ∧
    ∃ r c d, (Create default [exampleMeshD, exampleMeshF]).1 = some (some r) ∧
      r.batches[2]? = some c ∧ c.vertexOffset = 4 ∧ c.tableOffset = 2 ∧ c.tableIndex = 0 ∧
      r.batches[5]? = some d ∧ d.vertexOffset = 4 ∧ d.tableOffset = 7 ∧ d.tableIndex = 2 := by
  have hlev : QuadLevelsPresent default [exampleMeshD, exampleMeshF] := by decide
  refine ⟨by simp, by decide, hlev, ?_⟩
  obtain ⟨b, -, hlink, h⟩ :=
    Create_batch_fields default [exampleMeshD, exampleMeshF] (by simp) (by decide)
  obtain ⟨r, hr, hrb⟩ := hlink hlev
  obtain ⟨c, hc, hcv, hcf, -, -, -, hci⟩ := h 1 0 (by decide) (by decide)
  obtain ⟨d, hd, hdv, -, -, -, hde, -⟩ := h 1 3 (by decide) (by decide)
  refine ⟨r, c, d, hr, by rw [hrb]; exact hc, ?_, ?_, ?_, by rw [hrb]; exact hd, ?_, ?_, ?_⟩
  · rw [hcv]
    decide
  · rw [hcf (by decide)]
    decide
  · rw [hci (by decide)]
    decide
  · rw [hdv]
    decide
  · rw [(hde (by decide)).2]
    decide
  · rw [(hde (by decide)).1]
    decide

/-! ### The bounds computed by the validation loop -/

/-- A running maximum is an upper bound of its start and of every value, and it is the
start or one of the values. -/
theorem foldl_max_spec {μ : Type} (f : μ → Int) (ms : List μ) (a : Int) :
    a ≤ ms.foldl (fun x m => max x (f m)) a ∧
      (∀ m ∈ ms, f m ≤ ms.foldl (fun x m => max x (f m)) a) ∧
      (ms.foldl (fun x m => max x (f m)) a = a ∨
        ∃ m ∈ ms, ms.foldl (fun x m => max x (f m)) a = f m) := by
  induction ms generalizing a with
  | nil => simp
  | cons m ms ih =>
    obtain ⟨h1, h2, h3⟩ := ih (max a (f m))
    simp only [List.foldl_cons, List.mem_cons, forall_eq_or_imp, exists_eq_or_imp]
    refine ⟨le_trans (le_max_left _ _) h1, ⟨le_trans (le_max_right _ _) h1, h2⟩, ?_⟩
    rcases h3 with h3 | h3
    · rcases le_total a (f m) with h | h
      · right
        left
        rw [h3, max_eq_right h]
      · left
        rw [h3, max_eq_left h]
    · right
      right
      exact h3

/-- A function of the position modulo `k` sees an enumeration started `k` later as the
enumeration itself. -/
theorem map_enumFrom_add {α β : Type} (g : Nat → α → β) (k n : Nat) (l : List α)
    (hg : ∀ j x, g (j + k) x = g j x) :
    ((l.enumFrom (n + k)).map (fun p => g p.1 p.2)) = (l.enumFrom n).map (fun p => g p.1 p.2) := by
  induction l generalizing n with
  | nil => rfl
  | cons x l ih =>
    simp only [List.enumFrom_cons, List.map_cons, hg]
    rw [show n + k + 1 = (n + 1) + k by omega, ih]

theorem rebaseF_ITa_cons_cons (a b : Int) (rest : List Int) (tableOffset : Int) :
    rebaseF_ITa (a :: b :: rest) tableOffset = (a + tableOffset) :: b :: rebaseF_ITa rest tableOffset := by
  simp only [rebaseF_ITa, List.enumFrom_cons, List.map_cons]
  have := map_enumFrom_add (fun j (x : Int) => if j % 2 = 0 then x + tableOffset else x) 2 0 rest
    (fun j x => by simp [Nat.add_mod_right])
  simp only [Nat.zero_add] at this
  simp [this]

/-- `copyWithOffsetF_ITa` writes the table with the offset field of every pair rebased. -/
theorem copyWithOffsetF_ITa_eq_stdCopy (it : Iter Int) (src : List Int) (offset : Int) :
    copyWithOffsetF_ITa it src offset = stdCopy (rebaseF_ITa src offset) it := by
  induction it, src, offset using copyWithOffsetF_ITa.induct with
  | case1 it x => rfl
  | case2 it a offset => simp [copyWithOffsetF_ITa, stdCopy, rebaseF_ITa]
  | case3 it a b rest offset ih =>
    rw [copyWithOffsetF_ITa, ih, rebaseF_ITa_cons_cons]
    rfl

theorem rebaseV_ITa_cons5 (a b c d e : Int) (rest : List Int) (tableOffset vertexOffset : Int) :
    rebaseV_ITa (a :: b :: c :: d :: e :: rest) tableOffset vertexOffset =
      (a + tableOffset) :: b :: offsetUnlessSentinel c vertexOffset ::
        offsetUnlessSentinel d vertexOffset :: offsetUnlessSentinel e vertexOffset ::
        rebaseV_ITa rest tableOffset vertexOffset := by
  simp only [rebaseV_ITa, List.enumFrom_cons, List.map_cons]
  have := map_enumFrom_add
    (fun j (x : Int) =>
      if j % 5 = 0 then x + tableOffset
      else if j % 5 = 1 then x
      else if x = -1 then -1
      else x + vertexOffset) 5 0 rest
    (fun j x => by simp [Nat.add_mod_right])
  simp only [Nat.zero_add] at this
  simp [this, offsetUnlessSentinel]

/-- `copyWithOffsetV_ITa` writes the table with fields 0 and 2 to 4 of every record rebased. -/
theorem copyWithOffsetV_ITa_eq_stdCopy (it : Iter Int) (src : List Int)
    (tableOffset vertexOffset : Int) :
    copyWithOffsetV_ITa it src tableOffset vertexOffset =
      stdCopy (rebaseV_ITa src tableOffset vertexOffset) it := by
  induction it, src, tableOffset, vertexOffset using copyWithOffsetV_ITa.induct with
  | case1 it a b c d e rest t v ih =>
    rw [copyWithOffsetV_ITa, ih, rebaseV_ITa_cons5]
    rfl
  | case2 it a b c d t v =>
    simp [copyWithOffsetV_ITa, stdCopy, rebaseV_ITa, offsetUnlessSentinel]
  | case3 it a b c t v =>
    simp [copyWithOffsetV_ITa, stdCopy, rebaseV_ITa, offsetUnlessSentinel]
  | case4 it a b t v => simp [copyWithOffsetV_ITa, stdCopy, rebaseV_ITa]
  | case5 it a t v => simp [copyWithOffsetV_ITa, stdCopy, rebaseV_ITa]
  | case6 it t v => simp [copyWithOffsetV_ITa, stdCopy, rebaseV_ITa]

/-- The merged `F_ITa` is the concatenation of the inputs' `F_ITa`, the offset field of every
pair of mesh `i` rebased by the write offset of mesh `i` in the merged `F_IT`. -/
theorem spliceSubdivisionTables_F_ITa (self : FarMultiMeshFactory) (farMesh : FarMesh)
    (meshes : List FarMesh) :
    (spliceSubdivisionTables self farMesh meshes).1.F_ITa =
      concatMeshes meshes
        (fun i m => rebaseF_ITa m.subdivisionTables.F_ITa (F_ITwriteOffset meshes i : Nat)) := by
  simp only [spliceSubdivisionTables, forEach]
  rw [forEachFrom_proj RuleTableIters.F_ITa _
    (fun i m it => stdCopy (rebaseF_ITa m.subdivisionTables.F_ITa
      ((tableOffsetsOf meshes).F_IToffsets.getD i 0 : Nat)) it)
    (fun i m s => by
      simp only [spliceSubdivisionTables.merge, copyWithOffsetF_ITa_eq_stdCopy, tableOffsetsOf,
        forEach])]
  apply splice_buf (0 : Int) _ _ _ (fun m => m.subdivisionTables.F_ITa.length)
  · intro j m
    simp [rebaseF_ITa]
  · rw [forEachFrom_count]
    simp
  · intro j hj m
    rw [tableOffsetsOf_F_IToffsets _ _ hj]

/-- For Catmark and Loop the merged `V_ITa` is the concatenation of the inputs' `V_ITa`,
field 0 of every record of mesh `i` rebased by the write offset of mesh `i` in the merged
`V_IT` and fields 2 to 4 by its vertex offset unless they hold the sentinel. -/
theorem spliceSubdivisionTables_V_ITa (self : FarMultiMeshFactory) (farMesh : FarMesh)
    (meshes : List FarMesh)
    (hs : schemeOf meshes = Scheme.catmark ∨ schemeOf meshes = Scheme.loop) :
    (spliceSubdivisionTables self farMesh meshes).1.V_ITa =
      concatMeshes meshes
        (fun i m => rebaseV_ITa m.subdivisionTables.V_ITa (V_ITwriteOffset meshes i : Nat)
          (vertexOffsetOf meshes i : Nat)) := by
  simp only [spliceSubdivisionTables, forEach]
  rw [forEachFrom_proj RuleTableIters.V_ITa _
    (fun i m it => stdCopy (rebaseV_ITa m.subdivisionTables.V_ITa
      ((tableOffsetsOf meshes).V_IToffsets.getD i 0 : Nat)
      ((tableOffsetsOf meshes).vertexOffsets.getD i 0 : Nat)) it)
    (fun i m s => by
      have hs2 : (meshes.headD default).subdivisionTables.scheme = Scheme.catmark ∨
          (meshes.headD default).subdivisionTables.scheme = Scheme.loop := hs
      simp only [spliceSubdivisionTables.merge, if_pos hs2, copyWithOffsetV_ITa_eq_stdCopy,
        tableOffsetsOf, forEach])]
  apply splice_buf (0 : Int) _ _ _ (fun m => m.subdivisionTables.V_ITa.length)
  · intro j m
    simp [rebaseV_ITa]
  · rw [forEachFrom_count]
    simp
  · intro j hj m
    rw [tableOffsetsOf_V_IToffsets _ _ hj, tableOffsetsOf_vertexOffsets _ _ hj]

/-- C14, as amended: for a non-empty homogeneous list, the merged `F_ITa`, which the call of
`spliceSubdivisionTables` in `Create` builds, is the concatenation, in input order, of the
inputs' (offset, valence) pairs where, for mesh `i`, the offset field is increased by the
sum of the `F_IT` sizes of the meshes before `i` (the position where mesh `i`'s `F_IT`
starts in the merged `F_IT`) and the valence field is copied unchanged.  It is the table of
the mesh `Create` returns whenever, in uniform mode, every input has the face-corner levels
`spliceQuads` reads. -/
theorem Create_F_ITa (self : FarMultiMeshFactory) (meshes : List FarMesh)
    (hne : meshes ≠ []) (hom : Homogeneous meshes) :
    ∃ t, (spliceSubdivisionTables (Create self meshes).2 FarMesh.new meshes).1 = t ∧
      (QuadLevelsPresent self meshes →
        ∃ r, (Create self meshes).1 = some (some r) ∧ r.subdivisionTables = t) ∧
      t.F_ITa =
        concatMeshes meshes
          (fun i m => rebaseF_ITa m.subdivisionTables.F_ITa (F_ITwriteOffset meshes i : Nat)) := by
  refine ⟨_, rfl, fun hlev => ?_, ?_⟩
  · obtain ⟨r, hr, -, ht, -⟩ := Create_homogeneous self meshes hne hom hlev
    exact ⟨r, hr, ht⟩
  · rw [spliceSubdivisionTables_F_ITa]

/-- Witness of C14 as amended: the first example mesh has an `F_IT` of 4 entries, so the
offset fields of the second mesh's two pairs grow by 4 in the table of the mesh `Create`
returns; both meshes have the three levels of quads read. -/
theorem Create_F_ITa_witness :
    [exampleMeshC, exampleMeshB] ≠ [] ∧ Homogeneous [exampleMeshC, exampleMeshB] ∧
    QuadLevelsPresent default [exampleMeshC, exampleMeshB] ∧
    ∃ r, (Create default [exampleMeshC, exampleMeshB]).1 = some (some r) ∧
      r.subdivisionTables.F_ITa = [0, 4, 4, 3, 7, 3] := by
  have hlev : QuadLevelsPresent default [exampleMeshC, exampleMeshB] := by decide
  refine ⟨by simp, by decide, hlev, ?_⟩
  obtain ⟨t, -, hlink, h⟩ :=
    Create_F_ITa default [exampleMeshC, exampleMeshB] (by simp) (by decide)
  obtain ⟨r, hr, hrt⟩ := hlink hlev
  exact ⟨r, hr, by rw [hrt, h]; decide⟩

/-- Counterexample to C14 as stated: two uniform meshes with the three levels of quads
read, so that `Create` returns a mesh; the first has one (offset, valence) pair and an
`F_IT` of 4 entries; the offset fields of the second mesh grow by 4, not by the
face-rule-block offset 1. -/
theorem Create_F_ITa_counterexample :
    Homogeneous [exampleMeshC, exampleMeshB] ∧
    faceRuleBlockOffset [exampleMeshC, exampleMeshB] 1 = 1 ∧
    ∃ r, (Create default [exampleMeshC, exampleMeshB]).1 = some (some r) ∧
      r.subdivisionTables.F_ITa = [0, 4, 4, 3, 7, 3] ∧
      concatMeshes [exampleMeshC, exampleMeshB]
          (fun i m => rebaseF_ITa m.subdivisionTables.F_ITa
            (faceRuleBlockOffset [exampleMeshC, exampleMeshB] i : Nat)) =
        [0, 4, 1, 3, 4, 3] ∧
      r.subdivisionTables.F_ITa ≠
        concatMeshes [exampleMeshC, exampleMeshB]
          (fun i m => rebaseF_ITa m.subdivisionTables.F_ITa
            (faceRuleBlockOffset [exampleMeshC, exampleMeshB] i : Nat)) := by
  refine ⟨by decide, by decide, ?_⟩
  obtain ⟨r, hr, -, ht, -⟩ :=
    Create_homogeneous default [exampleMeshC, exampleMeshB] (by simp) (by decide) (by decide)
  refine ⟨r, hr, ?_, by decide, ?_⟩
  · rw [ht]
    decide
  · rw [ht]
    decide

/-- C15, as amended: for a non-empty homogeneous list of Catmark or Loop meshes, the merged
`V_ITa`, which the call of `spliceSubdivisionTables` in `Create` builds, is the
concatenation, in input order, of the inputs' 5-field records where, for mesh `i`, field 0
is increased by the sum of the `V_IT` sizes of the meshes before `i` (the position where
mesh `i`'s `V_IT` starts in the merged `V_IT`), field 1 is copied unchanged, and each of
fields 2, 3 and 4 is kept at `-1` if it equals `-1` and is otherwise increased by mesh
`i`'s vertex offset.  It is the table of the mesh `Create` returns whenever, in uniform
mode, every input has the face-corner levels `spliceQuads` reads. -/
theorem Create_V_ITa (self : FarMultiMeshFactory) (meshes : List FarMesh)
    (hne : meshes ≠ []) (hom : Homogeneous meshes)
    (hs : schemeOf meshes = Scheme.catmark ∨ schemeOf meshes = Scheme.loop) :
    ∃ t, (spliceSubdivisionTables (Create self meshes).2 FarMesh.new meshes).1 = t ∧
      (QuadLevelsPresent self meshes →
        ∃ r, (Create self meshes).1 = some (some r) ∧ r.subdivisionTables = t) ∧
      t.V_ITa =
        concatMeshes meshes
          (fun i m => rebaseV_ITa m.subdivisionTables.V_ITa (V_ITwriteOffset meshes i : Nat)
            (vertexOffsetOf meshes i : Nat)) := by
  refine ⟨_, rfl, fun hlev => ?_, ?_⟩
  · obtain ⟨r, hr, -, ht, -⟩ := Create_homogeneous self meshes hne hom hlev
    exact ⟨r, hr, ht⟩
  · rw [spliceSubdivisionTables_V_ITa _ _ _ hs]

/-- Witness of C15 as amended: the first example mesh has 4 vertices and a `V_IT` of 2
entries, so field 0 of the second mesh's record grows by 2 and its fields 3 and 4 by 4 in
the table of the mesh `Create` returns; both meshes have the three levels of quads read. -/
theorem Create_V_ITa_witness :
    [exampleMeshC, exampleMeshB] ≠ [] ∧ Homogeneous [exampleMeshC, exampleMeshB] ∧
    (schemeOf [exampleMeshC, exampleMeshB] = Scheme.catmark ∨
      schemeOf [exampleMeshC, exampleMeshB] = Scheme.loop) ∧
    QuadLevelsPresent default [exampleMeshC, exampleMeshB] ∧
    ∃ r, (Create default [exampleMeshC, exampleMeshB]).1 = some (some r) ∧
      r.subdivisionTables.V_ITa = [0, 2, 1, -1, 3, 2, 1, -1, 6, 4] := by
  have hlev : QuadLevelsPresent default [exampleMeshC, exampleMeshB] := by decide
  refine ⟨by simp, by decide, Or.inl rfl, hlev, ?_⟩
  obtain ⟨t, -, hlink, h⟩ :=
    Create_V_ITa default [exampleMeshC, exampleMeshB] (by simp) (by decide) (Or.inl rfl)
  obtain ⟨r, hr, hrt⟩ := hlink hlev
  exact ⟨r, hr, by rw [hrt, h]; decide⟩

/-- Counterexample to C15 as stated: two uniform Catmark meshes with the three levels of
quads read, so that `Create` returns a mesh; the first has one 5-field record and a `V_IT`
of 2 entries; field 0 of the second mesh's record grows by 2, not by the vertex-rule-block
offset 1. -/
theorem Create_V_ITa_counterexample :
    Homogeneous [exampleMeshC, exampleMeshB] ∧
    schemeOf [exampleMeshC, exampleMeshB] = Scheme.catmark ∧
    vertexRuleBlockOffset [exampleMeshC, exampleMeshB] 1 = 1 ∧
    ∃ r, (Create default [exampleMeshC, exampleMeshB]).1 = some (some r) ∧
      r.subdivisionTables.V_ITa = [0, 2, 1, -1, 3, 2, 1, -1, 6, 4] ∧
      concatMeshes [exampleMeshC, exampleMeshB]
          (fun i m => rebaseV_ITa m.subdivisionTables.V_ITa
            (vertexRuleBlockOffset [exampleMeshC, exampleMeshB] i : Nat)
            (vertexOffsetOf [exampleMeshC, exampleMeshB] i : Nat)) =
        [0, 2, 1, -1, 3, 1, 1, -1, 6, 4] ∧
      r.subdivisionTables.V_ITa ≠
        concatMeshes [exampleMeshC, exampleMeshB]
          (fun i m => rebaseV_ITa m.subdivisionTables.V_ITa
            (vertexRuleBlockOffset [exampleMeshC, exampleMeshB] i : Nat)
            (vertexOffsetOf [exampleMeshC, exampleMeshB] i : Nat)) := by
  refine ⟨by decide, rfl, by decide, ?_⟩
  obtain ⟨r, hr, -, ht, -⟩ :=
    Create_homogeneous default [exampleMeshC, exampleMeshB] (by simp) (by decide) (by decide)
  refine ⟨r, hr, ?_, by decide, ?_⟩
  · rw [ht]
    decide
  · rw [ht]
    decide

/-! ### Offset fields still address the same data -/

theorem getElem?_rebaseF_ITa (src : List Int) (tableOffset : Int) (n : Nat) :
    (rebaseF_ITa src tableOffset)[n]? =
      src[n]?.map (fun x => if n % 2 = 0 then x + tableOffset else x) := by
  simp only [rebaseF_ITa, List.getElem?_map, List.getElem?_enumFrom, Option.map_map]
  cases src[n]? <;> simp

theorem getElem?_rebaseV_ITa (src : List Int) (tableOffset vertexOffset : Int) (n : Nat) :
    (rebaseV_ITa src tableOffset vertexOffset)[n]? =
      src[n]?.map (fun x =>
        if n % 5 = 0 then x + tableOffset
        else if n % 5 = 1 then x
        else if x = -1 then -1
        else x + vertexOffset) := by
  simp only [rebaseV_ITa, List.getElem?_map, List.getElem?_enumFrom, Option.map_map]
  cases src[n]? <;> simp

/-- An entry of a list that exists, through `getD`. -/
theorem getElem?_eq_some_getD {α : Type} (l : List α) (n : Nat) (d : α) (h : n < l.length) :
    l[n]? = some (l.getD n d) := by
  rw [List.getD_eq_getElem?_getD, List.getElem?_eq_getElem h]
  rfl

/-- Entry `j` of the segment that mesh `i` contributes to a concatenation over the meshes. -/
theorem getElem?_concatMeshes {α : Type} (meshes : List FarMesh) (piece : Nat → FarMesh → List α)
    (len : FarMesh → Nat) (hlen : ∀ j m, (piece j m).length = len m) (i j : Nat)
    (hi : i < meshes.length) (hj : j < len (meshes.getD i default)) :
    (concatMeshes meshes piece)[((meshes.take i).map len).sum + j]? =
      (piece i (meshes.getD i default))[j]? := by
  rw [concatMeshes, getElem?_flatten_enumFrom piece len hlen meshes 0 i j default hi hj,
    Nat.zero_add]

/-- C20: offset fields of the merged rule tables, which the call of
`spliceSubdivisionTables` in `Create` builds, address the same data as before the merge.
For every mesh `i`, every (offset, valence) pair of its `F_ITa` and every `k` with
`offset + k` inside mesh `i`'s `F_IT`, the merged `F_IT` at (merged offset field) + `k` is
mesh `i`'s `F_IT[offset + k]` plus mesh `i`'s vertex offset; and for Catmark and Loop the
same holds for field 0 of every `V_ITa` record and `V_IT`.  These are the tables of the
mesh `Create` returns whenever, in uniform mode, every input has the face-corner levels
`spliceQuads` reads. -/
theorem Create_offsets_address (self : FarMultiMeshFactory) (meshes : List FarMesh)
    (hne : meshes ≠ []) (hom : Homogeneous meshes) :
    ∃ t, (spliceSubdivisionTables (Create self meshes).2 FarMesh.new meshes).1 = t ∧
      (QuadLevelsPresent self meshes →
        ∃ r, (Create self meshes).1 = some (some r) ∧ r.subdivisionTables = t) ∧
      (∀ (i n idx : Nat) (k : Int), i < meshes.length →
        2 * n + 1 < (meshes.getD i default).subdivisionTables.F_ITa.length →
        (meshes.getD i default).subdivisionTables.F_ITa.getD (2 * n) 0 + k = (idx : Int) →
        idx < (meshes.getD i default).subdivisionTables.F_IT.length →
        ∃ o, t.F_ITa[F_ITaWriteOffset meshes i + 2 * n]? = some o ∧
          t.F_IT[(o + k).toNat]? =
            some ((meshes.getD i default).subdivisionTables.F_IT.getD idx 0 +
              vertexOffsetOf meshes i)) ∧
      (schemeOf meshes = Scheme.catmark ∨ schemeOf meshes = Scheme.loop →
        ∀ (i n idx : Nat) (k : Int), i < meshes.length →
          5 * n + 4 < (meshes.getD i default).subdivisionTables.V_ITa.length →
          (meshes.getD i default).subdivisionTables.V_ITa.getD (5 * n) 0 + k = (idx : Int) →
          idx < (meshes.getD i default).subdivisionTables.V_IT.length →
          ∃ o, t.V_ITa[V_ITaWriteOffset meshes i + 5 * n]? = some o ∧
            t.V_IT[(o + k).toNat]? =
              some ((meshes.getD i default).subdivisionTables.V_IT.getD idx 0 +
                vertexOffsetOf meshes i)) := by
  refine ⟨_, rfl, fun hlev => ?_, ?_, ?_⟩
  · obtain ⟨r, hr, -, ht, -⟩ := Create_homogeneous self meshes hne hom hlev
    exact ⟨r, hr, ht⟩
  · intro i t idx k hi ht2 hk hidx
    refine ⟨(meshes.getD i default).subdivisionTables.F_ITa.getD (2 * t) 0 +
      (F_ITwriteOffset meshes i : Nat), ?_, ?_⟩
    · rw [spliceSubdivisionTables_F_ITa, F_ITaWriteOffset,
        getElem?_concatMeshes meshes _ (fun m => m.subdivisionTables.F_ITa.length)
          (fun j m => by simp [rebaseF_ITa]) i (2 * t) hi
          (show 2 * t < (meshes.getD i default).subdivisionTables.F_ITa.length by omega),
        getElem?_rebaseF_ITa, getElem?_eq_some_getD _ _ 0 (by omega)]
      simp
    · have e : ((meshes.getD i default).subdivisionTables.F_ITa.getD (2 * t) 0 +
          (F_ITwriteOffset meshes i : Nat) + k).toNat = F_ITwriteOffset meshes i + idx := by
        omega
      rw [e, spliceSubdivisionTables_F_IT, F_ITwriteOffset,
        getElem?_concatMeshes meshes _ (fun m => m.subdivisionTables.F_IT.length)
          (fun j m => by simp) i idx hi hidx,
        List.getElem?_map, getElem?_eq_some_getD _ _ 0 hidx]
      rfl
  · intro hs i t idx k hi ht2 hk hidx
    refine ⟨(meshes.getD i default).subdivisionTables.V_ITa.getD (5 * t) 0 +
      (V_ITwriteOffset meshes i : Nat), ?_, ?_⟩
    · rw [spliceSubdivisionTables_V_ITa _ _ _ hs, V_ITaWriteOffset,
        getElem?_concatMeshes meshes _ (fun m => m.subdivisionTables.V_ITa.length)
          (fun j m => by simp [rebaseV_ITa]) i (5 * t) hi
          (show 5 * t < (meshes.getD i default).subdivisionTables.V_ITa.length by omega),
        getElem?_rebaseV_ITa, getElem?_eq_some_getD _ _ 0 (by omega)]
      simp
    · have e : ((meshes.getD i default).subdivisionTables.V_ITa.getD (5 * t) 0 +
          (V_ITwriteOffset meshes i : Nat) + k).toNat = V_ITwriteOffset meshes i + idx := by
        omega
      rw [e, spliceSubdivisionTables_V_IT, V_ITwriteOffset,
        getElem?_concatMeshes meshes _ (fun m => m.subdivisionTables.V_IT.length)
          (fun j m => by simp) i idx hi hidx,
        List.getElem?_map, getElem?_eq_some_getD _ _ 0 hidx]
      rfl

/-- Witness of C20: the second pair of the second example mesh has offset 3, and the merged
`F_IT` at (merged offset field) + 1 is the mesh's `F_IT[3 + 1] = 1` plus its vertex offset 4.
The mesh's vertex record has field 0 equal to 0, and the merged `V_IT` at (merged field 0)
+ 0 is the mesh's `V_IT[0] = 2` plus 4.  Both meshes have the three levels of quads read,
and the tables are those of the mesh `Create` returns. -/
theorem Create_offsets_address_witness :
    [exampleMeshC, exampleMeshB] ≠ [] ∧ Homogeneous [exampleMeshC, exampleMeshB] ∧
    (schemeOf [exampleMeshC, exampleMeshB] = Scheme.catmark ∨
      schemeOf [exampleMeshC, exampleMeshB] = Scheme.loop) ∧
    QuadLevelsPresent default [exampleMeshC, exampleMeshB] ∧
    ∃ r o p, (Create default [exampleMeshC, exampleMeshB]).1 = some (some r) ∧
      r.subdivisionTables.F_ITa[4]? = some o ∧
      r.subdivisionTables.F_IT[(o + 1).toNat]? = some 5 ∧
      r.subdivisionTables.V_ITa[5]? = some p ∧
      r.subdivisionTables.V_IT[(p + 0).toNat]? = some 6 := by
  have hlev : QuadLevelsPresent default [exampleMeshC, exampleMeshB] := by decide
  refine ⟨by simp, by decide, Or.inl rfl, hlev, ?_⟩
  obtain ⟨t, -, hlink, hF, hV⟩ :=
    Create_offsets_address default [exampleMeshC, exampleMeshB] (by simp) (by decide)
  obtain ⟨r, hr, hrt⟩ := hlink hlev
  obtain ⟨o, ho, hoF⟩ := hF 1 1 4 1 (by decide) (by decide) (by decide) (by decide)
  obtain ⟨p, hp, hpV⟩ := hV (Or.inl rfl) 1 0 0 0 (by decide) (by decide) (by decide) (by decide)
  refine ⟨r, o, p, hr, by rw [hrt]; exact ho, ?_, by rw [hrt]; exact hp, ?_⟩
  · rw [hrt, hoF]
    decide
  · rw [hrt, hpV]
    decide

/-! ### The quad-offset table -/

/-- Copying into a zero-filled gap that starts at the iterator's position consumes the
front of the gap. -/
theorem stdCopy_gap {α : Type} (z : α) (X u rest : List α) (a : Nat) (h : u.length ≤ a) :
    (stdCopy u { buf := X ++ (List.replicate a z ++ rest), pos := X.length }).buf =
      (X ++ u) ++ (List.replicate (a - u.length) z ++ rest) := by
  rw [stdCopy_buf]
  · simp only [List.take_left', List.append_assoc, List.append_cancel_left_eq]
    rw [List.drop_append_eq_append_drop, List.drop_of_length_le (by omega)]
    have e : X.length + u.length - X.length = u.length := by omega
    rw [List.nil_append, e, List.drop_append_eq_append_drop, List.drop_replicate,
      List.length_replicate, Nat.sub_eq_zero_of_le h, List.drop_zero]
  · simp only [List.length_append, List.length_replicate]
    omega

/-- The part of the loop "merge vertexvalence and quadoffset tables" that concerns the
quad-offset table evolves on its own. -/
theorem gregory_quad_proj (maxValence : Int) (vo : List Nat) (i : Nat) (ms : List FarMesh)
    (s : GregoryMerge) :
    ((forEachFrom (splicePatchTables.gregory maxValence vo) i ms s).quadOffsetTable,
      (forEachFrom (splicePatchTables.gregory maxValence vo) i ms s).Q0_IT,
      (forEachFrom (splicePatchTables.gregory maxValence vo) i ms s).Q1_IT) =
      forEachFrom (fun _ m t => quadOffsetStep m t) i ms (s.quadOffsetTable, s.Q0_IT, s.Q1_IT) :=
  forEachFrom_proj (fun s : GregoryMerge => (s.quadOffsetTable, s.Q0_IT, s.Q1_IT))
    (splicePatchTables.gregory maxValence vo) (fun _ m t => quadOffsetStep m t)
    (fun _ _ _ => rfl) i ms s

/-- The loop never changes the size of the quad-offset table. -/
theorem gregory_quad_length (maxValence : Int) (vo : List Nat) (i : Nat) (ms : List FarMesh)
    (s : GregoryMerge) :
    (forEachFrom (splicePatchTables.gregory maxValence vo) i ms s).quadOffsetTable.length =
      s.quadOffsetTable.length := by
  induction ms generalizing i s with
  | nil => rfl
  | cons m ms ih =>
    simp only [forEachFrom, ih, splicePatchTables.gregory, stdCopy_length]

/-- One step on a table made of two segments, each followed by a gap of zeros that the
mesh's entries fit in: the gregory-interior entries extend the first segment and the
boundary-gregory entries the second. -/
theorem quadOffsetStep_gap (m : FarMesh) (X Y : List Nat) (a b : Nat)
    (ha : (gregoryQuadOffsetsOf m).length ≤ a)
    (hb : (boundaryGregoryQuadOffsetsOf m).length ≤ b) :
    quadOffsetStep m
        (X ++ (List.replicate a 0 ++ (Y ++ List.replicate b 0)), X.length,
          X.length + a + Y.length) =
      ((X ++ gregoryQuadOffsetsOf m) ++
          (List.replicate (a - (gregoryQuadOffsetsOf m).length) 0 ++
            ((Y ++ boundaryGregoryQuadOffsetsOf m) ++
              List.replicate (b - (boundaryGregoryQuadOffsetsOf m).length) 0)),
        (X ++ gregoryQuadOffsetsOf m).length,
        (X ++ gregoryQuadOffsetsOf m).length + (a - (gregoryQuadOffsetsOf m).length) +
          (Y ++ boundaryGregoryQuadOffsetsOf m).length) := by
  have e1 : (X ++ gregoryQuadOffsetsOf m) ++
      (List.replicate (a - (gregoryQuadOffsetsOf m).length) 0 ++
        (Y ++ List.replicate b 0)) =
      ((X ++ gregoryQuadOffsetsOf m) ++
        (List.replicate (a - (gregoryQuadOffsetsOf m).length) 0 ++ Y)) ++
        (List.replicate b 0 ++ []) := by simp
  have e2 : X.length + a + Y.length =
      ((X ++ gregoryQuadOffsetsOf m) ++
        (List.replicate (a - (gregoryQuadOffsetsOf m).length) 0 ++ Y)).length := by
    simp only [List.length_append, List.length_replicate]
    omega
  unfold quadOffsetStep
  simp only [stdCopy_pos]
  rw [stdCopy_gap 0 X (gregoryQuadOffsetsOf m) _ a ha, e1, e2,
    stdCopy_gap 0 _ (boundaryGregoryQuadOffsetsOf m) [] b hb]
  refine Prod.ext ?_ (Prod.ext ?_ ?_)
  · simp
  · simp
  · simp only [List.length_append, List.length_replicate]
    omega

/-- With a gap of zeros after each of the two segments written so far, the loop appends the
gregory-interior entries of every mesh to the first segment and its boundary-gregory
entries to the second, as long as they fit in the gaps. -/
theorem forEachFrom_quad (i : Nat) (ms : List FarMesh) (X Y : List Nat) (a b : Nat)
    (ha : ((ms.map gregoryQuadOffsetsOf).flatten).length ≤ a)
    (hb : ((ms.map boundaryGregoryQuadOffsetsOf).flatten).length ≤ b) :
    (forEachFrom (fun _ m t => quadOffsetStep m t) i ms
        (X ++ (List.replicate a 0 ++ (Y ++ List.replicate b 0)), X.length,
          X.length + a + Y.length)).1 =
      (X ++ (ms.map gregoryQuadOffsetsOf).flatten) ++
        (List.replicate (a - ((ms.map gregoryQuadOffsetsOf).flatten).length) 0 ++
          ((Y ++ (ms.map boundaryGregoryQuadOffsetsOf).flatten) ++
            List.replicate (b - ((ms.map boundaryGregoryQuadOffsetsOf).flatten).length) 0)) := by
  induction ms generalizing i X Y a b with
  | nil => simp [forEachFrom]
  | cons m ms ih =>
    simp only [List.map_cons, List.flatten_cons, List.length_append] at ha hb
    simp only [forEachFrom]
    rw [quadOffsetStep_gap m X Y a b (by omega) (by omega), ih (i + 1) _ _ _ _ (by omega) (by omega)]
    simp only [List.map_cons, List.flatten_cons, List.length_append, List.append_assoc,
      Nat.sub_sub]

/-- A concatenation over the meshes of lists that do not depend on the index. -/
theorem concatMeshes_const {α : Type} (meshes : List FarMesh) (f : FarMesh → List α) :
    concatMeshes meshes (fun _ m => f m) = (meshes.map f).flatten := by
  unfold concatMeshes
  congr 1
  have : ∀ n, (meshes.enumFrom n).map (fun p => f p.2) = meshes.map f := by
    induction meshes with
    | nil => intro n; rfl
    | cons m ms ih => intro n; simp [List.enumFrom_cons, ih]
  exact this 0

/-- The two quad-offset totals of the counting loop. -/
theorem forEachFrom_patch_count_quad (i : Nat) (ms : List FarMesh) (s : PatchTotals) :
    (forEachFrom splicePatchTables.count i ms s).total_quadOffset0 =
        s.total_quadOffset0 + (ms.map nGregoryQuadsOf).sum ∧
      (forEachFrom splicePatchTables.count i ms s).total_quadOffset1 =
        s.total_quadOffset1 + (ms.map nBoundaryGregoryQuadsOf).sum := by
  constructor
  · rw [forEachFrom_proj (fun s : PatchTotals => s.total_quadOffset0) splicePatchTables.count
      (fun _ m n => n + nGregoryQuadsOf m) (fun _ _ _ => rfl)]
    exact forEachFrom_add _ i ms _
  · rw [forEachFrom_proj (fun s : PatchTotals => s.total_quadOffset1) splicePatchTables.count
      (fun _ m n => n + nBoundaryGregoryQuadsOf m) (fun _ _ _ => rfl)]
    exact forEachFrom_add _ i ms _

/-- The gregory and boundary-gregory counts of the aggregate summary add up to the number of
gregory-family patches the inputs' summaries count. -/
theorem gregoryCountOf_eq (meshes : List FarMesh) :
    (meshes.map (fun m => (patchCountOf m).of PatchArray.full_G_IT)).sum +
        (meshes.map (fun m => (patchCountOf m).of PatchArray.full_G_B_IT)).sum =
      gregoryCountOf meshes := by
  unfold gregoryCountOf
  induction meshes with
  | nil => rfl
  | cons m ms ih =>
    simp only [List.map_cons, List.sum_cons, ← ih, FarPatchCount.of]
    omega

/-- The quad-offset table before the loop "merge vertexvalence and quadoffset tables": sized
to the two totals when the aggregate summary counts a gregory-family patch, empty otherwise;
the loop keeps its size. -/
theorem splicePatchTables_quad_length (self : FarMultiMeshFactory) (meshes : List FarMesh) :
    (splicePatchTables self meshes).quadOffsetTable.length =
      if 0 < gregoryCountOf meshes then
        (meshes.map nGregoryQuadsOf).sum + (meshes.map nBoundaryGregoryQuadsOf).sum
      else 0 := by
  simp only [splicePatchTables, forEach]
  rw [gregory_quad_length]
  simp only [forEachFrom_patch_count, FarPatchCount.zero_of, Nat.zero_add, List.length_replicate,
    (forEachFrom_patch_count_quad _ _ _).1, (forEachFrom_patch_count_quad _ _ _).2,
    FarPatchTables.new, PatchArray.ringSize, ← gregoryCountOf_eq]
  by_cases h : 0 < (meshes.map (fun m => (patchCountOf m).of PatchArray.full_G_IT)).sum +
      (meshes.map (fun m => (patchCountOf m).of PatchArray.full_G_B_IT)).sum
  · have h2 : (meshes.map (fun m => (patchCountOf m).of PatchArray.full_G_IT)).sum * 4 +
        (meshes.map (fun m => (patchCountOf m).of PatchArray.full_G_B_IT)).sum * 4 > 0 := by
      omega
    simp [h, h2]
  · have h2 : ¬ (meshes.map (fun m => (patchCountOf m).of PatchArray.full_G_IT)).sum * 4 +
        (meshes.map (fun m => (patchCountOf m).of PatchArray.full_G_B_IT)).sum * 4 > 0 := by
      omega
    simp [h, h2]

/-- In adaptive mode the mesh `Create` returns carries the patch tables `splicePatchTables`
built. -/
theorem Create_adaptive (self : FarMultiMeshFactory) (meshes : List FarMesh)
    (hne : meshes ≠ []) (hom : Homogeneous meshes)
    (hadaptive : ∀ m ∈ meshes, m.patchTables.isSome = true) :
    ∃ r, (Create self meshes).1 = some (some r) ∧
      r.patchTables = some (splicePatchTables (Create self meshes).2 meshes) := by
  obtain ⟨r, hr, -, -, -, -, hp⟩ := Create_homogeneous self meshes hne hom
    (QuadLevelsPresent_of_adaptive self meshes hne hadaptive)
  have h0 : (meshes.headD default).patchTables.isSome = true := by
    cases meshes with
    | nil => exact absurd rfl hne
    | cons m ms => exact hadaptive m (List.mem_cons_self _ _)
  rw [h0, if_pos rfl] at hp
  exact ⟨r, hr, hp⟩

/-- For consistent inputs the two gregory index arrays hold four entries per patch. -/
theorem sum_quads_of_consistent (meshes : List FarMesh)
    (hcons : ∀ m ∈ meshes, AdaptiveConsistent m) :
    (meshes.map nGregoryQuadsOf).sum + (meshes.map nBoundaryGregoryQuadsOf).sum =
      4 * gregoryCountOf meshes := by
  unfold gregoryCountOf
  induction meshes with
  | nil => rfl
  | cons m ms ih =>
    have h1 := ((hcons m (List.mem_cons_self _ _)).lengths PatchArray.full_G_IT).1
    have h2 := ((hcons m (List.mem_cons_self _ _)).lengths PatchArray.full_G_B_IT).1
    have h3 := ih (fun x hx => hcons x (List.mem_cons_of_mem _ hx))
    simp only [FarPatchCount.of, PatchArray.ringSize] at h1 h2
    simp only [List.map_cons, List.sum_cons, nGregoryQuadsOf, nBoundaryGregoryQuadsOf, h1, h2]
    simp only [nGregoryQuadsOf, nBoundaryGregoryQuadsOf] at h3
    omega

/-- C12, as amended: in adaptive mode the merged quad-offset table has length equal to the
sum, over all inputs, of the sizes of their gregory and boundary-gregory control-point index
arrays when the inputs' summaries count at least one gregory or boundary-gregory patch, and
is empty otherwise; for inputs whose summaries are consistent with their arrays this is four
times the sum of (gregory patch count + boundary-gregory patch count). -/
theorem Create_quadOffsetTable_length (self : FarMultiMeshFactory) (meshes : List FarMesh)
    (hne : meshes ≠ []) (hom : Homogeneous meshes)
    (hadaptive : ∀ m ∈ meshes, m.patchTables.isSome = true) :
    ∃ r pt, (Create self meshes).1 = some (some r) ∧ r.patchTables = some pt ∧
      pt.quadOffsetTable.length =
        (if 0 < gregoryCountOf meshes then
          (meshes.map (fun m => nGregoryQuadsOf m + nBoundaryGregoryQuadsOf m)).sum
        else 0) ∧
      ((∀ m ∈ meshes, AdaptiveConsistent m) →
        pt.quadOffsetTable.length = 4 * gregoryCountOf meshes) := by
  obtain ⟨r, hr, hp⟩ := Create_adaptive self meshes hne hom hadaptive
  refine ⟨r, _, hr, hp, ?_, ?_⟩
  · rw [splicePatchTables_quad_length, List.sum_map_add]
  · intro hcons
    rw [splicePatchTables_quad_length, sum_quads_of_consistent meshes hcons]
    split_ifs with h
    · rfl
    · omega

/-- Witness of C12 as amended: two meshes with 2 and 1 gregory-family patches merge into a
quad-offset table of 12 entries. -/
theorem Create_quadOffsetTable_length_witness :
    [exampleMeshG, exampleMeshH] ≠ [] ∧ Homogeneous [exampleMeshG, exampleMeshH] ∧
    (∀ m ∈ [exampleMeshG, exampleMeshH], m.patchTables.isSome = true) ∧
    gregoryCountOf [exampleMeshG, exampleMeshH] = 3 ∧
    ∃ r pt, (Create default [exampleMeshG, exampleMeshH]).1 = some (some r) ∧ r.patchTables = some pt ∧
      pt.quadOffsetTable.length = 12 := by
  have ha : ∀ m ∈ [exampleMeshG, exampleMeshH], m.patchTables.isSome = true := by decide
  refine ⟨by simp, by decide, ha, by decide, ?_⟩
  obtain ⟨r, pt, hr, hp, h, -⟩ :=
    Create_quadOffsetTable_length default [exampleMeshG, exampleMeshH] (by simp) (by decide) ha
  refine ⟨r, pt, hr, hp, ?_⟩
  rw [h]
  decide

/-- Counterexample to C12 as stated: a single consistent mesh with one gregory and one
boundary-gregory patch; the merged quad-offset table has 8 entries, not 2. -/
theorem Create_quadOffsetTable_length_counterexample :
    Homogeneous [exampleMeshG] ∧ exampleMeshG.patchTables.isSome = true ∧
    (patchCountOf exampleMeshG).gregory + (patchCountOf exampleMeshG).boundaryGregory = 2 ∧
    ∃ r pt, (Create default [exampleMeshG]).1 = some (some r) ∧ r.patchTables = some pt ∧
      pt.quadOffsetTable = [10, 11, 12, 13, 20, 21, 22, 23] ∧
      pt.quadOffsetTable.length ≠
        (patchCountOf exampleMeshG).gregory + (patchCountOf exampleMeshG).boundaryGregory := by
  refine ⟨by decide, rfl, by decide, ?_⟩
  obtain ⟨r, hr, hp⟩ := Create_adaptive default [exampleMeshG] (by simp) (by decide) (by decide)
  refine ⟨r, _, hr, hp, ?_, ?_⟩ <;> decide

/-- The quad-offset table after the loop is the first component of the loop on the table and
its two iterator positions. -/
theorem gregory_quad_fst (maxValence : Int) (vo : List Nat) (i : Nat) (ms : List FarMesh)
    (s : GregoryMerge) :
    (forEachFrom (splicePatchTables.gregory maxValence vo) i ms s).quadOffsetTable =
      (forEachFrom (fun _ m t => quadOffsetStep m t) i ms
        (s.quadOffsetTable, s.Q0_IT, s.Q1_IT)).1 :=
  congrArg Prod.fst (gregory_quad_proj maxValence vo i ms s)

/-- When every input's quad-offset table has one entry per index of its two gregory index
arrays, the gregory-interior and boundary-gregory entries of the inputs have the sizes of
those arrays. -/
theorem quad_segments_length (meshes : List FarMesh)
    (hq : ∀ m ∈ meshes, (ptablesOf m).quadOffsetTable.length =
      nGregoryQuadsOf m + nBoundaryGregoryQuadsOf m) :
    ((meshes.map gregoryQuadOffsetsOf).flatten).length = (meshes.map nGregoryQuadsOf).sum ∧
      ((meshes.map boundaryGregoryQuadOffsetsOf).flatten).length =
        (meshes.map nBoundaryGregoryQuadsOf).sum := by
  induction meshes with
  | nil => exact ⟨rfl, rfl⟩
  | cons m ms ih =>
    obtain ⟨h1, h2⟩ := ih (fun x hx => hq x (List.mem_cons_of_mem _ hx))
    have h := hq m (List.mem_cons_self _ _)
    have e1 : (gregoryQuadOffsetsOf m).length = nGregoryQuadsOf m := by
      rw [gregoryQuadOffsetsOf, List.length_take, h]
      omega
    have e2 : (boundaryGregoryQuadOffsetsOf m).length = nBoundaryGregoryQuadsOf m := by
      rw [boundaryGregoryQuadOffsetsOf, List.length_drop, h]
      omega
    simp only [List.map_cons, List.flatten_cons, List.length_append, List.sum_cons, h1, h2, e1,
      e2, and_self]

/-- When the aggregate summary counts a gregory-family patch and every input's quad-offset
table has one entry per index of its two gregory index arrays, the merged quad-offset table
is the inputs' gregory-interior entries followed by their boundary-gregory entries. -/
theorem splicePatchTables_quad (self : FarMultiMeshFactory) (meshes : List FarMesh)
    (hg : 0 < gregoryCountOf meshes)
    (hq : ∀ m ∈ meshes, (ptablesOf m).quadOffsetTable.length =
      nGregoryQuadsOf m + nBoundaryGregoryQuadsOf m) :
    (splicePatchTables self meshes).quadOffsetTable =
      (meshes.map gregoryQuadOffsetsOf).flatten ++
        (meshes.map boundaryGregoryQuadOffsetsOf).flatten := by
  obtain ⟨h1, h2⟩ := quad_segments_length meshes hq
  have hg2 : (meshes.map (fun m => (patchCountOf m).of PatchArray.full_G_IT)).sum * 4 +
      (meshes.map (fun m => (patchCountOf m).of PatchArray.full_G_B_IT)).sum * 4 > 0 := by
    have := gregoryCountOf_eq meshes
    omega
  simp only [splicePatchTables, forEach]
  rw [gregory_quad_fst]
  simp only [forEachFrom_patch_count, FarPatchCount.zero_of, Nat.zero_add, List.length_replicate,
    (forEachFrom_patch_count_quad _ _ _).1, (forEachFrom_patch_count_quad _ _ _).2,
    PatchArray.ringSize]
  rw [if_pos (decide_eq_true hg2)]
  have hinit : (List.replicate ((meshes.map nGregoryQuadsOf).sum +
        (meshes.map nBoundaryGregoryQuadsOf).sum) 0, 0, (meshes.map nGregoryQuadsOf).sum) =
      (([] : List Nat) ++ (List.replicate (meshes.map nGregoryQuadsOf).sum 0 ++
        (([] : List Nat) ++ List.replicate (meshes.map nBoundaryGregoryQuadsOf).sum 0)),
        ([] : List Nat).length,
        ([] : List Nat).length + (meshes.map nGregoryQuadsOf).sum + ([] : List Nat).length) := by
    refine Prod.ext ?_ (Prod.ext rfl ?_)
    · rw [List.replicate_add]
      rfl
    · simp only [List.length_nil, Nat.zero_add, Nat.add_zero]
  rw [hinit, forEachFrom_quad 0 meshes [] [] _ _ (by omega) (by omega), h1, h2]
  simp

/-- C18, as amended: in adaptive mode with a non-empty merged quad-offset table, when every
input's quad-offset table has one entry per index of its gregory and boundary-gregory
control-point arrays, the merged table is a first segment holding, in input order, each
input's gregory-interior entries, as many as the input's gregory control-point index array
has entries (four per gregory patch), immediately followed by a second segment holding, in
input order, each input's remaining (boundary-gregory) entries; the second segment begins
at the index equal to the total number of gregory-interior entries over all inputs. -/
theorem Create_quadOffsetTable (self : FarMultiMeshFactory) (meshes : List FarMesh)
    (hne : meshes ≠ []) (hom : Homogeneous meshes)
    (hadaptive : ∀ m ∈ meshes, m.patchTables.isSome = true)
    (hq : ∀ m ∈ meshes, (ptablesOf m).quadOffsetTable.length =
      nGregoryQuadsOf m + nBoundaryGregoryQuadsOf m) :
    ∃ r pt, (Create self meshes).1 = some (some r) ∧ r.patchTables = some pt ∧
      (pt.quadOffsetTable ≠ [] →
        pt.quadOffsetTable =
          concatMeshes meshes (fun _ m => gregoryQuadOffsetsOf m) ++
            concatMeshes meshes (fun _ m => boundaryGregoryQuadOffsetsOf m)) ∧
      (∀ m ∈ meshes, (gregoryQuadOffsetsOf m).length = nGregoryQuadsOf m) ∧
      (concatMeshes meshes (fun _ m => gregoryQuadOffsetsOf m)).length =
        (meshes.map nGregoryQuadsOf).sum := by
  obtain ⟨r, hr, hp⟩ := Create_adaptive self meshes hne hom hadaptive
  refine ⟨r, _, hr, hp, ?_, ?_, ?_⟩
  · intro hnonempty
    have hg : 0 < gregoryCountOf meshes := by
      by_contra hg
      apply hnonempty
      apply List.eq_nil_of_length_eq_zero
      rw [splicePatchTables_quad_length, if_neg hg]
    rw [concatMeshes_const, concatMeshes_const]
    exact splicePatchTables_quad _ meshes hg hq
  · intro m hm
    rw [gregoryQuadOffsetsOf, List.length_take, hq m hm]
    omega
  · rw [concatMeshes_const]
    exact (quad_segments_length meshes hq).1

/-- Witness of C18 as amended: the merged table of two meshes is the 4 gregory-interior
entries of each, then the 4 boundary-gregory entries of the first. -/
theorem Create_quadOffsetTable_witness :
    [exampleMeshG, exampleMeshH] ≠ [] ∧ Homogeneous [exampleMeshG, exampleMeshH] ∧
    (∀ m ∈ [exampleMeshG, exampleMeshH], m.patchTables.isSome = true) ∧
    (∀ m ∈ [exampleMeshG, exampleMeshH], (ptablesOf m).quadOffsetTable.length =
      nGregoryQuadsOf m + nBoundaryGregoryQuadsOf m) ∧
    ∃ r pt, (Create default [exampleMeshG, exampleMeshH]).1 = some (some r) ∧ r.patchTables = some pt ∧
      (pt.quadOffsetTable ≠ [] →
        pt.quadOffsetTable = [10, 11, 12, 13, 30, 31, 32, 33] ++ [20, 21, 22, 23]) := by
  have ha : ∀ m ∈ [exampleMeshG, exampleMeshH], m.patchTables.isSome = true := by decide
  have hq : ∀ m ∈ [exampleMeshG, exampleMeshH], (ptablesOf m).quadOffsetTable.length =
      nGregoryQuadsOf m + nBoundaryGregoryQuadsOf m := by decide
  refine ⟨by simp, by decide, ha, hq, ?_⟩
  obtain ⟨r, pt, hr, hp, h, -, -⟩ :=
    Create_quadOffsetTable default [exampleMeshG, exampleMeshH] (by simp) (by decide) ha hq
  exact ⟨r, pt, hr, hp, fun hne => h hne⟩

/-- Counterexample to C18 as stated: the first mesh has one gregory patch, but four entries
of its quad-offset table, not one, go to the first segment of the merged table. -/
theorem Create_quadOffsetTable_counterexample :
    Homogeneous [exampleMeshG, exampleMeshH] ∧
    (patchCountOf exampleMeshG).gregory = 1 ∧ (patchCountOf exampleMeshH).gregory = 1 ∧
    ∃ r pt, (Create default [exampleMeshG, exampleMeshH]).1 = some (some r) ∧ r.patchTables = some pt ∧
      pt.quadOffsetTable = [10, 11, 12, 13, 30, 31, 32, 33, 20, 21, 22, 23] ∧
      concatMeshes [exampleMeshG, exampleMeshH]
          (fun _ m => (ptablesOf m).quadOffsetTable.take (patchCountOf m).gregory) ++
        concatMeshes [exampleMeshG, exampleMeshH]
          (fun _ m => (ptablesOf m).quadOffsetTable.drop (patchCountOf m).gregory) =
        [10, 30, 11, 12, 13, 20, 21, 22, 23, 31, 32, 33] ∧
      pt.quadOffsetTable ≠
        concatMeshes [exampleMeshG, exampleMeshH]
            (fun _ m => (ptablesOf m).quadOffsetTable.take (patchCountOf m).gregory) ++
          concatMeshes [exampleMeshG, exampleMeshH]
            (fun _ m => (ptablesOf m).quadOffsetTable.drop (patchCountOf m).gregory) := by
  refine ⟨by decide, by decide, by decide, ?_⟩
  obtain ⟨r, hr, hp⟩ :=
    Create_adaptive default [exampleMeshG, exampleMeshH] (by simp) (by decide) (by decide)
  refine ⟨r, _, hr, hp, ?_, ?_, ?_⟩ <;> decide

/-! ### copyWithOffsetVertexValence -/

/-- The inner loop of `copyWithOffsetVertexValence` from slot `k` on, over a source whose
current record has `2*srcMaxValence` neighbor slots `ns`: it writes one value per slot and
consumes the slots of `ns` it passes. -/
theorem slots_range' (a : Int) (s : Nat) (offset : Int) (ns rest : List Int)
    (hns : ns.length = 2 * s) (n k : Nat) (dst : Iter Int) :
    (List.range' k n).foldl
        (fun (st : Iter Int × List Int) (i : Nat) =>
          if (i : Int) < 2 * (s : Int) then
            (st.1.put (if (i : Int) < 2 * a then st.2.headD 0 + offset else 0), st.2.tail)
          else
            (st.1.put 0, st.2))
        (dst, ns.drop k ++ rest) =
      (stdCopy ((List.range' k n).map
          (fun (i : Nat) => if i < 2 * s ∧ (i : Int) < 2 * a then ns.getD i 0 + offset else 0)) dst,
        ns.drop (k + n) ++ rest) := by
  induction n generalizing k dst with
  | zero => simp [stdCopy]
  | succ n ih =>
    rw [List.range'_succ, List.foldl_cons, List.map_cons, stdCopy_cons]
    by_cases hk : k < 2 * s
    · have hk2 : (k : Int) < 2 * (s : Int) := by omega
      have hlt : k < ns.length := by omega
      have hd : ns.drop k = ns.getD k 0 :: ns.drop (k + 1) := by
        rw [List.getD_eq_getElem?_getD, List.getElem?_eq_getElem hlt]
        exact List.drop_eq_getElem_cons hlt
      rw [if_pos hk2, hd]
      simp only [List.cons_append, List.headD_cons, List.tail_cons]
      rw [ih (k + 1), show k + 1 + n = k + (n + 1) by omega]
      simp only [hk, true_and]
    · have hk2 : ¬ (k : Int) < 2 * (s : Int) := by omega
      have hd : ns.drop k = ns.drop (k + 1) := by
        rw [List.drop_of_length_le (by omega), List.drop_of_length_le (by omega)]
      rw [if_neg hk2]
      simp only []
      rw [hd, ih (k + 1), show k + 1 + n = k + (n + 1) by omega]
      simp only [hk, false_and, if_false]

/-- The values the inner loop writes for one record are the copied slots rebased, then
zeros. -/
theorem slot_values (v : Int) (s d : Nat) (offset : Int) (ns : List Int)
    (hns : ns.length = 2 * s) (hsd : s ≤ d) :
    (List.range' 0 (2 * d)).map
        (fun (i : Nat) => if i < 2 * s ∧ (i : Int) < 2 * |v| then ns.getD i 0 + offset else 0) =
      (ns.take (copiedSlots v s)).map (fun x => x + offset) ++
        List.replicate (2 * d - copiedSlots v s) 0 := by
  have hm : copiedSlots v s ≤ 2 * s := by
    unfold copiedSlots
    omega
  apply List.ext_getElem?
  intro i
  have habs : |v| = (v.natAbs : Int) := Int.abs_eq_natAbs v
  by_cases hi : i < 2 * d
  · rw [List.getElem?_map, List.getElem?_range' _ _ hi]
    simp only [Nat.zero_add, Nat.one_mul, Option.map_some', habs]
    by_cases him : i < copiedSlots v s
    · have h1 : i < 2 * s ∧ (i : Int) < 2 * (v.natAbs : Int) := by
        unfold copiedSlots at him
        omega
      rw [if_pos h1, List.getElem?_append_left (by simp; omega), List.getElem?_map,
        List.getElem?_take_of_lt him, getElem?_eq_some_getD _ _ 0 (by omega)]
      rfl
    · have h1 : ¬ (i < 2 * s ∧ (i : Int) < 2 * (v.natAbs : Int)) := by
        unfold copiedSlots at him
        omega
      have hlen : ((ns.take (copiedSlots v s)).map (fun x => x + offset)).length =
          copiedSlots v s := by
        simp
        omega
      rw [if_neg h1, List.getElem?_append_right (by omega), hlen,
        List.getElem?_replicate]
      rw [if_pos (by omega)]
  · have hlen : ((ns.take (copiedSlots v s)).map (fun x => x + offset) ++
        List.replicate (2 * d - copiedSlots v s) (0 : Int)).length = 2 * d := by
      simp
      omega
    rw [List.getElem?_eq_none (by simp; omega), List.getElem?_eq_none (by omega)]

/-- The inner loop on a source that starts with the `2*srcMaxValence` neighbor slots of the
current record: it writes the copied slots rebased and then zeros, `2*dstMaxValence` values
in all, and leaves the source at the next record. -/
theorem slots_record (v : Int) (s d : Nat) (offset : Int) (ns rest : List Int)
    (hns : ns.length = 2 * s) (hsd : s ≤ d) (dst : Iter Int) :
    copyWithOffsetVertexValence.slots |v| (s : Int) (d : Int) offset (dst, ns ++ rest) =
      (stdCopy ((ns.take (copiedSlots v s)).map (fun x => x + offset) ++
        List.replicate (2 * d - copiedSlots v s) 0) dst, rest) := by
  unfold copyWithOffsetVertexValence.slots
  have e : (2 * (d : Int)).toNat = 2 * d := by omega
  have h := slots_range' |v| s offset ns rest hns (2 * d) 0 dst
  rw [List.drop_zero, Nat.zero_add, List.drop_of_length_le (by omega), List.nil_append,
    slot_values v s d offset ns hns hsd] at h
  rw [e, List.range_eq_range']
  exact h

/-- Length of the destination record of a source record. -/
theorem length_emittedRecord (s d : Nat) (offset : Int) (r : Int × List Int)
    (hr : r.2.length = 2 * s) (hsd : s ≤ d) :
    (emittedRecord s d offset r).length = 1 + 2 * d := by
  have hm : copiedSlots r.1 s ≤ 2 * s := by
    unfold copiedSlots
    omega
  simp only [emittedRecord, List.length_cons, List.length_append, List.length_map,
    List.length_take, List.length_replicate, hr]
  omega

/-- The outer loop with enough iterations emits one destination record per source record. -/
theorem loop_records (s d : Nat) (offset : Int) (hsd : s ≤ d) (recs : List (Int × List Int))
    (hrec : ∀ r ∈ recs, r.2.length = 2 * s) (fuel : Nat) (hf : recs.length ≤ fuel)
    (dst : Iter Int) :
    copyWithOffsetVertexValence.loop (s : Int) (d : Int) offset fuel dst (flattenRecords recs) =
      stdCopy ((recs.map (emittedRecord s d offset)).flatten) dst := by
  induction recs generalizing fuel dst with
  | nil => cases fuel <;> rfl
  | cons r recs ih =>
    cases fuel with
    | zero => simp at hf
    | succ fuel =>
      obtain ⟨v, ns⟩ := r
      have hns : ns.length = 2 * s := hrec (v, ns) (List.mem_cons_self _ _)
      have e : flattenRecords ((v, ns) :: recs) = v :: (ns ++ flattenRecords recs) := by
        simp [flattenRecords]
      rw [e, copyWithOffsetVertexValence.loop]
      simp only [slots_record v s d offset ns _ hns hsd]
      rw [ih (fun x hx => hrec x (List.mem_cons_of_mem _ hx)) fuel (by simpa using hf)]
      simp only [List.map_cons, List.flatten_cons, emittedRecord, stdCopy_append, stdCopy_cons,
        List.cons_append]

/-- A flat table has at least as many entries as records. -/
theorem length_le_flattenRecords (recs : List (Int × List Int)) :
    recs.length ≤ (flattenRecords recs).length := by
  induction recs with
  | nil => simp
  | cons r recs ih =>
    simp only [flattenRecords, List.map_cons, List.flatten_cons, List.length_cons,
      List.length_append] at ih ⊢
    omega

/-- C17: on a source table made of records of `1 + 2*srcMaxValence` entries, with
`srcMaxValence ≤ dstMaxValence`, `copyWithOffsetVertexValence` emits for each source record
one record of `1 + 2*dstMaxValence` entries: the signed valence unchanged, then the first
`min(2*|valence|, 2*srcMaxValence)` neighbor slots of the source each increased by the
offset, then zeros in every remaining slot. -/
theorem copyWithOffsetVertexValence_records (dst_iterator : Iter Int)
    (recs : List (Int × List Int)) (srcMaxValence dstMaxValence : Nat) (offset : Int)
    (hsd : srcMaxValence ≤ dstMaxValence)
    (hrec : ∀ r ∈ recs, r.2.length = 2 * srcMaxValence) :
    copyWithOffsetVertexValence dst_iterator (flattenRecords recs) (srcMaxValence : Int)
        (dstMaxValence : Int) offset =
      stdCopy ((recs.map (emittedRecord srcMaxValence dstMaxValence offset)).flatten)
        dst_iterator ∧
    ∀ r ∈ recs, (emittedRecord srcMaxValence dstMaxValence offset r).length =
      1 + 2 * dstMaxValence :=
  ⟨loop_records srcMaxValence dstMaxValence offset hsd recs hrec _
      (length_le_flattenRecords recs) dst_iterator,
    fun r hr => length_emittedRecord srcMaxValence dstMaxValence offset r (hrec r hr) hsd⟩

/-- Witness of C17: two records of max valence 2 copied for max valence 3 with offset 1
into a zero-filled vector of 14 entries. -/
theorem copyWithOffsetVertexValence_records_witness :
    (2 : Nat) ≤ 3 ∧ (∀ r ∈ [((2 : Int), [(1 : Int), 1, 0, 0]), (1, [0, 1, 0, 0])], r.2.length = 2 * 2) ∧
    (copyWithOffsetVertexValence { buf := List.replicate 14 0, pos := 0 }
      (flattenRecords [(2, [1, 1, 0, 0]), (1, [0, 1, 0, 0])]) 2 3 1).buf =
      [2, 2, 2, 1, 1, 0, 0, 1, 1, 2, 0, 0, 0, 0] := by
  have h : ∀ r ∈ [((2 : Int), [(1 : Int), 1, 0, 0]), (1, [0, 1, 0, 0])], r.2.length = 2 * 2 := by
    decide
  refine ⟨by decide, h, ?_⟩
  have := (copyWithOffsetVertexValence_records { buf := List.replicate 14 0, pos := 0 }
    [(2, [1, 1, 0, 0]), (1, [0, 1, 0, 0])] 2 3 1 (by decide) h).1
  simp only [Nat.cast_ofNat] at this
  rw [this]
  decide

/-! ### The vertex-valence table -/

theorem KeepsBelow.refl {α : Type} (a : Iter α) : KeepsBelow a a :=
  ⟨rfl, Nat.le_refl _, fun _ _ => rfl⟩

theorem KeepsBelow.trans {α : Type} {a b c : Iter α} (h1 : KeepsBelow a b) (h2 : KeepsBelow b c) :
    KeepsBelow a c :=
  ⟨h2.1.trans h1.1, Nat.le_trans h1.2.1 h2.2.1,
    fun k hk => (h2.2.2 k (Nat.lt_of_lt_of_le hk h1.2.1)).trans (h1.2.2 k hk)⟩

/-- A write touches no slot before the iterator's position. -/
theorem KeepsBelow.put {α : Type} (it : Iter α) (v : α) : KeepsBelow it (it.put v) := by
  refine ⟨by simp [Iter.put], by simp [Iter.put], ?_⟩
  intro k hk
  simp only [Iter.put]
  rw [List.getElem?_set_ne (by omega)]

/-- The inner loop of `copyWithOffsetVertexValence` touches no slot before the iterator's
position. -/
theorem KeepsBelow.slots (valence srcMaxValence dstMaxValence offset : Int)
    (st : Iter Int × List Int) :
    KeepsBelow st.1
      (copyWithOffsetVertexValence.slots valence srcMaxValence dstMaxValence offset st).1 := by
  unfold copyWithOffsetVertexValence.slots
  generalize List.range (2 * dstMaxValence).toNat = l
  induction l generalizing st with
  | nil => exact KeepsBelow.refl _
  | cons i l ih =>
    rw [List.foldl_cons]
    refine KeepsBelow.trans ?_ (ih _)
    split_ifs <;> exact KeepsBelow.put _ _

/-- The outer loop of `copyWithOffsetVertexValence` touches no slot before the iterator's
position. -/
theorem KeepsBelow.loop (srcMaxValence dstMaxValence offset : Int) (fuel : Nat)
    (dst : Iter Int) (src : List Int) :
    KeepsBelow dst
      (copyWithOffsetVertexValence.loop srcMaxValence dstMaxValence offset fuel dst src) := by
  induction fuel generalizing dst src with
  | zero => exact KeepsBelow.refl _
  | succ fuel ih =>
    cases src with
    | nil => exact KeepsBelow.refl _
    | cons valence it =>
      rw [copyWithOffsetVertexValence.loop]
      exact KeepsBelow.trans
        (KeepsBelow.trans (KeepsBelow.put dst valence)
          (KeepsBelow.slots |valence| srcMaxValence dstMaxValence offset (dst.put valence, it)))
        (ih _ _)

/-- One iteration on the valence-table iterator touches no slot before its position. -/
theorem KeepsBelow.step (maxValence : Int) (vo : List Nat) (i : Nat) (m : FarMesh)
    (it : Iter Int) : KeepsBelow it (vertexValenceStep maxValence vo i m it) := by
  have h := KeepsBelow.loop (ptablesOf m).maxValence maxValence (vo.getD i 0 : Nat)
    (ptablesOf m).vertexValenceTable.length it (ptablesOf m).vertexValenceTable
  exact ⟨h.1, Nat.le_add_right _ _, h.2.2⟩

/-- The iterations over a list of meshes touch no slot before the position they start at. -/
theorem KeepsBelow.forEachFrom (maxValence : Int) (vo : List Nat) (i : Nat) (ms : List FarMesh)
    (it : Iter Int) :
    KeepsBelow it (forEachFrom (vertexValenceStep maxValence vo) i ms it) := by
  induction ms generalizing i it with
  | nil => exact KeepsBelow.refl _
  | cons m ms ih =>
    exact KeepsBelow.trans (KeepsBelow.step maxValence vo i m it) (ih _ _)

/-- The valence-table iterator advances by a whole slice per mesh. -/
theorem forEachFrom_vertexValenceStep_pos (maxValence : Int) (vo : List Nat) (i : Nat)
    (ms : List FarMesh) (it : Iter Int) :
    (forEachFrom (vertexValenceStep maxValence vo) i ms it).pos =
      it.pos + (ms.map
        (fun m => ((m.GetNumVertices : Int) * (2 * maxValence + 1)).toNat)).sum := by
  induction ms generalizing i it with
  | nil => rfl
  | cons m ms ih =>
    simp only [forEachFrom, ih, vertexValenceStep, List.map_cons, List.sum_cons, Nat.add_assoc]

/-- The part of the loop "merge vertexvalence and quadoffset tables" that concerns the
valence table evolves on its own. -/
theorem gregory_vv_proj (maxValence : Int) (vo : List Nat) (i : Nat) (ms : List FarMesh)
    (s : GregoryMerge) :
    (forEachFrom (splicePatchTables.gregory maxValence vo) i ms s).VV_IT =
      forEachFrom (vertexValenceStep maxValence vo) i ms s.VV_IT :=
  forEachFrom_proj (fun s : GregoryMerge => s.VV_IT)
    (splicePatchTables.gregory maxValence vo) (vertexValenceStep maxValence vo)
    (fun _ _ _ => rfl) i ms s

/-- A loop over a list split in two runs over the first part and then over the second. -/
theorem forEachFrom_append {μ σ : Type} (body : Nat → μ → σ → σ) (i : Nat) (xs ys : List μ)
    (s : σ) :
    forEachFrom body i (xs ++ ys) s = forEachFrom body (i + xs.length) ys (forEachFrom body i xs s) := by
  induction xs generalizing i s with
  | nil => rfl
  | cons x xs ih =>
    show forEachFrom body (i + 1) (xs ++ ys) (body i x s) =
      forEachFrom body (i + (xs.length + 1)) ys (forEachFrom body (i + 1) xs (body i x s))
    rw [ih, show i + 1 + xs.length = i + (xs.length + 1) by omega]

/-- Slot `j` of record `v` in a concatenation of records of one size. -/
theorem getElem?_flatten_uniform {α : Type} (L : List (List α)) (S : Nat)
    (hL : ∀ l ∈ L, l.length = S) (v j : Nat) (hv : v < L.length) (hj : j < S) :
    L.flatten[v * S + j]? = (L.getD v [])[j]? := by
  induction L generalizing v with
  | nil => simp at hv
  | cons l L ih =>
    have hl : l.length = S := hL l (List.mem_cons_self _ _)
    cases v with
    | zero =>
      simp only [Nat.zero_mul, Nat.zero_add, List.flatten_cons, List.getD_cons_zero]
      rw [List.getElem?_append_left (by omega)]
    | succ v =>
      simp only [List.length_cons, Nat.add_lt_add_iff_right] at hv
      simp only [List.flatten_cons, List.getD_cons_succ]
      rw [List.getElem?_append_right (by rw [hl, Nat.succ_mul]; omega)]
      have e : (v + 1) * S + j - l.length = v * S + j := by
        rw [hl, Nat.succ_mul]
        omega
      rw [e, ih (fun x hx => hL x (List.mem_cons_of_mem _ hx)) v hv]

/-- Size of a concatenation of records of one size. -/
theorem length_flatten_uniform {α : Type} (L : List (List α)) (S : Nat)
    (hL : ∀ l ∈ L, l.length = S) : L.flatten.length = L.length * S := by
  induction L with
  | nil => simp
  | cons l L ih =>
    rw [List.flatten_cons, List.length_append, hL l (List.mem_cons_self _ _),
      ih (fun x hx => hL x (List.mem_cons_of_mem _ hx)), List.length_cons, Nat.succ_mul,
      Nat.add_comm]

/-- A list is its first `i` elements, its element `i`, and the rest. -/
theorem eq_take_cons_drop {α : Type} (l : List α) (i : Nat) (d : α) (hi : i < l.length) :
    l = l.take i ++ l.getD i d :: l.drop (i + 1) := by
  rw [List.getD_eq_getElem?_getD, List.getElem?_eq_getElem hi]
  simp only [Option.getD_some]
  rw [← List.drop_eq_getElem_cons hi, List.take_append_drop]

/-- The sum over the meshes up to and including mesh `i` is at most the sum over all. -/
theorem vertexOffsetOf_add_le (meshes : List FarMesh) (i : Nat) (hi : i < meshes.length) :
    vertexOffsetOf meshes i + (meshes.getD i default).GetNumVertices ≤
      (meshes.map FarMesh.GetNumVertices).sum := by
  have h1 := sum_take_succ_getD FarMesh.GetNumVertices meshes default i hi
  have h2 := List.sum_take_add_sum_drop (meshes.map FarMesh.GetNumVertices) (i + 1)
  rw [← List.map_take] at h2
  unfold vertexOffsetOf
  omega

/-- The slice size of a mesh in the merged valence table. -/
theorem slice_toNat (nv M : Nat) :
    ((nv : Int) * (2 * (M : Int) + 1)).toNat = nv * (2 * M + 1) := by
  rw [show (nv : Int) * (2 * (M : Int) + 1) = ((nv * (2 * M + 1) : Nat) : Int) by
    push_cast
    ring]
  exact Int.toNat_natCast _

/-- After the meshes before `i` the valence-table iterator stands at the start of mesh
`i`'s slice. -/
theorem pos_after_take (M : Nat) (vo : List Nat) (meshes : List FarMesh) (i : Nat)
    (it : Iter Int) :
    (forEachFrom (vertexValenceStep (M : Int) vo) 0 (meshes.take i) it).pos =
      it.pos + vertexOffsetOf meshes i * (2 * M + 1) := by
  rw [forEachFrom_vertexValenceStep_pos]
  congr 1
  unfold vertexOffsetOf
  generalize meshes.take i = l
  induction l with
  | nil => simp
  | cons m l ih =>
    rw [List.map_cons, List.sum_cons, ih, slice_toNat, List.map_cons, List.sum_cons, Nat.add_mul]

/-- On a well-formed source table `copyWithOffsetVertexValence` copies the destination
records of the source records. -/
theorem copyWithOffsetVertexValence_eq_stdCopy (it : Iter Int) (recs : List (Int × List Int))
    (s d : Nat) (offset : Int) (hsd : s ≤ d) (hrec : ∀ r ∈ recs, r.2.length = 2 * s) :
    copyWithOffsetVertexValence it (flattenRecords recs) (s : Int) (d : Int) offset =
      stdCopy ((recs.map (emittedRecord s d offset)).flatten) it :=
  loop_records s d offset hsd recs hrec _ (length_le_flattenRecords recs) it

/-- In the merged valence table the record of vertex `v` of mesh `i` is the destination
record of the mesh's source record, whatever the other meshes' tables hold. -/
theorem vertexValence_record (M : Nat) (vo : List Nat) (meshes : List FarMesh) (i : Nat)
    (hi : i < meshes.length) (L : Nat) (recs : List (Int × List Int))
    (hL : (ptablesOf (meshes.getD i default)).maxValence = (L : Int)) (hLM : L ≤ M)
    (htbl : (ptablesOf (meshes.getD i default)).vertexValenceTable = flattenRecords recs)
    (hrec : ∀ r ∈ recs, r.2.length = 2 * L)
    (hnum : recs.length = (meshes.getD i default).GetNumVertices)
    (hvo : vo.getD i 0 = vertexOffsetOf meshes i) (buf0 : List Int)
    (hbuf : buf0.length = (2 * M + 1) * (meshes.map FarMesh.GetNumVertices).sum)
    (v j : Nat) (hv : v < (meshes.getD i default).GetNumVertices) (hj : j < 2 * M + 1) :
    (forEachFrom (vertexValenceStep (M : Int) vo) 0 meshes { buf := buf0, pos := 0 }).buf[
        (vertexOffsetOf meshes i + v) * (2 * M + 1) + j]? =
      (emittedRecord L M (vertexOffsetOf meshes i : Nat) (recs.getD v default))[j]? := by
  -- split the loop at mesh `i`
  have hsplit := eq_take_cons_drop meshes i default hi
  have hloop : forEachFrom (vertexValenceStep (M : Int) vo) 0 meshes { buf := buf0, pos := 0 } =
      forEachFrom (vertexValenceStep (M : Int) vo) (i + 1) (meshes.drop (i + 1))
        (vertexValenceStep (M : Int) vo i (meshes.getD i default)
          (forEachFrom (vertexValenceStep (M : Int) vo) 0 (meshes.take i)
            { buf := buf0, pos := 0 })) := by
    conv_lhs => rw [hsplit]
    rw [forEachFrom_append]
    simp only [forEachFrom, Nat.zero_add, List.length_take, Nat.min_eq_left (Nat.le_of_lt hi)]
  rw [hloop]
  -- the state when mesh `i` is reached
  have hpos1 := pos_after_take M vo meshes i { buf := buf0, pos := 0 }
  have hkeep1 := KeepsBelow.forEachFrom (M : Int) vo 0 (meshes.take i) { buf := buf0, pos := 0 }
  generalize forEachFrom (vertexValenceStep (M : Int) vo) 0 (meshes.take i)
    { buf := buf0, pos := 0 } = it1 at hpos1 hkeep1 ⊢
  simp only [Nat.zero_add] at hpos1
  have hlen1 : it1.buf.length = (2 * M + 1) * (meshes.map FarMesh.GetNumVertices).sum := by
    rw [hkeep1.1, hbuf]
  -- the records mesh `i` writes
  have hE : ∀ l ∈ recs.map (emittedRecord L M (vertexOffsetOf meshes i : Nat)),
      l.length = 2 * M + 1 := by
    intro l hl
    rw [List.mem_map] at hl
    obtain ⟨r, hr, rfl⟩ := hl
    rw [length_emittedRecord L M _ r (hrec r hr) hLM, Nat.add_comm]
  have hElen := length_flatten_uniform _ _ hE
  rw [List.length_map, hnum] at hElen
  have hsum := vertexOffsetOf_add_le meshes i hi
  have hmul1 : (vertexOffsetOf meshes i + (meshes.getD i default).GetNumVertices) * (2 * M + 1) ≤
      (meshes.map FarMesh.GetNumVertices).sum * (2 * M + 1) := Nat.mul_le_mul_right _ hsum
  have hmul2 : (v + 1) * (2 * M + 1) ≤ (meshes.getD i default).GetNumVertices * (2 * M + 1) :=
    Nat.mul_le_mul_right _ hv
  rw [Nat.add_mul] at hmul1
  rw [Nat.add_mul, Nat.one_mul] at hmul2
  have hcomm : (2 * M + 1) * (meshes.map FarMesh.GetNumVertices).sum =
      (meshes.map FarMesh.GetNumVertices).sum * (2 * M + 1) := Nat.mul_comm _ _
  -- the state after mesh `i`
  have hbuf2 : (vertexValenceStep (M : Int) vo i (meshes.getD i default) it1).buf =
      it1.buf.take it1.pos ++
        (recs.map (emittedRecord L M (vertexOffsetOf meshes i : Nat))).flatten ++
        it1.buf.drop (it1.pos +
          ((recs.map (emittedRecord L M (vertexOffsetOf meshes i : Nat))).flatten).length) := by
    simp only [vertexValenceStep, htbl, hL, hvo]
    rw [copyWithOffsetVertexValence_eq_stdCopy it1 recs L M _ hLM hrec, stdCopy_buf]
    rw [hElen, hlen1, hpos1]
    omega
  have hpos2 : (vertexValenceStep (M : Int) vo i (meshes.getD i default) it1).pos =
      it1.pos + (meshes.getD i default).GetNumVertices * (2 * M + 1) := by
    simp only [vertexValenceStep, slice_toNat]
  have hkeep3 := KeepsBelow.forEachFrom (M : Int) vo (i + 1) (meshes.drop (i + 1))
    (vertexValenceStep (M : Int) vo i (meshes.getD i default) it1)
  have hq : (vertexOffsetOf meshes i + v) * (2 * M + 1) + j =
      it1.pos + (v * (2 * M + 1) + j) := by
    rw [hpos1, Nat.add_mul]
    omega
  rw [hkeep3.2.2 _ (by rw [hpos2, hq]; omega), hbuf2, hq]
  have htake : (it1.buf.take it1.pos).length = it1.pos := by
    rw [List.length_take, hlen1, hpos1]
    omega
  rw [List.getElem?_append_left (by rw [List.length_append, htake, hElen]; omega),
    List.getElem?_append_right (by rw [htake]; omega), htake,
    show it1.pos + (v * (2 * M + 1) + j) - it1.pos = v * (2 * M + 1) + j by omega,
    getElem?_flatten_uniform _ _ hE v j (by rw [List.length_map, hnum]; exact hv) hj]
  congr 1
  rw [List.getD_eq_getElem?_getD, List.getElem?_map,
    getElem?_eq_some_getD recs v default (by rw [hnum]; exact hv)]
  rfl

/-- The entries of a destination record. -/
theorem getElem?_emittedRecord (s d : Nat) (offset : Int) (r : Int × List Int)
    (hr : r.2.length = 2 * s) :
    (emittedRecord s d offset r)[0]? = some r.1 ∧
    (∀ k, k < copiedSlots r.1 s →
      (emittedRecord s d offset r)[1 + k]? = some (r.2.getD k 0 + offset)) ∧
    (∀ k, copiedSlots r.1 s ≤ k → k < 2 * d → (emittedRecord s d offset r)[1 + k]? = some 0) := by
  have hm : copiedSlots r.1 s ≤ 2 * s := by
    unfold copiedSlots
    omega
  have hlen : ((r.2.take (copiedSlots r.1 s)).map (fun x => x + offset)).length =
      copiedSlots r.1 s := by
    rw [List.length_map, List.length_take, hr]
    omega
  refine ⟨by simp [emittedRecord], ?_, ?_⟩
  · intro k hk
    rw [emittedRecord, Nat.add_comm 1 k, List.getElem?_cons_succ,
      List.getElem?_append_left (by omega), List.getElem?_map, List.getElem?_take_of_lt hk,
      getElem?_eq_some_getD r.2 k 0 (by omega)]
    rfl
  · intro k hk1 hk2
    rw [emittedRecord, Nat.add_comm 1 k, List.getElem?_cons_succ,
      List.getElem?_append_right (by omega), hlen, List.getElem?_replicate,
      if_pos (by omega)]

/-- The max valence the counting loop of `splicePatchTables` computes. -/
theorem forEachFrom_patch_count_maxValence (i : Nat) (ms : List FarMesh) (s : PatchTotals) :
    (forEachFrom splicePatchTables.count i ms s).maxValence =
      ms.foldl (fun x m => max x (ptablesOf m).maxValence) s.maxValence := by
  induction ms generalizing i s with
  | nil => rfl
  | cons m ms ih => simp only [forEachFrom, ih, splicePatchTables.count, List.foldl_cons]

/-- The final vertex offset of the counting loop of `splicePatchTables`. -/
theorem forEachFrom_patch_count_vertexOffset (i : Nat) (ms : List FarMesh) (s : PatchTotals) :
    (forEachFrom splicePatchTables.count i ms s).vertexOffset =
      s.vertexOffset + (ms.map FarMesh.GetNumVertices).sum := by
  rw [forEachFrom_proj (fun s : PatchTotals => s.vertexOffset) splicePatchTables.count
    (fun _ m n => n + m.GetNumVertices) (fun _ _ _ => rfl)]
  exact forEachFrom_add _ i ms _

theorem mergedMaxValence_nonneg (meshes : List FarMesh) : 0 ≤ mergedMaxValence meshes :=
  (foldl_max_spec (fun m : FarMesh => (ptablesOf m).maxValence) meshes 0).1

/-- In a merge that allocates the valence table, the record of vertex `v` of a mesh `i`
whose own table is made of one well-formed record per vertex is the destination record of
the mesh's source record. -/
theorem splicePatchTables_vertexValence (self : FarMultiMeshFactory) (meshes : List FarMesh)
    (hg : 0 < gregoryCountOf meshes) (i : Nat) (hi : i < meshes.length) (L : Nat)
    (recs : List (Int × List Int))
    (hL : (ptablesOf (meshes.getD i default)).maxValence = (L : Int))
    (hLM : L ≤ (mergedMaxValence meshes).toNat)
    (htbl : (ptablesOf (meshes.getD i default)).vertexValenceTable = flattenRecords recs)
    (hrec : ∀ r ∈ recs, r.2.length = 2 * L)
    (hnum : recs.length = (meshes.getD i default).GetNumVertices)
    (v j : Nat) (hv : v < (meshes.getD i default).GetNumVertices)
    (hj : j < 2 * (mergedMaxValence meshes).toNat + 1) :
    (splicePatchTables self meshes).vertexValenceTable[
        (vertexOffsetOf meshes i + v) * (2 * (mergedMaxValence meshes).toNat + 1) + j]? =
      (emittedRecord L (mergedMaxValence meshes).toNat (vertexOffsetOf meshes i : Nat)
        (recs.getD v default))[j]? := by
  have hg2 : (meshes.map (fun m => (patchCountOf m).of PatchArray.full_G_IT)).sum * 4 +
      (meshes.map (fun m => (patchCountOf m).of PatchArray.full_G_B_IT)).sum * 4 > 0 := by
    have := gregoryCountOf_eq meshes
    omega
  have hM : mergedMaxValence meshes = ((mergedMaxValence meshes).toNat : Int) :=
    (Int.toNat_of_nonneg (mergedMaxValence_nonneg meshes)).symm
  have hMc : (forEachFrom splicePatchTables.count 0 meshes
      { total_quadOffset0 := 0, total_quadOffset1 := 0, vertexOffsets := [], vertexOffset := 0,
        maxValence := 0, patchCounts := (FarPatchTables.new self.maxvalence).patchCounts,
        totalCount := FarPatchCount.zero }).maxValence =
      ((mergedMaxValence meshes).toNat : Int) := by
    rw [forEachFrom_patch_count_maxValence, ← hM]
    rfl
  simp only [splicePatchTables, forEach]
  rw [gregory_vv_proj]
  simp only [forEachFrom_patch_count, FarPatchCount.zero_of, Nat.zero_add, List.length_replicate,
    PatchArray.ringSize, forEachFrom_patch_count_vertexOffset, hMc]
  rw [if_pos (decide_eq_true hg2)]
  apply vertexValence_record (mergedMaxValence meshes).toNat _ meshes i hi L recs hL hLM htbl
    hrec hnum _ _ _ v j hv hj
  · have := patch_count_vertexOffsets meshes (FarPatchTables.new self.maxvalence).patchCounts i hi
    rw [forEach] at this
    exact this
  · rw [List.length_replicate]
    have e : (2 * ((mergedMaxValence meshes).toNat : Int) + 1) *
        (((meshes.map FarMesh.GetNumVertices).sum : Nat) : Int) =
        (((2 * (mergedMaxValence meshes).toNat + 1) *
          (meshes.map FarMesh.GetNumVertices).sum : Nat) : Int) := by
      push_cast
      ring
    rw [e, Int.toNat_natCast]

/-- C11, as amended: in a merge that contains gregory-family patches, for every input mesh
`i` whose own max valence is smaller than the merged max valence `M` and whose valence table
holds one record of `1 + 2*localMaxValence` entries per vertex, and for every vertex `v` of
that mesh, the merged record starting at index `(vertexOffset_i + v) * (2*M + 1)` holds the
signed valence, then in its first `min(2*|valence|, 2*localMaxValence)` neighbor slots the
original record's neighbor values increased by mesh `i`'s vertex offset, and zero in every
other neighbor slot up to `2*M - 1`, the trailing slots `2*localMaxValence .. 2*M - 1`
included. -/
theorem Create_vertexValence (self : FarMultiMeshFactory) (meshes : List FarMesh)
    (hne : meshes ≠ []) (hom : Homogeneous meshes)
    (hadaptive : ∀ m ∈ meshes, m.patchTables.isSome = true)
    (hg : 0 < gregoryCountOf meshes) (i : Nat) (hi : i < meshes.length) (L : Nat)
    (recs : List (Int × List Int))
    (hL : (ptablesOf (meshes.getD i default)).maxValence = (L : Int))
    (hlt : (L : Int) < mergedMaxValence meshes)
    (htbl : (ptablesOf (meshes.getD i default)).vertexValenceTable = flattenRecords recs)
    (hrec : ∀ r ∈ recs, r.2.length = 2 * L)
    (hnum : recs.length = (meshes.getD i default).GetNumVertices) :
    ∃ r pt, (Create self meshes).1 = some (some r) ∧ r.patchTables = some pt ∧
      ∀ v, v < (meshes.getD i default).GetNumVertices →
        pt.vertexValenceTable[
            (vertexOffsetOf meshes i + v) * (2 * (mergedMaxValence meshes).toNat + 1)]? =
          some (recs.getD v default).1 ∧
        (∀ k, k < copiedSlots (recs.getD v default).1 L →
          pt.vertexValenceTable[
              (vertexOffsetOf meshes i + v) * (2 * (mergedMaxValence meshes).toNat + 1) +
                (1 + k)]? =
            some ((recs.getD v default).2.getD k 0 + (vertexOffsetOf meshes i : Int))) ∧
        (∀ k, copiedSlots (recs.getD v default).1 L ≤ k →
          k < 2 * (mergedMaxValence meshes).toNat →
          pt.vertexValenceTable[
              (vertexOffsetOf meshes i + v) * (2 * (mergedMaxValence meshes).toNat + 1) +
                (1 + k)]? = some 0) := by
  obtain ⟨r, hr, hp⟩ := Create_adaptive self meshes hne hom hadaptive
  refine ⟨r, _, hr, hp, ?_⟩
  intro v hv
  have hLM : L ≤ (mergedMaxValence meshes).toNat := by omega
  have hmem : recs.getD v default ∈ recs := by
    rw [List.getD_eq_getElem?_getD, List.getElem?_eq_getElem (by rw [hnum]; exact hv)]
    exact List.getElem_mem _
  obtain ⟨e0, e1, e2⟩ := getElem?_emittedRecord L (mergedMaxValence meshes).toNat
    (vertexOffsetOf meshes i : Nat) (recs.getD v default) (hrec _ hmem)
  have hm : copiedSlots (recs.getD v default).1 L ≤ 2 * L := by
    unfold copiedSlots
    omega
  refine ⟨?_, ?_, ?_⟩
  · have h := splicePatchTables_vertexValence (Create self meshes).2 meshes hg i hi L recs hL hLM
      htbl hrec hnum v 0 hv (by omega)
    rw [Nat.add_zero] at h
    rw [h, e0]
  · intro k hk
    rw [splicePatchTables_vertexValence (Create self meshes).2 meshes hg i hi L recs hL hLM
      htbl hrec hnum v (1 + k) hv (by omega), e1 k hk]
  · intro k hk1 hk2
    rw [splicePatchTables_vertexValence (Create self meshes).2 meshes hg i hi L recs hL hLM
      htbl hrec hnum v (1 + k) hv (by omega), e2 k hk1 hk2]

/-- Witness of C11 as amended: the second mesh, of max valence 2 and vertex offset 1, in a
merge of max valence 3; the record of its vertex 1 (valence 1, neighbors `0, 1`) starts at
index 14 and reads `1, 1, 2, 0, 0, 0, 0`. -/
theorem Create_vertexValence_witness :
    [exampleMeshH, exampleMeshG] ≠ [] ∧ Homogeneous [exampleMeshH, exampleMeshG] ∧
    (∀ m ∈ [exampleMeshH, exampleMeshG], m.patchTables.isSome = true) ∧
    0 < gregoryCountOf [exampleMeshH, exampleMeshG] ∧
    ((2 : Nat) : Int) < mergedMaxValence [exampleMeshH, exampleMeshG] ∧
    ∃ r pt, (Create default [exampleMeshH, exampleMeshG]).1 = some (some r) ∧ r.patchTables = some pt ∧
      pt.vertexValenceTable[14]? = some 1 ∧
      pt.vertexValenceTable[15]? = some 1 ∧
      pt.vertexValenceTable[16]? = some 2 ∧
      pt.vertexValenceTable[17]? = some 0 ∧
      pt.vertexValenceTable[20]? = some 0 := by
  have ha : ∀ m ∈ [exampleMeshH, exampleMeshG], m.patchTables.isSome = true := by decide
  have hg : 0 < gregoryCountOf [exampleMeshH, exampleMeshG] := by decide
  have hlt : ((2 : Nat) : Int) < mergedMaxValence [exampleMeshH, exampleMeshG] := by decide
  refine ⟨by simp, by decide, ha, hg, hlt, ?_⟩
  obtain ⟨r, pt, hr, hp, h⟩ :=
    Create_vertexValence default [exampleMeshH, exampleMeshG] (by simp) (by decide) ha hg 1
      (by decide) 2 [(2, [1, 1, 0, 0]), (1, [0, 1, 0, 0])] rfl hlt rfl (by decide) rfl
  obtain ⟨h0, h1, h2⟩ := h 1 (by decide)
  refine ⟨r, pt, hr, hp, h0, ?_, ?_, ?_, ?_⟩
  · exact h1 0 (by decide)
  · exact h1 1 (by decide)
  · exact h2 2 (by decide) (by decide)
  · exact h2 5 (by decide) (by decide)

/-- Counterexample to C11 as stated: in the same merge, vertex 1 of the second mesh has
valence 1, so of its four leading neighbor slots only the first two are copied; the third
holds 0 in the source and 0 in the merged record at index 14 + 1 + 2, not 0 plus the
mesh's vertex offset 1. -/
theorem Create_vertexValence_counterexample :
    Homogeneous [exampleMeshH, exampleMeshG] ∧
    0 < gregoryCountOf [exampleMeshH, exampleMeshG] ∧
    (ptablesOf exampleMeshG).maxValence = 2 ∧
    mergedMaxValence [exampleMeshH, exampleMeshG] = 3 ∧
    vertexOffsetOf [exampleMeshH, exampleMeshG] 1 = 1 ∧
    (ptablesOf exampleMeshG).vertexValenceTable[1 * (2 * 2 + 1) + (1 + 2)]? = some 0 ∧
    ∃ r pt, (Create default [exampleMeshH, exampleMeshG]).1 = some (some r) ∧ r.patchTables = some pt ∧
      pt.vertexValenceTable[(1 + 1) * (2 * 3 + 1) + (1 + 2)]? = some 0 ∧
      pt.vertexValenceTable[(1 + 1) * (2 * 3 + 1) + (1 + 2)]? ≠ some (0 + 1) := by
  refine ⟨by decide, by decide, rfl, by decide, by decide, by decide, ?_⟩
  obtain ⟨r, hr, hp⟩ :=
    Create_adaptive default [exampleMeshH, exampleMeshG] (by simp) (by decide) (by decide)
  refine ⟨r, _, hr, hp, ?_, ?_⟩ <;> decide

/-! ### Edit-table indices still select the same edit batch -/

/-- The table `spliceVertexEditTables` returns holds the concatenation of the inputs'
edit-batch sequences, and it is `NULL` when that concatenation is empty. -/
theorem spliceVertexEditTables_batches (farMesh : FarMesh) (meshes : List FarMesh) :
    spliceVertexEditTables farMesh meshes =
      if concatMeshes meshes (fun _ m => editBatchesOf m) = [] then none
      else some { batches := concatMeshes meshes (fun _ m => editBatchesOf m) } := by
  have hb : (forEach meshes spliceVertexEditTables.insert { batches := [] }).batches =
      concatMeshes meshes (fun _ m => editBatchesOf m) := by
    rw [forEach, forEachFrom_insert]
    rfl
  unfold spliceVertexEditTables
  simp only [List.isEmpty_iff, hb]
  split_ifs
  · rfl
  · congr 1
    cases h : forEach meshes spliceVertexEditTables.insert { batches := [] }
    simp only [h] at hb
    simp [hb]

/-- The edit tables of the merged mesh are what `spliceVertexEditTables` produced. -/
theorem Create_vertexEditTables (self : FarMultiMeshFactory) (meshes : List FarMesh)
    (r : FarMesh) (hr : (Create self meshes).1 = some (some r)) :
    r.vertexEditTables =
      if concatMeshes meshes (fun _ m => editBatchesOf m) = [] then none
      else some { batches := concatMeshes meshes (fun _ m => editBatchesOf m) } := by
  cases meshes with
  | nil => simp [Create] at hr
  | cons mesh0 rest =>
    simp only [Create] at hr
    split_ifs at hr
    all_goals first
      | (simp at hr; done)
      | (obtain rfl := Option.some.inj (Option.some.inj hr); dsimp only
         exact spliceVertexEditTables_batches _ _)
      | (split at hr
         · simp at hr
         · obtain rfl := Option.some.inj (Option.some.inj hr)
           dsimp only
           exact spliceVertexEditTables_batches _ _)

/-- A mesh contributes as many edit batches as `GetNumBatches()` counts. -/
theorem length_editBatchesOf (m : FarMesh) : (editBatchesOf m).length = numEditBatches m := by
  unfold editBatchesOf numEditBatches
  cases m.vertexEditTables <;> rfl

/-- Edit batch `k` of mesh `i` stands at index (edit batches of the meshes before `i`) + `k`
of the concatenation of the inputs' edit-batch sequences. -/
theorem getElem?_merged_editBatches (meshes : List FarMesh) (i k : Nat) (hi : i < meshes.length)
    (hk : k < numEditBatches (meshes.getD i default)) :
    (concatMeshes meshes (fun _ m => editBatchesOf m))[editBatchesBefore meshes i + k]? =
      (editBatchesOf (meshes.getD i default))[k]? :=
  getElem?_concatMeshes meshes (fun _ m => editBatchesOf m) numEditBatches
    (fun _ m => length_editBatchesOf m) i k hi hk

/-- C22: the rebased edit-table index of a merged schedule entry selects the same edit batch
as before the merge.  For a non-empty homogeneous list, take the schedule that the call of
`spliceSubdivisionTables` in `Create` builds and the edit tables that
`spliceVertexEditTables` builds.  For every mesh `i` that carries edit tables and every
hierarchical-edit batch of mesh `i` whose edit-table index `k` is below the number of edit
batches of mesh `i`, the merged edit tables are present, and their batch at the rebased
index of the merged copy of the batch is edit batch `k` of mesh `i`.  The schedule and the
edit tables are those of the mesh `Create` returns whenever, in uniform mode, every input
has the face-corner levels `spliceQuads` reads. -/
theorem Create_edit_index (self : FarMultiMeshFactory) (meshes : List FarMesh)
    (hne : meshes ≠ []) (hom : Homogeneous meshes) :
    ∃ b ve, (spliceSubdivisionTables (Create self meshes).2 FarMesh.new meshes).2.batches = b ∧
      (∀ farMesh, spliceVertexEditTables farMesh meshes = ve) ∧
      (QuadLevelsPresent self meshes →
        ∃ r, (Create self meshes).1 = some (some r) ∧ r.batches = b ∧
          r.vertexEditTables = ve) ∧
      ∀ (i j k : Nat) (t : FarVertexEditTables), i < meshes.length →
        (meshes.getD i default).vertexEditTables = some t →
        j < (meshes.getD i default).batches.length →
        isEditKernel ((meshes.getD i default).batches.getD j default) →
        ((meshes.getD i default).batches.getD j default).tableIndex = (k : Int) →
        k < t.GetNumBatches →
        ∃ c et e, b[batchOffsetOf meshes i + j]? = some c ∧
          ve = some et ∧
          0 ≤ c.tableIndex ∧
          t.batches[k]? = some e ∧
          et.batches[c.tableIndex.toNat]? = some e := by
  have hb := spliceSubdivisionTables_batches (Create self meshes).2 meshes
  refine ⟨_, _, rfl, fun farMesh => spliceVertexEditTables_batches farMesh meshes,
    fun hlev => ?_, ?_⟩
  · obtain ⟨r, hr, -, -, hrb, -⟩ := Create_homogeneous self meshes hne hom hlev
    exact ⟨r, hr, hrb, Create_vertexEditTables self meshes r hr⟩
  intro i j k t hi ht hj hedit hk hkn
  have hnum : numEditBatches (meshes.getD i default) = t.GetNumBatches := by
    simp only [numEditBatches, ht]
  have hof : editBatchesOf (meshes.getD i default) = t.batches := by
    simp only [editBatchesOf, ht]
  have hm := getElem?_merged_editBatches meshes i k hi (by rw [hnum]; exact hkn)
  have hkb : k < t.batches.length := hkn
  rw [hof, List.getElem?_eq_getElem hkb] at hm
  have hidx := ((rebasedBatch_fields meshes i hi
    ((meshes.getD i default).batches.getD j default)).2.2.2.2.2.2.1 hedit).1
  rw [hk] at hidx
  have hnil : concatMeshes meshes (fun _ m => editBatchesOf m) ≠ [] := by
    intro h
    rw [h] at hm
    simp at hm
  refine ⟨_, _, t.batches[k], by rw [hb]; exact getElem?_merged_batches meshes i j hi hj,
    if_neg hnil, ?_, List.getElem?_eq_getElem hkb, ?_⟩
  · rw [hidx]
    omega
  · rw [hidx, show ((k : Int) + (editBatchesBefore meshes i : Int)).toNat =
      editBatchesBefore meshes i + k by omega]
    exact hm

/-- Witness of C22: the two uniform example meshes with edit tables have the three levels of
quads read, so `Create` returns a mesh.  The hierarchical-edit batch of the second mesh
selects its mesh's edit batch 0; in the returned mesh its edit-table index is 2 and batch 2
of the merged edit tables is that edit batch. -/
theorem Create_edit_index_witness :
    [exampleMeshD, exampleMeshF] ≠ [] ∧ Homogeneous [exampleMeshD, exampleMeshF] ∧
    QuadLevelsPresent default [exampleMeshD, exampleMeshF] ∧
    ∃ r c et, (Create default [exampleMeshD, exampleMeshF]).1 = some (some r) ∧
      r.batches[5]? = some c ∧ c.tableIndex = 2 ∧ r.vertexEditTables = some et ∧
      et.batches[2]? = some { vertIndices := [1], edits := [4] } := by
  have hlev : QuadLevelsPresent default [exampleMeshD, exampleMeshF] := by decide
  refine ⟨by simp, by decide, hlev, ?_⟩
  obtain ⟨b, ve, hb, -, hlink, h⟩ :=
    Create_edit_index default [exampleMeshD, exampleMeshF] (by simp) (by decide)
  obtain ⟨r, hr, hrb, hrv⟩ := hlink hlev
  obtain ⟨c, et, e, hc, het, h0, hte, hee⟩ :=
    h 1 3 0 { batches := [{ vertIndices := [1], edits := [4] }] } (by decide) rfl (by decide)
      (by decide) (by decide) (by decide)
  have e5 : batchOffsetOf [exampleMeshD, exampleMeshF] 1 + 3 = 5 := by decide
  rw [e5] at hc
  have hc2 : c.tableIndex = 2 := by
    have hb5 : (b[5]?).map FarKernelBatch.tableIndex = some 2 := by
      rw [← hb, spliceSubdivisionTables_batches]
      decide
    rw [hc] at hb5
    exact Option.some.inj hb5
  have he : e = { vertIndices := [1], edits := [4] } := by
    simp at hte
    exact hte.symm
  refine ⟨r, c, et, hr, by rw [hrb]; exact hc, hc2, by rw [hrv]; exact het, ?_⟩
  rw [hc2] at hee
  rw [← he]
  exact hee

/-! ### Table offsets of the batches still address the same rule records -/

/-- For the bilinear scheme the merged `V_ITa` is the concatenation of the inputs' `V_ITa`,
every entry of mesh `i` rebased by its vertex offset. -/
theorem spliceSubdivisionTables_V_ITa_bilinear (self : FarMultiMeshFactory) (farMesh : FarMesh)
    (meshes : List FarMesh)
    (hs : ¬ (schemeOf meshes = Scheme.catmark ∨ schemeOf meshes = Scheme.loop)) :
    (spliceSubdivisionTables self farMesh meshes).1.V_ITa =
      concatMeshes meshes
        (fun i m => m.subdivisionTables.V_ITa.map (fun x => x + (vertexOffsetOf meshes i : Int))) := by
  simp only [spliceSubdivisionTables, forEach]
  rw [forEachFrom_proj RuleTableIters.V_ITa _
    (fun i m it => stdCopy (m.subdivisionTables.V_ITa.map (fun x => x +
      ((tableOffsetsOf meshes).vertexOffsets.getD i 0 : Nat))) it)
    (fun i m s => by
      have hs2 : ¬ ((meshes.headD default).subdivisionTables.scheme = Scheme.catmark ∨
          (meshes.headD default).subdivisionTables.scheme = Scheme.loop) := hs
      simp only [spliceSubdivisionTables.merge, if_neg hs2, copyWithOffset_eq_stdCopy,
        tableOffsetsOf, forEach])]
  apply splice_buf (0 : Int) _ _ _ (fun m => m.subdivisionTables.V_ITa.length)
  · intro j m
    simp
  · rw [forEachFrom_count]
    simp
  · intro j hj m
    rw [tableOffsetsOf_vertexOffsets _ _ hj]

/-- Entry `n` of record `r` of a flat table. -/
theorem getElem?_recordAt {α : Type} (w : Nat) (table : List α) (r n : Nat) :
    (recordAt w table r)[n]? = if n < w then table[w * r + n]? else none := by
  rw [recordAt, List.getElem?_take, List.getElem?_drop]

/-- When every table holds whole records, the records of the meshes before `i` fill the
entries before mesh `i`'s table. -/
theorem mul_sum_div (w : Nat) (len : FarMesh → Nat) (ms : List FarMesh)
    (hw : ∀ m ∈ ms, w ∣ len m) :
    w * (ms.map (fun m => len m / w)).sum = (ms.map len).sum := by
  induction ms with
  | nil => rfl
  | cons m ms ih =>
    rw [List.map_cons, List.sum_cons, Nat.mul_add, ih (fun x hx => hw x (List.mem_cons_of_mem _ hx)),
      Nat.mul_div_cancel' (hw m (List.mem_cons_self _ _)), List.map_cons, List.sum_cons]

/-- Record `r` of mesh `i` in a concatenation of per-mesh tables that hold whole records. -/
theorem recordAt_concatMeshes {α : Type} (meshes : List FarMesh) (piece : Nat → FarMesh → List α)
    (len : FarMesh → Nat) (hlen : ∀ j m, (piece j m).length = len m) (w : Nat)
    (hw : ∀ m ∈ meshes, w ∣ len m) (i r : Nat) (hi : i < meshes.length)
    (hr : r < len (meshes.getD i default) / w) :
    recordAt w (concatMeshes meshes piece) (((meshes.take i).map (fun m => len m / w)).sum + r) =
      recordAt w (piece i (meshes.getD i default)) r := by
  have hsum := mul_sum_div w len (meshes.take i) (fun m hm => hw m (List.mem_of_mem_take hm))
  have hin : w * r + w ≤ len (meshes.getD i default) := by
    have h1 : (r + 1) * w ≤ len (meshes.getD i default) / w * w := Nat.mul_le_mul_right _ hr
    have h2 := Nat.div_mul_le_self (len (meshes.getD i default)) w
    rw [Nat.add_mul, Nat.one_mul, Nat.mul_comm r w] at h1
    omega
  apply List.ext_getElem?
  intro n
  rw [getElem?_recordAt, getElem?_recordAt]
  split_ifs with hn
  · rw [Nat.mul_add, hsum, Nat.add_assoc]
    exact getElem?_concatMeshes meshes piece len hlen i (w * r + n) hi (by omega)
  · rfl

/-- Record `r` of a rebased `F_ITa` is the rebased record `r`. -/
theorem recordAt_rebaseF_ITa (src : List Int) (tableOffset : Int) (r : Nat) :
    recordAt 2 (rebaseF_ITa src tableOffset) r = rebaseF_ITa (recordAt 2 src r) tableOffset := by
  apply List.ext_getElem?
  intro n
  rw [getElem?_rebaseF_ITa, getElem?_recordAt, getElem?_recordAt, getElem?_rebaseF_ITa]
  by_cases hn : n < 2
  · rw [if_pos hn, if_pos hn, Nat.mul_add_mod]
  · rw [if_neg hn, if_neg hn]
    rfl

/-- Record `r` of a rebased `V_ITa` is the rebased record `r`. -/
theorem recordAt_rebaseV_ITa (src : List Int) (tableOffset vertexOffset : Int) (r : Nat) :
    recordAt 5 (rebaseV_ITa src tableOffset vertexOffset) r =
      rebaseV_ITa (recordAt 5 src r) tableOffset vertexOffset := by
  apply List.ext_getElem?
  intro n
  rw [getElem?_rebaseV_ITa, getElem?_recordAt, getElem?_recordAt, getElem?_rebaseV_ITa]
  by_cases hn : n < 5
  · rw [if_pos hn, if_pos hn, Nat.mul_add_mod]
  · rw [if_neg hn, if_neg hn]
    rfl

/-- Record `r` of a table mapped entry by entry is the mapped record `r`. -/
theorem recordAt_map {α β : Type} (f : α → β) (w : Nat) (src : List α) (r : Nat) :
    recordAt w (src.map f) r = (recordAt w src r).map f := by
  rw [recordAt, recordAt, List.map_take, List.map_drop]

/-- C21: a rebased batch table offset addresses the same rule record as before the merge.
When every input's `F_ITa`, `E_IT` and `V_ITa` size is a multiple of its record width (2 for
`F_ITa`; 4 and 5 for `E_IT` and `V_ITa` under Catmark and Loop, 2 and 1 under bilinear),
then for every face-vertex, edge-vertex or vertex-vertex batch of mesh `i` with table offset
`t` and every record index `r = t + k` inside mesh `i`'s table, the record at index (merged
table offset) + `k` of the merged table is the rebased copy of mesh `i`'s record `r`: for
`F_ITa` the offset field increased by the start of mesh `i`'s `F_IT`, for `E_IT` every
entry other than `-1` increased by the vertex offset, for `V_ITa` under Catmark and Loop
field 0 increased by the start of mesh `i`'s `V_IT` and fields 2 to 4 by the vertex offset
unless `-1`, and under bilinear the entry increased by the vertex offset.  The merged tables
and the merged schedule are those the call of `spliceSubdivisionTables` in `Create` builds
for a non-empty homogeneous list; they are the tables and the schedule of the mesh `Create`
returns whenever, in uniform mode, every input has the face-corner levels `spliceQuads`
reads. -/
theorem Create_table_offsets_address (self : FarMultiMeshFactory) (meshes : List FarMesh)
    (hne : meshes ≠ []) (hom : Homogeneous meshes)
    (hw : ∀ m ∈ meshes, 2 ∣ m.subdivisionTables.F_ITa.length ∧
      edgeRecordWidth (schemeOf meshes) ∣ m.subdivisionTables.E_IT.length ∧
      vertexRecordWidth (schemeOf meshes) ∣ m.subdivisionTables.V_ITa.length) :
    ∃ t b, (spliceSubdivisionTables (Create self meshes).2 FarMesh.new meshes).1 = t ∧
      (spliceSubdivisionTables (Create self meshes).2 FarMesh.new meshes).2.batches = b ∧
      (QuadLevelsPresent self meshes →
        ∃ res, (Create self meshes).1 = some (some res) ∧ res.subdivisionTables = t ∧
          res.batches = b) ∧
      ∀ (i j r : Nat) (k : Int), i < meshes.length →
        j < (meshes.getD i default).batches.length →
        ((meshes.getD i default).batches.getD j default).tableOffset + k = (r : Int) →
        ∃ c, b[batchOffsetOf meshes i + j]? = some c ∧
          (isFaceVertexKernel ((meshes.getD i default).batches.getD j default) →
            r < (meshes.getD i default).subdivisionTables.F_ITa.length / 2 →
            0 ≤ c.tableOffset + k ∧
            recordAt 2 t.F_ITa (c.tableOffset + k).toNat =
              rebaseF_ITa (recordAt 2 (meshes.getD i default).subdivisionTables.F_ITa r)
                (F_ITwriteOffset meshes i : Nat)) ∧
          (isEdgeVertexKernel ((meshes.getD i default).batches.getD j default) →
            r < (meshes.getD i default).subdivisionTables.E_IT.length /
              edgeRecordWidth (schemeOf meshes) →
            0 ≤ c.tableOffset + k ∧
            recordAt (edgeRecordWidth (schemeOf meshes)) t.E_IT
                (c.tableOffset + k).toNat =
              (recordAt (edgeRecordWidth (schemeOf meshes))
                (meshes.getD i default).subdivisionTables.E_IT r).map
                (fun x => offsetUnlessSentinel x (vertexOffsetOf meshes i : Nat))) ∧
          (isVertexVertexKernel ((meshes.getD i default).batches.getD j default) →
            r < (meshes.getD i default).subdivisionTables.V_ITa.length /
              vertexRecordWidth (schemeOf meshes) →
            0 ≤ c.tableOffset + k ∧
            recordAt (vertexRecordWidth (schemeOf meshes)) t.V_ITa
                (c.tableOffset + k).toNat =
              if schemeOf meshes = Scheme.catmark ∨ schemeOf meshes = Scheme.loop then
                rebaseV_ITa (recordAt 5 (meshes.getD i default).subdivisionTables.V_ITa r)
                  (V_ITwriteOffset meshes i : Nat) (vertexOffsetOf meshes i : Nat)
              else
                (recordAt 1 (meshes.getD i default).subdivisionTables.V_ITa r).map
                  (fun x => x + (vertexOffsetOf meshes i : Int))) := by
  have hb := spliceSubdivisionTables_batches (Create self meshes).2 meshes
  refine ⟨_, _, rfl, rfl, fun hlev => ?_, ?_⟩
  · obtain ⟨res, hres, -, hst, hrb, -⟩ := Create_homogeneous self meshes hne hom hlev
    exact ⟨res, hres, hst, hrb⟩
  intro i j r k hi hj hk
  obtain ⟨-, -, -, hface, hedge, hvert, -, -⟩ :=
    rebasedBatch_fields meshes i hi ((meshes.getD i default).batches.getD j default)
  refine ⟨_, by rw [hb]; exact getElem?_merged_batches meshes i j hi hj, ?_, ?_, ?_⟩
  · intro hf hr
    have e : (rebasedBatch meshes i ((meshes.getD i default).batches.getD j default)).tableOffset +
        k = ((faceRuleBlockOffset meshes i + r : Nat) : Int) := by
      rw [hface hf]
      push_cast
      omega
    refine ⟨by rw [e]; exact Int.natCast_nonneg _, ?_⟩
    rw [e, Int.toNat_natCast, spliceSubdivisionTables_F_ITa, faceRuleBlockOffset,
      recordAt_concatMeshes meshes _ (fun m => m.subdivisionTables.F_ITa.length)
        (fun _ _ => by simp [rebaseF_ITa]) 2 (fun m hm => (hw m hm).1) i r hi hr,
      recordAt_rebaseF_ITa]
  · intro hf hr
    have e : (rebasedBatch meshes i ((meshes.getD i default).batches.getD j default)).tableOffset +
        k = ((edgeRuleBlockOffset meshes i + r : Nat) : Int) := by
      rw [hedge hf]
      push_cast
      omega
    refine ⟨by rw [e]; exact Int.natCast_nonneg _, ?_⟩
    rw [e, Int.toNat_natCast, spliceSubdivisionTables_E_IT, edgeRuleBlockOffset,
      recordAt_concatMeshes meshes _ (fun m => m.subdivisionTables.E_IT.length)
        (fun _ _ => by simp) _ (fun m hm => (hw m hm).2.1) i r hi hr,
      recordAt_map]
    rfl
  · intro hf hr
    have e : (rebasedBatch meshes i ((meshes.getD i default).batches.getD j default)).tableOffset +
        k = ((vertexRuleBlockOffset meshes i + r : Nat) : Int) := by
      rw [hvert hf]
      push_cast
      omega
    refine ⟨by rw [e]; exact Int.natCast_nonneg _, ?_⟩
    rw [e, Int.toNat_natCast, vertexRuleBlockOffset]
    by_cases hs : schemeOf meshes = Scheme.catmark ∨ schemeOf meshes = Scheme.loop
    · have hw5 : vertexRecordWidth (schemeOf meshes) = 5 := by
        rw [vertexRecordWidth, if_pos hs]
      rw [if_pos hs, spliceSubdivisionTables_V_ITa _ _ _ hs,
        recordAt_concatMeshes meshes _ (fun m => m.subdivisionTables.V_ITa.length)
          (fun _ _ => by simp [rebaseV_ITa]) _ (fun m hm => (hw m hm).2.2) i r hi hr,
        hw5, recordAt_rebaseV_ITa]
    · have hw1 : vertexRecordWidth (schemeOf meshes) = 1 := by
        rw [vertexRecordWidth, if_neg hs]
      rw [if_neg hs, spliceSubdivisionTables_V_ITa_bilinear _ _ _ hs,
        recordAt_concatMeshes meshes _ (fun m => m.subdivisionTables.V_ITa.length)
          (fun _ _ => by simp) _ (fun m hm => (hw m hm).2.2) i r hi hr,
        hw1, recordAt_map]

/-- Witness of C21: the two uniform example meshes with edit tables have the three levels of
quads read, so `Create` returns a mesh.  The face-vertex batch of the second mesh has table
offset 1 and merged table offset 2, and record 2 of the returned `F_ITa` is the mesh's
record 1, `(3, 3)`, with its offset field increased by 4; its vertex-vertex batch has table
offset 0 and merged table offset 1, and record 1 of the returned `V_ITa` is the mesh's
record 0 rebased. -/
theorem Create_table_offsets_address_witness :
    [exampleMeshD, exampleMeshF] ≠ [] ∧ Homogeneous [exampleMeshD, exampleMeshF] ∧
    (∀ m ∈ [exampleMeshD, exampleMeshF], 2 ∣ m.subdivisionTables.F_ITa.length ∧
      edgeRecordWidth (schemeOf [exampleMeshD, exampleMeshF]) ∣ m.subdivisionTables.E_IT.length ∧
      vertexRecordWidth (schemeOf [exampleMeshD, exampleMeshF]) ∣
        m.subdivisionTables.V_ITa.length) ∧
    QuadLevelsPresent default [exampleMeshD, exampleMeshF] ∧
    ∃ res, (Create default [exampleMeshD, exampleMeshF]).1 = some (some res) ∧
      res.batches.map FarKernelBatch.tableOffset = [0, 0, 2, 1, 1, 7] ∧
      recordAt 2 res.subdivisionTables.F_ITa 2 = [7, 3] ∧
      recordAt 5 res.subdivisionTables.V_ITa 1 = [2, 1, -1, 6, 4] := by
  have hw : ∀ m ∈ [exampleMeshD, exampleMeshF], 2 ∣ m.subdivisionTables.F_ITa.length ∧
      edgeRecordWidth (schemeOf [exampleMeshD, exampleMeshF]) ∣ m.subdivisionTables.E_IT.length ∧
      vertexRecordWidth (schemeOf [exampleMeshD, exampleMeshF]) ∣
        m.subdivisionTables.V_ITa.length := by decide
  have hlev : QuadLevelsPresent default [exampleMeshD, exampleMeshF] := by decide
  refine ⟨by simp, by decide, hw, hlev, ?_⟩
  obtain ⟨t, b, ht, hbb, hlink, h⟩ :=
    Create_table_offsets_address default [exampleMeshD, exampleMeshF] (by simp) (by decide) hw
  obtain ⟨res, hres, hrt, hrb⟩ := hlink hlev
  have hb : (b.map FarKernelBatch.tableOffset) = [0, 0, 2, 1, 1, 7] := by
    rw [← hbb, spliceSubdivisionTables_batches]
    decide
  obtain ⟨c, hc, hf, -, -⟩ := h 1 0 1 0 (by decide) (by decide) (by decide)
  obtain ⟨d, hd, -, -, hv⟩ := h 1 2 0 0 (by decide) (by decide) (by decide)
  have e2 : batchOffsetOf [exampleMeshD, exampleMeshF] 1 + 0 = 2 := by decide
  have e4 : batchOffsetOf [exampleMeshD, exampleMeshF] 1 + 2 = 4 := by decide
  rw [e2] at hc
  rw [e4] at hd
  have hct : c.tableOffset = 2 := by
    have := congrArg (fun l => l[2]?) hb
    simp only [List.getElem?_map, hc] at this
    exact Option.some.inj this
  have hdt : d.tableOffset = 1 := by
    have := congrArg (fun l => l[4]?) hb
    simp only [List.getElem?_map, hd] at this
    exact Option.some.inj this
  obtain ⟨-, hrec⟩ := hf (by decide) (by decide)
  obtain ⟨-, hrec2⟩ := hv (by decide) (by decide)
  rw [hct] at hrec
  rw [hdt] at hrec2
  refine ⟨res, hres, by rw [hrb]; exact hb, ?_, ?_⟩
  · have e : ((2 : Int) + 0).toNat = 2 := by decide
    rw [e] at hrec
    rw [hrt, hrec]
    decide
  · have e : ((1 : Int) + 0).toNat = 1 := by decide
    have e5 : vertexRecordWidth (schemeOf [exampleMeshD, exampleMeshF]) = 5 := by decide
    rw [e, e5] at hrec2
    rw [hrt, hrec2]
    decide

/-! ### The writes of the vertex-valence merge -/

theorem tracedExtends_refl {α : Type} (a : TracedIter α) : TracedIter.Extends a a := by
  refine ⟨Nat.le_refl _, ?_⟩
  rw [Nat.sub_self]
  simp

theorem tracedExtends_trans {α : Type} {a b c : TracedIter α}
    (h1 : TracedIter.Extends a b) (h2 : TracedIter.Extends b c) : TracedIter.Extends a c := by
  refine ⟨Nat.le_trans h1.1 h2.1, ?_⟩
  have h := List.range'_append a.it.pos (b.it.pos - a.it.pos) (c.it.pos - b.it.pos) 1
  rw [Nat.one_mul, Nat.add_sub_cancel' h1.1] at h
  have e : c.it.pos - b.it.pos + (b.it.pos - a.it.pos) = c.it.pos - a.it.pos := by
    have := h1.1
    have := h2.1
    omega
  rw [h2.2, h1.2, List.append_assoc, h, e]

/-- A traced write records the iterator's position. -/
theorem tracedExtends_put {α : Type} (t : TracedIter α) (v : α) :
    TracedIter.Extends t (t.put v) := by
  refine ⟨by simp [TracedIter.put, Iter.put], ?_⟩
  simp [TracedIter.put, Iter.put]

/-- The traced inner loop makes the writes of the inner loop. -/
theorem tracedSlots_erase (valence srcMaxValence dstMaxValence offset : Int)
    (st : TracedIter Int × List Int) :
    ((copyWithOffsetVertexValence.tracedSlots valence srcMaxValence dstMaxValence offset st).1.it,
      (copyWithOffsetVertexValence.tracedSlots valence srcMaxValence dstMaxValence offset st).2) =
      copyWithOffsetVertexValence.slots valence srcMaxValence dstMaxValence offset
        (st.1.it, st.2) := by
  unfold copyWithOffsetVertexValence.tracedSlots copyWithOffsetVertexValence.slots
  generalize List.range (2 * dstMaxValence).toNat = l
  induction l generalizing st with
  | nil => rfl
  | cons i l ih =>
    rw [List.foldl_cons, List.foldl_cons, ih]
    congr 1
    split_ifs <;> rfl

/-- The trace of the traced inner loop is the positions it passed. -/
theorem tracedExtends_slots (valence srcMaxValence dstMaxValence offset : Int)
    (st : TracedIter Int × List Int) :
    TracedIter.Extends st.1
      (copyWithOffsetVertexValence.tracedSlots valence srcMaxValence dstMaxValence
        offset st).1 := by
  unfold copyWithOffsetVertexValence.tracedSlots
  generalize List.range (2 * dstMaxValence).toNat = l
  induction l generalizing st with
  | nil => exact tracedExtends_refl _
  | cons i l ih =>
    rw [List.foldl_cons]
    refine tracedExtends_trans ?_ (ih _)
    split_ifs <;> exact tracedExtends_put _ _

/-- The traced outer loop makes the writes of the outer loop. -/
theorem tracedLoop_erase (srcMaxValence dstMaxValence offset : Int) (fuel : Nat)
    (dst : TracedIter Int) (src : List Int) :
    (copyWithOffsetVertexValence.tracedLoop srcMaxValence dstMaxValence offset fuel dst src).it =
      copyWithOffsetVertexValence.loop srcMaxValence dstMaxValence offset fuel dst.it src := by
  induction fuel generalizing dst src with
  | zero => rfl
  | succ fuel ih =>
    cases src with
    | nil => rfl
    | cons valence it =>
      rw [copyWithOffsetVertexValence.tracedLoop, copyWithOffsetVertexValence.loop, ih]
      have h := tracedSlots_erase |valence| srcMaxValence dstMaxValence offset
        (dst.put valence, it)
      show copyWithOffsetVertexValence.loop srcMaxValence dstMaxValence offset fuel
          (copyWithOffsetVertexValence.tracedSlots |valence| srcMaxValence dstMaxValence offset
            (dst.put valence, it)).1.it
          (copyWithOffsetVertexValence.tracedSlots |valence| srcMaxValence dstMaxValence offset
            (dst.put valence, it)).2 =
        copyWithOffsetVertexValence.loop srcMaxValence dstMaxValence offset fuel
          (copyWithOffsetVertexValence.slots |valence| srcMaxValence dstMaxValence offset
            ((dst.put valence).it, it)).1
          (copyWithOffsetVertexValence.slots |valence| srcMaxValence dstMaxValence offset
            ((dst.put valence).it, it)).2
      rw [← h]

/-- The trace of the traced outer loop is the positions it passed. -/
theorem tracedExtends_loop (srcMaxValence dstMaxValence offset : Int) (fuel : Nat)
    (dst : TracedIter Int) (src : List Int) :
    TracedIter.Extends dst
      (copyWithOffsetVertexValence.tracedLoop srcMaxValence dstMaxValence offset fuel dst src) := by
  induction fuel generalizing dst src with
  | zero => exact tracedExtends_refl _
  | succ fuel ih =>
    cases src with
    | nil => exact tracedExtends_refl _
    | cons valence it =>
      rw [copyWithOffsetVertexValence.tracedLoop]
      exact tracedExtends_trans
        (tracedExtends_trans (tracedExtends_put dst valence)
          (tracedExtends_slots |valence| srcMaxValence dstMaxValence offset
            (dst.put valence, it)))
        (ih _ _)

/-- The traced `copyWithOffsetVertexValence` makes the writes of `copyWithOffsetVertexValence`,
and its trace from an empty one is the positions from where the iterator started up to
where the copy left it. -/
theorem traced_written (it : Iter Int) (src : List Int) (srcMaxValence dstMaxValence offset : Int) :
    (copyWithOffsetVertexValence.traced { it := it, written := [] } src srcMaxValence
        dstMaxValence offset).it =
      copyWithOffsetVertexValence it src srcMaxValence dstMaxValence offset ∧
    (copyWithOffsetVertexValence.traced { it := it, written := [] } src srcMaxValence
        dstMaxValence offset).written =
      List.range' it.pos
        ((copyWithOffsetVertexValence it src srcMaxValence dstMaxValence offset).pos - it.pos) := by
  have h1 := tracedLoop_erase srcMaxValence dstMaxValence offset src.length
    { it := it, written := [] } src
  have h2 := (tracedExtends_loop srcMaxValence dstMaxValence offset src.length
    { it := it, written := [] } src).2
  rw [h1] at h2
  exact ⟨h1, by simpa using h2⟩

/-- The max valence of the counting loop of `splicePatchTables`, as a natural number. -/
theorem patch_count_maxValence (meshes : List FarMesh) (pc : List FarPatchCount) :
    (forEachFrom splicePatchTables.count 0 meshes
      { total_quadOffset0 := 0, total_quadOffset1 := 0, vertexOffsets := [], vertexOffset := 0,
        maxValence := 0, patchCounts := pc, totalCount := FarPatchCount.zero }).maxValence =
      ((mergedMaxValence meshes).toNat : Int) := by
  rw [forEachFrom_patch_count_maxValence, Int.toNat_of_nonneg (mergedMaxValence_nonneg meshes)]
  rfl

/-- The merged valence table holds one record of `2*M + 1` entries per vertex of the inputs
when the aggregate summary counts a gregory-family patch, and is empty otherwise. -/
theorem splicePatchTables_vertexValence_length (self : FarMultiMeshFactory)
    (meshes : List FarMesh) :
    (splicePatchTables self meshes).vertexValenceTable.length =
      if 0 < gregoryCountOf meshes then
        (meshes.map FarMesh.GetNumVertices).sum * (2 * (mergedMaxValence meshes).toNat + 1)
      else 0 := by
  simp only [splicePatchTables, forEach]
  rw [gregory_vv_proj, (KeepsBelow.forEachFrom _ _ 0 meshes _).1]
  simp only [forEachFrom_patch_count, FarPatchCount.zero_of, Nat.zero_add, List.length_replicate,
    PatchArray.ringSize, forEachFrom_patch_count_vertexOffset, patch_count_maxValence]
  have hgc := gregoryCountOf_eq meshes
  split_ifs with h1 h2 h2
  · rw [List.length_replicate]
    have e : (2 * ((mergedMaxValence meshes).toNat : Int) + 1) *
        (((meshes.map FarMesh.GetNumVertices).sum : Nat) : Int) =
        (((meshes.map FarMesh.GetNumVertices).sum *
          (2 * (mergedMaxValence meshes).toNat + 1) : Nat) : Int) := by
      push_cast
      ring
    rw [e, Int.toNat_natCast]
  · simp only [gt_iff_lt, decide_eq_true_eq] at h1
    omega
  · simp only [gt_iff_lt, decide_eq_true_eq] at h1
    omega
  · rfl

/-- The writes for a mesh whose valence table is made of well-formed records: one record of
`2*M + 1` entries per source record, from the start of the mesh's slice on. -/
theorem valenceWrites_records (self : FarMultiMeshFactory) (meshes : List FarMesh) (i : Nat)
    (L : Nat) (recs : List (Int × List Int))
    (hL : (ptablesOf (meshes.getD i default)).maxValence = (L : Int))
    (hLM : L ≤ (mergedMaxValence meshes).toNat)
    (htbl : (ptablesOf (meshes.getD i default)).vertexValenceTable = flattenRecords recs)
    (hrec : ∀ r ∈ recs, r.2.length = 2 * L) :
    splicePatchTables.valenceWrites self meshes i =
      List.range' (vertexOffsetOf meshes i * (2 * (mergedMaxValence meshes).toNat + 1))
        (recs.length * (2 * (mergedMaxValence meshes).toNat + 1)) := by
  have hE : ∀ l ∈ recs.map (emittedRecord L (mergedMaxValence meshes).toNat
      ((forEachFrom splicePatchTables.count 0 meshes
        { total_quadOffset0 := 0, total_quadOffset1 := 0, vertexOffsets := [], vertexOffset := 0,
          maxValence := 0, patchCounts := (FarPatchTables.new self.maxvalence).patchCounts,
          totalCount := FarPatchCount.zero }).vertexOffsets.getD i 0 : Nat)),
      l.length = 2 * (mergedMaxValence meshes).toNat + 1 := by
    intro l hl
    rw [List.mem_map] at hl
    obtain ⟨r, hr, rfl⟩ := hl
    rw [length_emittedRecord L _ _ r (hrec r hr) hLM, Nat.add_comm]
  simp only [splicePatchTables.valenceWrites, forEach]
  rw [(traced_written _ _ _ _ _).2, gregory_vv_proj]
  simp only [patch_count_maxValence, htbl, hL]
  rw [copyWithOffsetVertexValence_eq_stdCopy _ recs L _ _ hLM hrec, stdCopy_pos, pos_after_take,
    length_flatten_uniform _ _ hE, List.length_map]
  simp

/-- A mesh with an empty valence table makes no write. -/
theorem valenceWrites_nil (self : FarMultiMeshFactory) (meshes : List FarMesh) (i : Nat)
    (htbl : (ptablesOf (meshes.getD i default)).vertexValenceTable = []) :
    splicePatchTables.valenceWrites self meshes i = [] := by
  simp only [splicePatchTables.valenceWrites, forEach]
  rw [(traced_written _ _ _ _ _).2, htbl]
  simp [copyWithOffsetVertexValence, copyWithOffsetVertexValence.loop]

/-- A running maximum started at `max a b` is `max a` of the running maximum started at `b`. -/
theorem foldl_max_start {μ : Type} (f : μ → Int) (ms : List μ) (a b : Int) :
    ms.foldl (fun x m => max x (f m)) (max a b) = max a (ms.foldl (fun x m => max x (f m)) b) := by
  induction ms generalizing b with
  | nil => rfl
  | cons m ms ih => rw [List.foldl_cons, List.foldl_cons, max_assoc, ih]

/-- The max valence `splicePatchTables` computes is the maximum of the inputs' max valences,
floored at `0`. -/
theorem mergedMaxValence_eq (meshes : List FarMesh) :
    mergedMaxValence meshes = max 0 (inputsMaxValence meshes) := by
  cases meshes with
  | nil => rfl
  | cons m ms =>
    rw [mergedMaxValence, List.foldl_cons, foldl_max_start]
    rfl

/-- Every input's max valence is at most the maximum of the inputs' max valences. -/
theorem le_inputsMaxValence (meshes : List FarMesh) (m : FarMesh) (hm : m ∈ meshes) :
    (ptablesOf m).maxValence ≤ inputsMaxValence meshes := by
  cases meshes with
  | nil => simp at hm
  | cons m0 ms =>
    have h := foldl_max_spec (fun m : FarMesh => (ptablesOf m).maxValence) ms
      (ptablesOf m0).maxValence
    rcases List.mem_cons.mp hm with rfl | hm2
    · exact h.1
    · exact h.2.1 m hm2

/-- The slices of the meshes follow one another: the slice of a mesh ends at or before the
start of the slice of every later mesh. -/
theorem vertexOffsetOf_mono (meshes : List FarMesh) (i j : Nat) (hij : i < j)
    (hj : j < meshes.length) :
    vertexOffsetOf meshes i + (meshes.getD i default).GetNumVertices ≤ vertexOffsetOf meshes j := by
  have h1 := sum_take_succ_getD FarMesh.GetNumVertices meshes default i (by omega)
  have h2 := List.sum_take_add_sum_drop ((meshes.take j).map FarMesh.GetNumVertices) (i + 1)
  rw [← List.map_take, List.take_take, Nat.min_eq_left (by omega)] at h2
  unfold vertexOffsetOf
  omega

/-- Every index written for mesh `i` lies in mesh `i`'s slice of the merged valence table,
and some input has a non-negative max valence. -/
theorem valenceWrites_slice (self : FarMultiMeshFactory) (meshes : List FarMesh)
    (hrecs : ∀ m ∈ meshes, ValenceRecords m)
    (hempty : gregoryCountOf meshes = 0 → ∀ m ∈ meshes, (ptablesOf m).vertexValenceTable = [])
    (i : Nat) (hi : i < meshes.length) (idx : Nat)
    (hidx : idx ∈ splicePatchTables.valenceWrites self meshes i) :
    inputsMaxValence meshes = ((mergedMaxValence meshes).toNat : Int) ∧
    vertexOffsetOf meshes i * (2 * (mergedMaxValence meshes).toNat + 1) ≤ idx ∧
    idx < (vertexOffsetOf meshes i + (meshes.getD i default).GetNumVertices) *
      (2 * (mergedMaxValence meshes).toNat + 1) ∧
    idx < (splicePatchTables self meshes).vertexValenceTable.length := by
  have hmem : meshes.getD i default ∈ meshes := by
    rw [List.getD_eq_getElem?_getD, List.getElem?_eq_getElem hi]
    exact List.getElem_mem _
  obtain ⟨recs, htbl, hrec, hnum⟩ := hrecs _ hmem
  by_cases htn : (ptablesOf (meshes.getD i default)).vertexValenceTable = []
  · rw [valenceWrites_nil self meshes i htn] at hidx
    simp at hidx
  have hg : 0 < gregoryCountOf meshes := by
    by_contra hg
    exact htn (hempty (by omega) _ hmem)
  have hne : recs ≠ [] := by
    intro h
    rw [h] at htbl
    exact htn htbl
  obtain ⟨r0, hr0⟩ := List.exists_mem_of_ne_nil recs hne
  have hmv : 0 ≤ (ptablesOf (meshes.getD i default)).maxValence := by
    have := hrec r0 hr0
    omega
  have hle := le_inputsMaxValence meshes _ hmem
  have hmerged := mergedMaxValence_eq meshes
  rw [max_eq_right (by omega)] at hmerged
  have hL : (ptablesOf (meshes.getD i default)).maxValence =
      (((ptablesOf (meshes.getD i default)).maxValence.toNat : Nat) : Int) := by
    omega
  have hw := valenceWrites_records self meshes i _ recs hL (by omega) htbl
    (fun r hr => by
      have := hrec r hr
      omega)
  rw [hw, List.mem_range'_1] at hidx
  have hlen := splicePatchTables_vertexValence_length self meshes
  rw [if_pos hg] at hlen
  have hsum := vertexOffsetOf_add_le meshes i hi
  have h1 : recs.length * (2 * (mergedMaxValence meshes).toNat + 1) ≤
      (meshes.getD i default).GetNumVertices * (2 * (mergedMaxValence meshes).toNat + 1) :=
    Nat.mul_le_mul_right _ hnum
  have h2 : (vertexOffsetOf meshes i + (meshes.getD i default).GetNumVertices) *
      (2 * (mergedMaxValence meshes).toNat + 1) ≤
      (meshes.map FarMesh.GetNumVertices).sum * (2 * (mergedMaxValence meshes).toNat + 1) :=
    Nat.mul_le_mul_right _ hsum
  rw [Nat.add_mul] at h2 ⊢
  refine ⟨by omega, hidx.1, by omega, by omega⟩

/-- C23: writes of the vertex-valence merge stay inside the merged table.  For every
adaptive input list in which each mesh's valence table holds at most `numVertices` records
of `1 + 2*maxValence` entries and is empty whenever the merge contains no gregory or
boundary-gregory patch, every index written for mesh `i` lies in mesh `i`'s slice
`[vertexOffset_i * S, (vertexOffset_i + numVertices_i) * S)` of the merged table, where
`S = 2*M + 1` and `M` is the maximum of the inputs' max valences; the index is inside the
merged table, and it is written for no other mesh. -/
theorem Create_valenceWrites (self : FarMultiMeshFactory) (meshes : List FarMesh)
    (hne : meshes ≠ []) (hom : Homogeneous meshes)
    (hadaptive : ∀ m ∈ meshes, m.patchTables.isSome = true)
    (hrecs : ∀ m ∈ meshes, ValenceRecords m)
    (hempty : gregoryCountOf meshes = 0 → ∀ m ∈ meshes, (ptablesOf m).vertexValenceTable = []) :
    ∃ r pt, (Create self meshes).1 = some (some r) ∧ r.patchTables = some pt ∧
      ∀ i, i < meshes.length →
        ∀ idx ∈ splicePatchTables.valenceWrites (Create self meshes).2 meshes i,
          ((vertexOffsetOf meshes i : Nat) : Int) * (2 * inputsMaxValence meshes + 1) ≤
            (idx : Int) ∧
          (idx : Int) <
            ((vertexOffsetOf meshes i + (meshes.getD i default).GetNumVertices : Nat) : Int) *
              (2 * inputsMaxValence meshes + 1) ∧
          idx < pt.vertexValenceTable.length ∧
          ∀ j, j < meshes.length → j ≠ i →
            idx ∉ splicePatchTables.valenceWrites (Create self meshes).2 meshes j := by
  obtain ⟨r, hr, hp⟩ := Create_adaptive self meshes hne hom hadaptive
  refine ⟨r, _, hr, hp, ?_⟩
  intro i hi idx hidx
  obtain ⟨hM, h1, h2, h3⟩ :=
    valenceWrites_slice (Create self meshes).2 meshes hrecs hempty i hi idx hidx
  refine ⟨?_, ?_, h3, ?_⟩
  · rw [hM]
    exact_mod_cast h1
  · rw [hM]
    exact_mod_cast h2
  · intro j hj hji hjdx
    obtain ⟨-, h4, h5, -⟩ :=
      valenceWrites_slice (Create self meshes).2 meshes hrecs hempty j hj idx hjdx
    rcases Nat.lt_or_gt_of_ne hji with hlt | hgt
    · have := Nat.mul_le_mul_right (2 * (mergedMaxValence meshes).toNat + 1)
        (vertexOffsetOf_mono meshes j i hlt hi)
      omega
    · have := Nat.mul_le_mul_right (2 * (mergedMaxValence meshes).toNat + 1)
        (vertexOffsetOf_mono meshes i j hgt hj)
      omega

/-- Witness of C23: in the merge of a mesh of 1 vertex and max valence 3 with a mesh of 2
vertices and max valence 2, the records have 7 entries and the second mesh's writes are
the indices 7 to 20 of the merged table of 21 entries. -/
theorem Create_valenceWrites_witness :
    [exampleMeshH, exampleMeshG] ≠ [] ∧ Homogeneous [exampleMeshH, exampleMeshG] ∧
    (∀ m ∈ [exampleMeshH, exampleMeshG], m.patchTables.isSome = true) ∧
    (∀ m ∈ [exampleMeshH, exampleMeshG], ValenceRecords m) ∧
    (gregoryCountOf [exampleMeshH, exampleMeshG] = 0 →
      ∀ m ∈ [exampleMeshH, exampleMeshG], (ptablesOf m).vertexValenceTable = []) ∧
    splicePatchTables.valenceWrites (Create default [exampleMeshH, exampleMeshG]).2
      [exampleMeshH, exampleMeshG] 1 = List.range' 7 14 ∧
    ∃ r pt, (Create default [exampleMeshH, exampleMeshG]).1 = some (some r) ∧
      r.patchTables = some pt ∧ pt.vertexValenceTable.length = 21 ∧
      ∀ idx ∈ splicePatchTables.valenceWrites (Create default [exampleMeshH, exampleMeshG]).2
          [exampleMeshH, exampleMeshG] 1,
        (7 : Int) ≤ (idx : Int) ∧ (idx : Int) < 21 ∧ idx < pt.vertexValenceTable.length ∧
        idx ∉ splicePatchTables.valenceWrites (Create default [exampleMeshH, exampleMeshG]).2
          [exampleMeshH, exampleMeshG] 0 := by
  have ha : ∀ m ∈ [exampleMeshH, exampleMeshG], m.patchTables.isSome = true := by decide
  have hrecs : ∀ m ∈ [exampleMeshH, exampleMeshG], ValenceRecords m := by
    intro m hm
    simp only [List.mem_cons, List.mem_singleton, List.not_mem_nil, or_false] at hm
    rcases hm with rfl | rfl
    · exact ⟨[(3, [0, 0, 0, 0, 0, 0])], rfl, by decide, by decide⟩
    · exact ⟨[(2, [1, 1, 0, 0]), (1, [0, 1, 0, 0])], rfl, by decide, by decide⟩
  have hempty : gregoryCountOf [exampleMeshH, exampleMeshG] = 0 →
      ∀ m ∈ [exampleMeshH, exampleMeshG], (ptablesOf m).vertexValenceTable = [] :=
    fun h => absurd h (by decide)
  refine ⟨by simp, by decide, ha, hrecs, hempty, by decide, ?_⟩
  obtain ⟨r, pt, hr, hp, h⟩ :=
    Create_valenceWrites default [exampleMeshH, exampleMeshG] (by simp) (by decide) ha hrecs hempty
  have hlen : pt.vertexValenceTable.length = 21 := by
    obtain ⟨r2, hr2, hp2⟩ :=
      Create_adaptive default [exampleMeshH, exampleMeshG] (by simp) (by decide) ha
    rw [hr] at hr2
    obtain rfl := Option.some.inj (Option.some.inj hr2)
    rw [hp] at hp2
    obtain rfl := Option.some.inj hp2
    decide
  refine ⟨r, pt, hr, hp, hlen, ?_⟩
  intro idx hidx
  obtain ⟨h1, h2, h3, h4⟩ := h 1 (by decide) idx hidx
  have e1 : ((vertexOffsetOf [exampleMeshH, exampleMeshG] 1 : Nat) : Int) *
      (2 * inputsMaxValence [exampleMeshH, exampleMeshG] + 1) = 7 := by decide
  have e2 : ((vertexOffsetOf [exampleMeshH, exampleMeshG] 1 +
      ([exampleMeshH, exampleMeshG].getD 1 default).GetNumVertices : Nat) : Int) *
      (2 * inputsMaxValence [exampleMeshH, exampleMeshG] + 1) = 21 := by decide
  rw [e1] at h1
  rw [e2] at h2
  exact ⟨h1, h2, h3, h4 0 (by decide) (by decide)⟩

end FarMultiMeshFactory

end OpenSubdiv
